import Mathlib

/-!
# Flag-conf-file: the precedence stack of `main.go`

A shallow embedding of `src/main.go` and the properties of its two algorithms:
chain loading (`ProcessCfgFile`) and the merge (`Unroll`).

Modelling conventions.

* A Go `map[string]string` is a reference to a mutable object.  Map objects live in a
  heap (`List GoMap`, the address is the position) and a stack element is a reference
  (`MapRef`): `none` is the nil map, `some a` the object at address `a`.
* Go leaves the iteration order of a map unspecified.  `GoMap.entries` fixes one order;
  every property below is stated through membership, multiplicity or lookups, never
  through positions inside a map.
* A run-time panic is the outcome `Exec.panic`.  Loops and recursion of the source whose
  termination is not structural carry a step budget; `Exec.timeout` is the outcome of an
  exhausted budget.  The budgets used are proved sufficient: always for the loop of
  `Unroll`, and for `ProcessCfgFile` whenever the flag layer has no option named by the
  reserved key (`Reserved`), the condition under which the source itself terminates.
* An outcome `Exec.panic` carries no state.  What `Push` and `Unroll` did before they ended
  - the elements appended to the stack, the `fs.Set` calls made - is recorded by the traced
  variants `CfgStack.PushTraced` and `CfgStack.UnrollTraced`, which are proved to have the
  outcome of `CfgStack.Push` and `CfgStack.Unroll`.
* The flag set is a parameter (`FlagLayer`): Go's `flag` package is not part of the
  repository.  The scenarios run on the small instance `goFlag`.
* Console output (`fmt.Printf`) is not modelled, except for the line that
  `ProcessCfgFile` prints on entry, which is kept as the trace of its calls.
-/

namespace FlagConf

/-! ## Go maps -/

/-- The reserved key: `const ProcessKey = "!!Process!!"`. -/
def ProcessKey : String := "!!Process!!"

/-- Assignment `m[k] = v` on the entry list: overwrite the entry of `k`, or add one. -/
def setEntry : List (String × String) → String → String → List (String × String)
  | [], k, v => [(k, v)]
  | e :: es, k, v => if e.1 = k then (k, v) :: es else e :: setEntry es k v

theorem keys_setEntry (l : List (String × String)) (k v : String) :
    (setEntry l k v).map Prod.fst =
      if k ∈ l.map Prod.fst then l.map Prod.fst else l.map Prod.fst ++ [k] := by
  induction l with
  | nil => simp [setEntry]
  | cons e es ih =>
    by_cases h : e.1 = k
    · simp [setEntry, h]
    · have h' : ¬ k = e.1 := fun h2 => h h2.symm
      simp only [setEntry, h, if_false, List.map_cons, ih, List.mem_cons, h', false_or]
      split <;> simp

theorem nodup_setEntry (l : List (String × String)) (k v : String)
    (h : (l.map Prod.fst).Nodup) : ((setEntry l k v).map Prod.fst).Nodup := by
  rw [keys_setEntry]
  split
  · exact h
  · rename_i hk
    rw [List.nodup_append]
    refine ⟨h, List.nodup_singleton k, ?_⟩
    intro a ha hb
    simp only [List.mem_singleton] at hb
    exact hk (hb ▸ ha)

theorem nodup_filter_keys (l : List (String × String)) (p : String × String → Bool)
    (h : (l.map Prod.fst).Nodup) : ((l.filter p).map Prod.fst).Nodup :=
  (List.filter_sublist l).map Prod.fst |>.nodup h

/-- A value of Go type `map[string]string`: finitely many entries with distinct keys. -/
structure GoMap where
  entries : List (String × String)
  nodup : (entries.map Prod.fst).Nodup
deriving DecidableEq

namespace GoMap

/-- The map built by `make(map[string]string)`. -/
def empty : GoMap := ⟨[], List.nodup_nil⟩

/-- The keys of the map. -/
def keys (m : GoMap) : List String := m.entries.map Prod.fst

/-- The two-result lookup `v, ok := m[k]`; `none` stands for `ok == false`. -/
def get? (m : GoMap) (k : String) : Option String :=
  (m.entries.find? (fun e => e.1 = k)).map Prod.snd

/-- The one-result lookup `m[k]`: the zero value `""` when the key is absent. -/
def getD (m : GoMap) (k : String) : String := (m.get? k).getD ""

/-- The assignment `m[k] = v`. -/
def set (m : GoMap) (k v : String) : GoMap :=
  ⟨setEntry m.entries k v, nodup_setEntry m.entries k v m.nodup⟩

/-- The builtin `delete(m, k)`. -/
def delete (m : GoMap) (k : String) : GoMap :=
  ⟨m.entries.filter (fun e => e.1 ≠ k), nodup_filter_keys m.entries _ m.nodup⟩

end GoMap

/-! ## Heap of map objects -/

/-- A value of map type as stored in a variable or slice: nil or a reference. -/
abbrev MapRef := Option Nat

/-- The map objects allocated so far; the address of an object is its position. -/
abbrev Heap := List GoMap

/-- The object at an address (an address never allocated reads as the empty map). -/
def deref (h : Heap) (a : Nat) : GoMap := h.getD a GoMap.empty

/-- Overwrite the object at an address. -/
def store (h : Heap) (a : Nat) (m : GoMap) : Heap := List.set h a m

/-- Entries seen by `for k, v := range item`; ranging over a nil map runs no iteration. -/
def rangeOf (h : Heap) (item : MapRef) : List (String × String) :=
  match item with
  | none => []
  | some a => (deref h a).entries

/-- The read `mm[k]` through a reference; a nil map reads as the zero value. -/
def lookupRef (h : Heap) (mm : MapRef) (k : String) : String :=
  match mm with
  | none => ""
  | some a => (deref h a).getD k

/-! ## Outcomes -/

/-- Outcome of running a piece of the program. -/
inductive Exec (α : Type) where
  | ret (a : α)
  | panic (msg : String)
  | timeout
deriving DecidableEq

/-! ## `SliceIterator` -/

/-- The closure returned by `SliceIterator`: the captured `slice`, `reverse` and `index`. -/
structure SliceIter (T : Type) where
  slice : List T
  reverse : Bool
  index : Int

/-- `SliceIterator(slice, reverse)` (lines 12-16): the initial cursor. -/
def SliceIterator {T : Type} (slice : List T) (reverse : Bool) : SliceIter T :=
  { slice := slice, reverse := reverse,
    index := if reverse then (slice.length : Int) - 1 else 0 }

/-- One call of the producer (lines 17-30): the pair `(item, ok)` and the closure after
the call.  `default` is the zero value of `T`. -/
def SliceIter.call {T : Type} [Inhabited T] (it : SliceIter T) : (T × Bool) × SliceIter T :=
  if it.reverse then
    if it.index ≥ 0 then
      ((it.slice.getD it.index.toNat default, true), { it with index := it.index - 1 })
    else ((default, false), it)
  else if it.index < (it.slice.length : Int) then
    ((it.slice.getD it.index.toNat default, true), { it with index := it.index + 1 })
  else ((default, false), it)

/-! ## The flag layer -/

/-- The operations of `*flag.FlagSet` that the program uses, over a state type `σ`.
`Visit` lists `(f.Name, f.Value.String())` for the flags it visits, in visiting order;
`Set` returns the new state and whether the returned error is nil.  The error returned
by `Parse` is discarded by the program and is not part of the interface; a flag set
configured to exit or panic inside `Parse` is outside the model. -/
structure FlagLayer (σ : Type) where
  Parsed : σ → Bool
  Parse : σ → List String → σ
  Visit : σ → List (String × String)
  Set : σ → String → String → σ × Bool

/-! ## `CfgStack` -/

/-- The receiver `s *CfgStack` of the methods: a nil pointer, a pointer to a nil slice,
or a pointer to a slice of map references. -/
inductive CfgStack where
  | nilPtr
  | nilSlice
  | slice (refs : List MapRef)
deriving DecidableEq

/-- The program state the methods act on: the heap, the stack `*s` and the flag set. -/
structure State (σ : Type) where
  heap : Heap
  s : CfgStack
  fs : σ
deriving DecidableEq

/-- `NewCfgStack` (lines 35-46).  `fs = none` is the nil flag set.  The snapshot `m` is a
fresh map object holding every visited flag. -/
def NewCfgStack {σ : Type} (F : FlagLayer σ) (heap : Heap) (fs : Option σ) :
    Except String (State σ) :=
  match fs with
  | none => .error "fs is nil"
  | some fs =>
    if !F.Parsed fs then .error "fs is not parsed"
    else
      let m := (F.Visit fs).foldl (fun m f => m.set f.1 f.2) GoMap.empty
      .ok { heap := heap ++ [m], s := .slice [some heap.length], fs := fs }

/-- `Push` (lines 48-55). -/
def CfgStack.Push {σ : Type} (st : State σ) (m : MapRef) : Exec (State σ) :=
  match st.s with
  | .nilPtr => .panic "*CfgStack is a nil pointer or pointing to a nil map"
  | .nilSlice => .panic "*CfgStack is a nil pointer or pointing to a nil map"
  | .slice refs =>
    match m with
    | none => .ret st
    | some a => .ret { st with s := .slice (refs ++ [some a]) }

/-- Lines 72-74: `if _, ok := res[k]; !ok { res[k] = v }`.  Reading a nil `res` gives
`ok == false`, and the assignment to an entry of a nil map panics. -/
def mergeEntry (h : Heap) (res : MapRef) (kv : String × String) : Exec Heap :=
  match res with
  | none => .panic "assignment to entry in nil map"
  | some r =>
    if ((deref h r).get? kv.1).isSome then .ret h
    else .ret (store h r ((deref h r).set kv.1 kv.2))

/-- Lines 71-75: the loop over the entries of one item. -/
def mergeRange (res : MapRef) : List (String × String) → Heap → Exec Heap
  | [], h => .ret h
  | kv :: kvs, h =>
    match mergeEntry h res kv with
    | .ret h1 => mergeRange res kvs h1
    | .panic e => .panic e
    | .timeout => .timeout

/-- Lines 70-76: `for item, ok := iterator(); ok; item, ok = iterator()`, with a budget
of calls of the producer. -/
def unrollLoop (res : MapRef) : Nat → SliceIter MapRef → Heap → Exec Heap
  | 0, _, _ => .timeout
  | n + 1, it, h =>
    let r := it.call
    if r.1.2 then
      match mergeRange res (rangeOf h r.1.1) h with
      | .ret h1 => unrollLoop res n r.2 h1
      | .panic e => .panic e
      | .timeout => .timeout
    else .ret h

/-- Line 77: `delete(res, ProcessKey)`; a no-op on a nil map. -/
def deleteKey (h : Heap) (res : MapRef) : Heap :=
  match res with
  | none => h
  | some r => store h r ((deref h r).delete ProcessKey)

/-- What `Unroll` did to the flag layer: the `fs.Set(k, v)` calls in the order made, and
those among them that returned an error (each is reported, none stops the loop). -/
structure SetLog where
  calls : List (String × String)
  failed : List (String × String)
deriving DecidableEq

/-- Lines 78-83: the loop that applies every entry of `res` to the flag set. -/
def setAll {σ : Type} (F : FlagLayer σ) : List (String × String) → σ → SetLog → σ × SetLog
  | [], fs, log => (fs, log)
  | kv :: kvs, fs, log =>
    let r := F.Set fs kv.1 kv.2
    setAll F kvs r.1
      { calls := log.calls ++ [kv],
        failed := if r.2 then log.failed else log.failed ++ [kv] }

/-- Lines 61-68: the split of the stack into `res` and `rest`.  Indexing an empty slice
panics. -/
def splitStack (refs : List MapRef) (lateSet : Bool) : Option (MapRef × List MapRef) :=
  match refs with
  | [] => none
  | r0 :: tl =>
    if lateSet then some ((r0 :: tl).getLast (List.cons_ne_nil r0 tl), (r0 :: tl).dropLast)
    else some (r0, tl)

/-- `Unroll` (lines 57-84). -/
def CfgStack.Unroll {σ : Type} (F : FlagLayer σ) (st : State σ) (lateSet : Bool) :
    Exec (State σ × SetLog) :=
  match st.s with
  | .nilPtr => .panic "*CfgStack is a nil pointer or pointing to a nil map"
  | .nilSlice => .panic "*CfgStack is a nil pointer or pointing to a nil map"
  | .slice refs =>
    match splitStack refs lateSet with
    | none => .panic "index out of range"
    | some (res, rest) =>
      match unrollLoop res (rest.length + 1) (SliceIterator rest lateSet) st.heap with
      | .panic e => .panic e
      | .timeout => .timeout
      | .ret h1 =>
        let h2 := deleteKey h1 res
        let r := setAll F (rangeOf h2 res) st.fs { calls := [], failed := [] }
        .ret ({ heap := h2, s := .slice refs, fs := r.1 }, r.2)

/-! ## Chain loading -/

/-- The files `os.ReadFile` can read: path and contents.  The first entry of a path is
the file; the empty path names no file. -/
structure Env where
  files : List (String × String)

/-- `os.ReadFile(path)` (line 88); `none` is a read error. -/
def ReadFile (env : Env) (path : String) : Option String :=
  if path = "" then none
  else (env.files.find? (fun f => f.1 = path)).map Prod.snd

/-- The distinct paths that can be read. -/
def readablePaths (env : Env) : List String :=
  ((env.files.map Prod.fst).filter (fun p => p ≠ "")).dedup

/-- Go's `unicode.IsSpace`. -/
def isSpace (c : Char) : Bool :=
  let n := c.toNat
  (9 ≤ n && n ≤ 13) || n = 32 || n = 0x85 || n = 0xA0 || n = 0x1680 ||
    (0x2000 ≤ n && n ≤ 0x200A) || n = 0x2028 || n = 0x2029 || n = 0x202F ||
    n = 0x205F || n = 0x3000

/-- `strings.TrimSpace`. -/
def TrimSpace (cs : List Char) : List Char :=
  ((cs.dropWhile isSpace).reverse.dropWhile isSpace).reverse

/-- `strings.Split(s, " ")`; `cur` holds the current piece, reversed. -/
def splitSpaces : List Char → List Char → List (List Char)
  | [], cur => [cur.reverse]
  | c :: cs, cur =>
    if c = ' ' then cur.reverse :: splitSpaces cs [] else splitSpaces cs (c :: cur)

/-- Lines 92-93: `strings.Split(strings.TrimSpace(strings.ReplaceAll(data, "\n", " ")), " ")`. -/
def tokenize (data : String) : List String :=
  (splitSpaces (TrimSpace (data.data.map (fun c => if c = '\n' then ' ' else c))) []).map
    String.mk

/-- Line 101: `strings.HasPrefix(cmd, "-") && strings.HasSuffix(cmd, name)`. -/
def tokenNames (cmd name : String) : Bool :=
  List.isPrefixOf ['-'] cmd.data && List.isSuffixOf name.data cmd.data

/-- Lines 100-109: the callback of `fs.Visit` for one visited flag `f = (name, value)`.
The state is the snapshot `m` and the variable `cfgFile`. -/
def visitFlag (cfgName : String) (cmds : List String) (acc : GoMap × String)
    (f : String × String) : GoMap × String :=
  if cmds.any (fun cmd => tokenNames cmd f.1) then
    (acc.1.set f.1 f.2, if f.1 = cfgName then f.2 else acc.2)
  else acc

/-- Lines 95-110: the snapshot `m` of one file and the value of `cfgFile`. -/
def buildSnapshot {σ : Type} (F : FlagLayer σ) (path cfgName : String) (cmds : List String)
    (fs : σ) : GoMap × String :=
  (F.Visit fs).foldl (visitFlag cfgName cmds) (GoMap.empty.set ProcessKey path, "")

/-- The errors `ProcessCfgFile` returns. -/
inductive CfgError where
  /-- Line 90: "Error reading config file <path>: ...". -/
  | read (path : String)
  /-- Line 115: "circular reference detected: <path>". -/
  | circular (path : String)
  /-- Line 119: "failed to process config file <path>: <inner>". -/
  | wrapped (path : String) (inner : CfgError)
deriving DecidableEq

/-- The innermost error of a chain of `%w` wrappings. -/
def CfgError.cause : CfgError → CfgError
  | .wrapped _ inner => inner.cause
  | e => e

/-- What a call of `ProcessCfgFile` leaves behind: the state, the returned error (`none`
is nil) and the paths printed on line 87, one per call, in the order of the calls. -/
structure Loaded (σ : Type) where
  st : State σ
  err : Option CfgError
  trace : List String
deriving DecidableEq

/-- The slice `*s` as a list; a nil slice has no elements. -/
def CfgStack.refs : CfgStack → List MapRef
  | .slice refs => refs
  | _ => []

/-- `ProcessCfgFile` (lines 86-123) with a budget of nested calls. -/
def CfgStack.ProcessCfgFileAux {σ : Type} (F : FlagLayer σ) (env : Env) (cfgName : String) :
    Nat → String → State σ → Exec (Loaded σ)
  | 0, _, _ => .timeout
  | budget + 1, path, st =>
    match ReadFile env path with
    | none => .ret { st := st, err := some (.read path), trace := [path] }
    | some data =>
      let cmds := tokenize data
      let fs1 := F.Parse st.fs cmds
      let snap := buildSnapshot F path cfgName cmds fs1
      match CfgStack.Push { heap := st.heap ++ [snap.1], s := st.s, fs := fs1 }
          (some st.heap.length) with
      | .panic e => .panic e
      | .timeout => .timeout
      | .ret st1 =>
        if snap.2 ≠ "" then
          if st1.s.refs.any (fun mm => lookupRef st1.heap mm ProcessKey = snap.2) then
            .ret { st := st1, err := some (.circular snap.2), trace := [path] }
          else
            match ProcessCfgFileAux F env cfgName budget snap.2 st1 with
            | .ret r =>
              .ret { st := r.st, err := r.err.map (CfgError.wrapped snap.2),
                     trace := path :: r.trace }
            | .panic e => .panic e
            | .timeout => .timeout
        else .ret { st := st1, err := none, trace := [path] }

/-- `ProcessCfgFile` (lines 86-123): the budget is one call per file of the file system
and one more. -/
def CfgStack.ProcessCfgFile {σ : Type} (F : FlagLayer σ) (env : Env) (path cfgName : String)
    (st : State σ) : Exec (Loaded σ) :=
  CfgStack.ProcessCfgFileAux F env cfgName (env.files.length + 1) path st

/-! ## A concrete flag layer

The program takes its flag set from Go's standard `flag` package, which is not part of
the repository.  The general theorems are about an arbitrary `FlagLayer`; the scenarios
run on the instance below. -/

/-- The kinds of flag value that `main` registers. -/
inductive FlagKind where
  | str
  | int
  | bool
deriving DecidableEq

/-- A registered flag: name, kind and `Value.String()`. -/
structure FlagVar where
  name : String
  kind : FlagKind
  value : String
deriving DecidableEq

/-- Modelled from the spec: the state of the flag-parsing capability of §6 (a
`flag.FlagSet`): the registered flags in the order `Visit` walks them, the names of the
flags set so far, and whether `Parse` was called.  The key `!!Process!!` is reserved for
the provenance marker (§3): no flag is registered under it. -/
structure GoFlagSet where
  formal : List FlagVar
  actual : List String
  parsed : Bool
  reserved : ∀ f ∈ formal, f.name ≠ ProcessKey
deriving DecidableEq

theorem reserved_update (formal : List FlagVar) (name v : String)
    (h : ∀ f ∈ formal, f.name ≠ ProcessKey) :
    ∀ f ∈ formal.map (fun g => if g.name = name then { g with value := v } else g),
      f.name ≠ ProcessKey := by
  intro f hf
  obtain ⟨g, hg, rfl⟩ := List.mem_map.mp hf
  split
  · exact h g hg
  · exact h g hg

/-- A decimal literal in canonical form with at most 18 digits. -/
def isDecimal (cs : List Char) : Bool :=
  match cs with
  | [] => false
  | ['0'] => true
  | d :: ds => d ≠ '0' && (d :: ds).all Char.isDigit && ds.length < 18

/-- Modelled from the spec: `Value.Set(s)` followed by `Value.String()`, for the three
kinds of flag; `none` is a value the flag rejects.  An integer flag accepts canonical
decimal literals only. -/
def parseValue (kind : FlagKind) (s : String) : Option String :=
  match kind with
  | .str => some s
  | .bool =>
    if s ∈ ["1", "t", "T", "TRUE", "true", "True"] then some "true"
    else if s ∈ ["0", "f", "F", "FALSE", "false", "False"] then some "false"
    else none
  | .int =>
    match s.data with
    | '-' :: ds => if isDecimal ds && ds ≠ ['0'] then some s else none
    | ds => if isDecimal ds then some s else none

/-- Modelled from the spec: set-by-name of §6 (c).  An unknown name or a rejected value
is a failure, and the model leaves the flag set as it was; a success records the flag as
set. -/
def GoFlagSet.Set (fs : GoFlagSet) (name value : String) : GoFlagSet × Bool :=
  match fs.formal.find? (fun f => f.name = name) with
  | none => (fs, false)
  | some f =>
    match parseValue f.kind value with
    | none => (fs, false)
    | some v =>
      ({ formal := fs.formal.map (fun g => if g.name = name then { g with value := v } else g),
         actual := if name ∈ fs.actual then fs.actual else fs.actual ++ [name],
         parsed := fs.parsed,
         reserved := reserved_update fs.formal name v fs.reserved }, true)

/-- Where the argument scanner stands: reading a flag, waiting for the value of a flag,
or stopped (first non-flag argument, `--`, or an error). -/
inductive ParseMode where
  | scan
  | value (name : String)
  | done
deriving DecidableEq

/-- Split `name=value` at the first `=` that is not the first character. -/
def splitEquals : List Char → List Char → List Char × Option (List Char)
  | [], acc => (acc.reverse, none)
  | c :: cs, acc => if c = '=' then (acc.reverse, some cs) else splitEquals cs (c :: acc)

/-- Modelled from the spec: one argument of parse(tokens) of §6 (a), following the
command-line syntax of the `flag` package: `-name value`, `-name=value`, `--name`, a
boolean flag takes no separate value, and scanning stops at the first argument that is
not a flag or is in error. -/
def parseArg (st : GoFlagSet × ParseMode) (s : String) : GoFlagSet × ParseMode :=
  match st.2 with
  | .done => st
  | .value name =>
    let r := st.1.Set name s
    if r.2 then (r.1, .scan) else (st.1, .done)
  | .scan =>
    match s.data with
    | '-' :: c :: cs =>
      if c = '-' && cs = [] then (st.1, .done)
      else
        match (if c = '-' then cs else c :: cs) with
        | [] => (st.1, .done)
        | d :: ds =>
          if d = '-' || d = '=' then (st.1, .done)
          else
            let nv := splitEquals ds [d]
            match st.1.formal.find? (fun f => f.name = String.mk nv.1) with
            | none => (st.1, .done)
            | some f =>
              match nv.2 with
              | some v =>
                let r := st.1.Set f.name (String.mk v)
                if r.2 then (r.1, .scan) else (st.1, .done)
              | none =>
                if f.kind = .bool then
                  let r := st.1.Set f.name "true"
                  if r.2 then (r.1, .scan) else (st.1, .done)
                else (st.1, .value f.name)
    | _ => (st.1, .done)

/-- Modelled from the spec: the flag-parsing capability of §6 with the operations
(a) parse, (b) visit of the flags set so far and (c) set-by-name. -/
def goFlag : FlagLayer GoFlagSet where
  Parsed := fun fs => fs.parsed
  Parse := fun fs args => (args.foldl parseArg ({ fs with parsed := true }, .scan)).1
  Visit := fun fs =>
    (fs.formal.filter (fun f => f.name ∈ fs.actual)).map (fun f => (f.name, f.value))
  Set := GoFlagSet.Set

/-- Lines 129-133 of `main`: the flags `a`, `c`, `m`, `n` with their defaults. -/
def mainFlags : GoFlagSet :=
  { formal := [⟨"a", .int, "0"⟩, ⟨"c", .str, ""⟩, ⟨"m", .bool, "false"⟩, ⟨"n", .str, ""⟩],
    actual := [], parsed := false, reserved := by decide }

/-- Line 135 of `main`: the flag set after `fs.Parse([]string{"-n", "fake", "-c", "test.cfg"})`. -/
def mainParsed : GoFlagSet := goFlag.Parse mainFlags ["-n", "fake", "-c", "test.cfg"]

/-- The files of the scenario of §8: `test.cfg` names `parent.cfg` as the next file. -/
def chainEnv : Env :=
  { files := [("test.cfg", "-a 30 -c parent.cfg\n"), ("parent.cfg", "-m true\n")] }

/-- The file of the second scenario of §8: `test.cfg` names itself. -/
def selfEnv : Env := { files := [("test.cfg", "-c test.cfg\n")] }

/-! ## Vocabulary of the properties -/

/-- The value `Unroll` gives to a key: the value in the first map, in traversal order,
that has the key. -/
def firstValue : List GoMap → String → Option String
  | [], _ => none
  | m :: ms, k =>
    match m.get? k with
    | some v => some v
    | none => firstValue ms k

/-- The loop of lines 70-76 over a list of items instead of the producer. -/
def mergeItems (res : MapRef) : List MapRef → Heap → Exec Heap
  | [], h => .ret h
  | item :: items, h =>
    match mergeRange res (rangeOf h item) h with
    | .ret h1 => mergeItems res items h1
    | .panic e => .panic e
    | .timeout => .timeout

/-- A reference to an allocated map object. -/
def validRef (h : Heap) (r : MapRef) : Bool :=
  match r with
  | none => false
  | some a => decide (a < h.length)

/-- The map a stack element refers to (nil reads as the empty map). -/
def snapshotOf (h : Heap) (r : MapRef) : GoMap :=
  match r with
  | none => GoMap.empty
  | some a => deref h a

/-- The items of `rest` in the order the producer of `SliceIterator(rest, lateSet)` yields
them. -/
def traversal (rest : List MapRef) (lateSet : Bool) : List MapRef :=
  if lateSet then rest.reverse else rest

/-- The snapshots of the stack, first to last, as map values. -/
def snapshots {σ : Type} (st : State σ) : List GoMap :=
  st.s.refs.map (snapshotOf st.heap)

/-- An initialised, non-empty stack whose elements are allocated map objects. -/
def State.ready {σ : Type} (st : State σ) : Bool :=
  match st.s with
  | .slice (r :: rs) => (r :: rs).all (validRef st.heap)
  | _ => false

/-- The order in which `Unroll` consults the snapshots: `res` first, then `rest` as the
producer yields it. -/
def unrollOrder {α : Type} (l : List α) (lateSet : Bool) : List α :=
  if lateSet then l.reverse else l

/-- Lines 92-110 for a file with contents `data`, on flag state `fs`: the snapshot `m`
and the value of `cfgFile`. -/
def fileSnapshot {σ : Type} (F : FlagLayer σ) (cfgName path data : String) (fs : σ) :
    GoMap × String :=
  buildSnapshot F path cfgName (tokenize data) (F.Parse fs (tokenize data))

/-- The state after line 111 for a readable file, on the slice `refs`: the flags parsed,
the snapshot allocated and pushed. -/
def pushFile {σ : Type} (F : FlagLayer σ) (cfgName path data : String) (st : State σ)
    (refs : List MapRef) : State σ :=
  { heap := st.heap ++ [(fileSnapshot F cfgName path data st.fs).1],
    s := .slice (refs ++ [some st.heap.length]),
    fs := F.Parse st.fs (tokenize data) }

/-- The provenance markers `mm[ProcessKey]` of the stack, first to last, as line 114
reads them. -/
def markers {σ : Type} (st : State σ) : List String :=
  st.s.refs.map (fun mm => lookupRef st.heap mm ProcessKey)

/-- The returning runs of `ProcessCfgFile`, one rule per way through the body: the read
fails (line 90); the chain ends (line 122); the cycle check fires (line 115); or the
call recurses (line 118). -/
inductive Loads {σ : Type} (F : FlagLayer σ) (env : Env) (cfgName : String) :
    String → State σ → Loaded σ → Prop where
  | unreadable (path : String) (st : State σ) :
      ReadFile env path = none →
      Loads F env cfgName path st { st := st, err := some (.read path), trace := [path] }
  | stop (path : String) (st : State σ) (refs : List MapRef) (data : String) :
      ReadFile env path = some data → st.s = .slice refs →
      (fileSnapshot F cfgName path data st.fs).2 = "" →
      Loads F env cfgName path st
        { st := pushFile F cfgName path data st refs, err := none, trace := [path] }
  | cycle (path : String) (st : State σ) (refs : List MapRef) (data : String) :
      ReadFile env path = some data → st.s = .slice refs →
      (fileSnapshot F cfgName path data st.fs).2 ≠ "" →
      (fileSnapshot F cfgName path data st.fs).2 ∈ markers (pushFile F cfgName path data st refs) →
      Loads F env cfgName path st
        { st := pushFile F cfgName path data st refs,
          err := some (.circular (fileSnapshot F cfgName path data st.fs).2), trace := [path] }
  | next (path : String) (st : State σ) (refs : List MapRef) (data : String) (r : Loaded σ) :
      ReadFile env path = some data → st.s = .slice refs →
      (fileSnapshot F cfgName path data st.fs).2 ≠ "" →
      (fileSnapshot F cfgName path data st.fs).2 ∉ markers (pushFile F cfgName path data st refs) →
      Loads F env cfgName (fileSnapshot F cfgName path data st.fs).2
        (pushFile F cfgName path data st refs) r →
      Loads F env cfgName path st
        { st := r.st, err := r.err.map (CfgError.wrapped (fileSnapshot F cfgName path data st.fs).2),
          trace := path :: r.trace }

/-- The reservation of the marker key: the flag layer has no option named `!!Process!!`,
so `Visit` never reports that name. -/
def Reserved {σ : Type} (F : FlagLayer σ) : Prop :=
  ∀ fs f, f ∈ F.Visit fs → f.1 ≠ ProcessKey

/-- A map value that does not dangle: nil, or a reference to an allocated object. -/
def liveRef (h : Heap) (r : MapRef) : Bool :=
  match r with
  | none => true
  | some a => decide (a < h.length)

/-- No element of the stack dangles.  Every state of the Go program is such: a map value
is nil or refers to an object that exists. -/
def State.allocated {σ : Type} (st : State σ) : Prop :=
  ∀ x ∈ st.s.refs, liveRef st.heap x = true

/-- The paths of a trace whose file could be read: the calls that pushed a snapshot. -/
def pushedPaths (env : Env) (trace : List String) : List String :=
  trace.filter (fun p => (ReadFile env p).isSome)

/-- The readable paths that are not yet a marker of the stack. -/
def unvisited {σ : Type} (env : Env) (st : State σ) : List String :=
  (readablePaths env).filter (fun p => p ∉ markers st)

/-- The stacks the program builds: `NewCfgStack` on a parsed flag set, then any number of
`ProcessCfgFile` calls that return (with or without an error). -/
inductive Built {σ : Type} (F : FlagLayer σ) (env : Env) : State σ → Prop where
  | new (heap : Heap) (fs : σ) (st : State σ) :
      NewCfgStack F heap (some fs) = .ok st → Built F env st
  | load (st : State σ) (path cfgName : String) (r : Loaded σ) :
      Built F env st → CfgStack.ProcessCfgFile F env path cfgName st = .ret r →
      Built F env r.st

/-- The value of key `k` in the snapshot at index `i` of the stack; `none` when the
snapshot has no such key (or the stack no such index). -/
def valueAt {σ : Type} (st : State σ) (i : Nat) (k : String) : Option String :=
  ((snapshots st)[i]?).bind (fun m => m.get? k)

/-- Line 139 of `main` on its command line: the stack holding the process-level
snapshot `{c: test.cfg, n: fake}`. -/
def mainStack : State GoFlagSet :=
  { heap := [⟨[("c", "test.cfg"), ("n", "fake")], by decide⟩],
    s := .slice [some 0],
    fs := mainParsed }

/-- Line 144 of `main` on the files of `chainEnv`: the stack after loading `test.cfg`
and, through it, `parent.cfg`. -/
def chainState : State GoFlagSet :=
  { heap := [⟨[("c", "test.cfg"), ("n", "fake")], by decide⟩,
             ⟨[("!!Process!!", "test.cfg"), ("a", "30"), ("c", "parent.cfg")], by decide⟩,
             ⟨[("!!Process!!", "parent.cfg"), ("m", "true")], by decide⟩],
    s := .slice [some 0, some 1, some 2],
    fs := goFlag.Parse (goFlag.Parse mainParsed ["-a", "30", "-c", "parent.cfg"]) ["-m", "true"] }

/-- The provenance entries of the snapshots, first to last; `none` for a snapshot without
a marker. -/
def provenance {σ : Type} (st : State σ) : List (Option String) :=
  (snapshots st).map (fun m => m.get? ProcessKey)

/-- The state after `ProcessCfgFile` on the self-referencing `test.cfg`. -/
def selfState : State GoFlagSet :=
  { heap := [⟨[("c", "test.cfg"), ("n", "fake")], by decide⟩,
             ⟨[("!!Process!!", "test.cfg"), ("c", "test.cfg")], by decide⟩],
    s := .slice [some 0, some 1],
    fs := goFlag.Parse mainParsed ["-c", "test.cfg"] }

/-- The flag state after `fs.Parse` ran on the tokens of the files at `paths`, in order
(line 94, once per file). -/
def parseFiles {σ : Type} (F : FlagLayer σ) (env : Env) : σ → List String → σ
  | fs, [] => fs
  | fs, p :: ps => parseFiles F env (F.Parse fs (tokenize ((ReadFile env p).getD ""))) ps

/-- Two files that name each other. -/
def loopEnv : Env :=
  { files := [("a.cfg", "-c b.cfg\n"), ("b.cfg", "-n x -c a.cfg\n")] }

/-- The closure after `n` calls of the producer. -/
def SliceIter.after {T : Type} [Inhabited T] (it : SliceIter T) : Nat → SliceIter T
  | 0 => it
  | n + 1 => (it.call.2).after n

/-- The pair `(item, ok)` that call number `i + 1` of the producer yields. -/
def SliceIter.nth {T : Type} [Inhabited T] (it : SliceIter T) (i : Nat) : T × Bool :=
  ((it.after i).call).1

/-- The stack of the scenario next to a map made by `make(map[string]string)` and not
yet pushed. -/
def emptyMapState : State GoFlagSet :=
  { heap := mainStack.heap ++ [GoMap.empty], s := mainStack.s, fs := mainStack.fs }

/-- Some token of the file names the option: line 101 holds for one of the `cmds`. -/
def named (cmds : List String) (name : String) : Bool :=
  cmds.any (fun cmd => tokenNames cmd name)

/-- The options that `Parse` sets while it reads `cmds`: the names recorded as set when
the parse starts from the same flags with nothing recorded as set. -/
def setByTokens (fs : GoFlagSet) (cmds : List String) : List String :=
  (goFlag.Parse { fs with actual := [] } cmds).actual

/-- The paths an error names, outermost first: one per `%w` wrapping (line 119), then the
path of the innermost error. -/
def CfgError.paths : CfgError → List String
  | .read p => [p]
  | .circular p => [p]
  | .wrapped p inner => p :: inner.paths

/-- A file system in which `test.cfg` names a file that does not exist. -/
def brokenEnv : Env := { files := [("test.cfg", "-c missing.cfg\n")] }

/-- The state after `Unroll` was called once per direction of `ds`, in order (lines
149-153 of `main` call it with `false`, `true`, `false`). -/
def unrollAll {σ : Type} (F : FlagLayer σ) : State σ → List Bool → Exec (State σ)
  | st, [] => .ret st
  | st, d :: ds =>
    match CfgStack.Unroll F st d with
    | .ret r => unrollAll F r.1 ds
    | .panic e => .panic e
    | .timeout => .timeout

/-- The states a program reaches from `NewCfgStack` through the methods of the stack:
`Push` of nil or of a map object that exists (`alloc` is the program making one),
`ProcessCfgFile` and `Unroll`, whenever they return. -/
inductive Reachable {σ : Type} (F : FlagLayer σ) (env : Env) : State σ → Prop where
  | new (heap : Heap) (fs : σ) (st : State σ) :
      NewCfgStack F heap (some fs) = .ok st → Reachable F env st
  | alloc (st : State σ) (m : GoMap) :
      Reachable F env st → Reachable F env { heap := st.heap ++ [m], s := st.s, fs := st.fs }
  | push (st st1 : State σ) (m : MapRef) :
      Reachable F env st → liveRef st.heap m = true → CfgStack.Push st m = .ret st1 →
      Reachable F env st1
  | load (st : State σ) (path cfgName : String) (r : Loaded σ) :
      Reachable F env st → CfgStack.ProcessCfgFile F env path cfgName st = .ret r →
      Reachable F env r.st
  | unroll (st st1 : State σ) (lateSet : Bool) (log : SetLog) :
      Reachable F env st → CfgStack.Unroll F st lateSet = .ret (st1, log) →
      Reachable F env st1

/-- A stack that holds the same map object twice: the fresh stack of `main` after
`Push(x)`, `Push(y)` and `Push((*stack)[0])`, with `x = {a: 1}` and `y = {a: 2}`.  Its
elements are `[r, x, y, r]`, `r` being the process-level snapshot. -/
def aliasedState : State GoFlagSet :=
  { heap := mainStack.heap ++ [⟨[("a", "1")], by decide⟩, ⟨[("a", "2")], by decide⟩],
    s := .slice [some 0, some 1, some 2, some 0],
    fs := mainParsed }

/-- The flag set after the calls `fs.Set(k, v)` for the pairs of `calls`, made in that
order on the flag set `fs` (every call is made, whether or not an earlier one failed). -/
def applySets {σ : Type} (F : FlagLayer σ) (fs : σ) (calls : List (String × String)) : σ :=
  calls.foldl (fun fs kv => (F.Set fs kv.1 kv.2).1) fs

/-- The pairs of `calls` whose call `fs.Set(k, v)` returns an error, when the calls are made
in that order on the flag set `fs`. -/
def failedSets {σ : Type} (F : FlagLayer σ) : σ → List (String × String) →
    List (String × String)
  | _, [] => []
  | fs, kv :: kvs =>
    if (F.Set fs kv.1 kv.2).2 then failedSets F (F.Set fs kv.1 kv.2).1 kvs
    else kv :: failedSets F (F.Set fs kv.1 kv.2).1 kvs

/-- The fresh stack of `main` after `Push` of the map `{zz: 1, m: true}`: `zz` is no
registered option, so `fs.Set("zz", "1")` fails. -/
def strayState : State GoFlagSet :=
  { heap := mainStack.heap ++ [⟨[("zz", "1"), ("m", "true")], by decide⟩],
    s := .slice [some 0, some 1],
    fs := mainParsed }

/-- What a call of `Push` or `Unroll` has done to the stack and to the flag set by the time
it ends, whether it returns or panics: the elements appended to `*s` (line 54) and the
`fs.Set(k, v)` calls made (line 80), each in the order made. -/
structure Effects where
  appended : List MapRef
  calls : List (String × String)
deriving DecidableEq

/-- `Push` (lines 48-55) with its effects: the outcome of `CfgStack.Push`, and next to it
what was appended before the call ended.  The only append is the statement of line 54. -/
def CfgStack.PushTraced {σ : Type} (st : State σ) (m : MapRef) : Effects × Exec (State σ) :=
  match st.s with
  | .nilPtr =>
    ({ appended := [], calls := [] },
      .panic "*CfgStack is a nil pointer or pointing to a nil map")
  | .nilSlice =>
    ({ appended := [], calls := [] },
      .panic "*CfgStack is a nil pointer or pointing to a nil map")
  | .slice refs =>
    match m with
    | none => ({ appended := [], calls := [] }, .ret st)
    | some a =>
      ({ appended := [some a], calls := [] }, .ret { st with s := .slice (refs ++ [some a]) })

/-- `Unroll` (lines 57-84) with its effects: the outcome of `CfgStack.Unroll`, and next to
it the `fs.Set` calls made before the call ended.  `Unroll` has no append statement; the
only calls of `fs.Set` are those of the loop of lines 78-83, which runs after the merge
loop and the `delete`, so a run that panics or exhausts its budget before that loop has
made none. -/
def CfgStack.UnrollTraced {σ : Type} (F : FlagLayer σ) (st : State σ) (lateSet : Bool) :
    Effects × Exec (State σ × SetLog) :=
  match st.s with
  | .nilPtr =>
    ({ appended := [], calls := [] },
      .panic "*CfgStack is a nil pointer or pointing to a nil map")
  | .nilSlice =>
    ({ appended := [], calls := [] },
      .panic "*CfgStack is a nil pointer or pointing to a nil map")
  | .slice refs =>
    match splitStack refs lateSet with
    | none => ({ appended := [], calls := [] }, .panic "index out of range")
    | some (res, rest) =>
      match unrollLoop res (rest.length + 1) (SliceIterator rest lateSet) st.heap with
      | .panic e => ({ appended := [], calls := [] }, .panic e)
      | .timeout => ({ appended := [], calls := [] }, .timeout)
      | .ret h1 =>
        let h2 := deleteKey h1 res
        let r := setAll F (rangeOf h2 res) st.fs { calls := [], failed := [] }
        ({ appended := [], calls := r.2.calls },
          .ret ({ heap := h2, s := .slice refs, fs := r.1 }, r.2))

/-- The tokens `cmds` of the file at `path` (lines 92-93); for a file that cannot be read,
the tokens of the empty contents. -/
def fileTokens (env : Env) (path : String) : List String :=
  tokenize ((ReadFile env path).getD "")

/-- The file at `path`, processed on flag state `fs`, hands the chain on to `next` by the
rule of lines 99-106: some token of the file names the chain option (starts with `-` and
ends with its name, line 101), and after `Parse` ran on the tokens of the file `Visit`
reports the chain option, with the value `next` and no other. -/
def designates {σ : Type} (F : FlagLayer σ) (env : Env) (cfgName path : String) (fs : σ)
    (next : String) : Bool :=
  named (fileTokens env path) cfgName &&
    (F.Visit (F.Parse fs (fileTokens env path))).any (fun f => f.1 == cfgName) &&
    (F.Visit (F.Parse fs (fileTokens env path))).all (fun f => f.1 != cfgName || f.2 == next)

/-- The file at `path`, processed on flag state `fs`, hands the chain on to no file: no
token of the file names the chain option, or after `Parse` ran on the tokens of the file
`Visit` reports the chain option with no value but the empty one. -/
def endsChain {σ : Type} (F : FlagLayer σ) (env : Env) (cfgName path : String) (fs : σ) :
    Bool :=
  !named (fileTokens env path) cfgName ||
    (F.Visit (F.Parse fs (fileTokens env path))).all (fun f => f.1 != cfgName || f.2 == "")

/-- Two files that set the chain option to each other in the form `-c=FILE`. -/
def equalsEnv : Env :=
  { files := [("a.cfg", "-c=b.cfg\n"), ("b.cfg", "-c=a.cfg\n")] }

/-- Line 135 of `main` for the command line `-c a.cfg`. -/
def equalsParsed : GoFlagSet := goFlag.Parse mainFlags ["-c", "a.cfg"]

/-- A file whose tokens name the chain option without setting it: `-c` is read as the
value of `-n`. -/
def valueEnv : Env := { files := [("test.cfg", "-n -c\n")] }

/-! # Properties -/

/-! ## Lookups in a map -/

theorem find_setEntry_self (l : List (String × String)) (k v : String) :
    ((setEntry l k v).find? (fun e => e.1 = k)).map Prod.snd = some v := by
  induction l with
  | nil => simp [setEntry]
  | cons e es ih =>
    by_cases h : e.1 = k
    · simp [setEntry, h]
    · simp [setEntry, h, List.find?_cons, ih]

theorem find_setEntry_ne (l : List (String × String)) (k v k1 : String) (hne : k1 ≠ k) :
    ((setEntry l k v).find? (fun e => e.1 = k1)).map Prod.snd =
      (l.find? (fun e => e.1 = k1)).map Prod.snd := by
  induction l with
  | nil => simp [setEntry, List.find?_cons, Ne.symm hne]
  | cons e es ih =>
    by_cases h : e.1 = k
    · have h1 : ¬ e.1 = k1 := fun h2 => hne (h2.symm.trans h)
      simp [setEntry, h, List.find?_cons, Ne.symm hne, h1]
    · by_cases h1 : e.1 = k1
      · simp [setEntry, h, List.find?_cons, h1, hne]
      · simp [setEntry, h, List.find?_cons, h1, ih]

theorem find_filter_ne (l : List (String × String)) (k k1 : String) (hne : k1 ≠ k) :
    ((l.filter (fun e => e.1 ≠ k)).find? (fun e => e.1 = k1)).map Prod.snd =
      (l.find? (fun e => e.1 = k1)).map Prod.snd := by
  induction l with
  | nil => rfl
  | cons e es ih =>
    by_cases h : e.1 = k
    · have h1 : ¬ e.1 = k1 := fun h2 => hne (h2.symm.trans h)
      rw [List.filter_cons_of_neg (by simpa using h), List.find?_cons_of_neg _ (by simpa using h1)]
      exact ih
    · rw [List.filter_cons_of_pos (by simpa using h)]
      by_cases h1 : e.1 = k1
      · rw [List.find?_cons_of_pos _ (by simpa using h1), List.find?_cons_of_pos _ (by simpa using h1)]
      · rw [List.find?_cons_of_neg _ (by simpa using h1), List.find?_cons_of_neg _ (by simpa using h1)]
        exact ih

namespace GoMap

theorem get?_empty (k : String) : GoMap.empty.get? k = none := rfl

theorem get?_set_self (m : GoMap) (k v : String) : (m.set k v).get? k = some v :=
  find_setEntry_self m.entries k v

theorem get?_set_ne (m : GoMap) (k v k1 : String) (hne : k1 ≠ k) :
    (m.set k v).get? k1 = m.get? k1 :=
  find_setEntry_ne m.entries k v k1 hne

theorem get?_delete_self (m : GoMap) (k : String) : (m.delete k).get? k = none := by
  simp only [get?, delete, Option.map_eq_none', List.find?_eq_none, List.mem_filter]
  intro e he
  simpa using he.2

theorem get?_delete_ne (m : GoMap) (k k1 : String) (hne : k1 ≠ k) :
    (m.delete k).get? k1 = m.get? k1 :=
  find_filter_ne m.entries k k1 hne

theorem find_of_mem (l : List (String × String)) (hnd : (l.map Prod.fst).Nodup) (k v : String)
    (hmem : (k, v) ∈ l) : (l.find? (fun e => e.1 = k)).map Prod.snd = some v := by
  induction l with
  | nil => simp at hmem
  | cons e es ih =>
    simp only [List.map_cons, List.nodup_cons] at hnd
    rcases List.mem_cons.mp hmem with h | h
    · subst h; simp
    · have hne : ¬ e.1 = k := by
        intro he
        exact hnd.1 (he ▸ List.mem_map_of_mem Prod.fst h)
      simp [List.find?_cons, hne, ih hnd.2 h]

theorem mem_of_find (l : List (String × String)) (k v : String)
    (h : (l.find? (fun e => e.1 = k)).map Prod.snd = some v) : (k, v) ∈ l := by
  simp only [Option.map_eq_some'] at h
  obtain ⟨e, he, hv⟩ := h
  have h1 := List.find?_some he
  have h2 := List.mem_of_find?_eq_some he
  simp only [decide_eq_true_eq] at h1
  rcases e with ⟨a, b⟩
  simp only at h1 hv
  subst h1; subst hv
  exact h2

/-- An entry is enumerated by `range` exactly when the lookup of its key returns it. -/
theorem mem_entries_iff (m : GoMap) (k v : String) : (k, v) ∈ m.entries ↔ m.get? k = some v :=
  ⟨find_of_mem m.entries m.nodup k v, mem_of_find m.entries k v⟩

theorem mem_keys_iff (m : GoMap) (k : String) : k ∈ m.keys ↔ ∃ v, m.get? k = some v := by
  constructor
  · intro h
    obtain ⟨e, he, hk⟩ := List.mem_map.mp h
    rcases e with ⟨a, b⟩
    simp only at hk
    subst hk
    exact ⟨b, (mem_entries_iff m a b).mp he⟩
  · rintro ⟨v, hv⟩
    exact List.mem_map.mpr ⟨(k, v), (mem_entries_iff m k v).mpr hv, rfl⟩

theorem get?_eq_none_iff (m : GoMap) (k : String) : m.get? k = none ↔ k ∉ m.keys := by
  rw [mem_keys_iff]
  cases h : m.get? k <;> simp

end GoMap

/-! ## Reads and writes of the heap -/

theorem deref_store_self (h : Heap) (a : Nat) (m : GoMap) (ha : a < h.length) :
    deref (store h a m) a = m := by
  simp [deref, store, List.getD_eq_getElem?_getD, List.getElem?_set, ha]

theorem deref_store_ne (h : Heap) (a b : Nat) (m : GoMap) (hne : b ≠ a) :
    deref (store h a m) b = deref h b := by
  simp [deref, store, List.getD_eq_getElem?_getD, List.getElem?_set, Ne.symm hne]

theorem length_store (h : Heap) (a : Nat) (m : GoMap) : (store h a m).length = h.length := by
  simp [store]

theorem deref_append_left (h h1 : Heap) (a : Nat) (ha : a < h.length) :
    deref (h ++ h1) a = deref h a := by
  simp [deref, List.getD_eq_getElem?_getD, List.getElem?_append_left ha]

theorem deref_append_length (h : Heap) (m : GoMap) : deref (h ++ [m]) h.length = m := by
  simp [deref, List.getD_eq_getElem?_getD]

/-! ## The merge loop -/

theorem mergeRange_spec (r : Nat) (es : List (String × String)) (h : Heap)
    (hr : r < h.length) :
    ∃ h1, mergeRange (some r) es h = .ret h1 ∧ h1.length = h.length ∧
      (∀ b, b ≠ r → deref h1 b = deref h b) ∧
      ∀ k, (deref h1 r).get? k =
        match (deref h r).get? k with
        | some v => some v
        | none => (es.find? (fun e => e.1 = k)).map Prod.snd := by
  induction es generalizing h with
  | nil =>
    refine ⟨h, rfl, rfl, fun _ _ => rfl, fun k => ?_⟩
    cases (deref h r).get? k <;> rfl
  | cons kv kvs ih =>
    by_cases hk : ((deref h r).get? kv.1).isSome
    · obtain ⟨h1, e1, l1, f1, g1⟩ := ih h hr
      refine ⟨h1, ?_, l1, f1, fun k => ?_⟩
      · simp only [mergeRange, mergeEntry, hk, if_true]
        exact e1
      · rw [g1 k]
        cases hres : (deref h r).get? k with
        | some v => rfl
        | none =>
          have hne : ¬ kv.1 = k := by
            intro he
            rw [he, hres] at hk
            simp at hk
          simp [List.find?_cons, hne]
    · have hr1 : r < (store h r ((deref h r).set kv.1 kv.2)).length := by
        rw [length_store]; exact hr
      obtain ⟨h1, e1, l1, f1, g1⟩ := ih _ hr1
      refine ⟨h1, ?_, ?_, ?_, fun k => ?_⟩
      · simp only [mergeRange, mergeEntry, hk]
        exact e1
      · rw [l1, length_store]
      · intro b hb
        rw [f1 b hb, deref_store_ne _ _ _ _ hb]
      · rw [g1 k, deref_store_self _ _ _ hr]
        have hnone : (deref h r).get? kv.1 = none := by
          cases hx : (deref h r).get? kv.1 with
          | none => rfl
          | some v => rw [hx] at hk; simp at hk
        by_cases hkk : k = kv.1
        · subst hkk
          rw [GoMap.get?_set_self, hnone]
          simp
        · rw [GoMap.get?_set_ne _ _ _ _ hkk]
          have hne : ¬ kv.1 = k := fun he => hkk he.symm
          simp [List.find?_cons, hne]

theorem firstValue_congr {α : Type} (l : List α) (f g : α → GoMap) (k : String)
    (h : ∀ x ∈ l, (f x).get? k = (g x).get? k) :
    firstValue (l.map f) k = firstValue (l.map g) k := by
  induction l with
  | nil => rfl
  | cons x xs ih =>
    simp only [List.map_cons, firstValue]
    rw [h x (List.mem_cons_self x xs), ih (fun y hy => h y (List.mem_cons_of_mem x hy))]

theorem find_rangeOf (h : Heap) (item : MapRef) (k : String) :
    ((rangeOf h item).find? (fun e => e.1 = k)).map Prod.snd = (snapshotOf h item).get? k := by
  cases item <;> rfl

theorem mergeItems_spec (r : Nat) (items : List MapRef) (h : Heap) (hr : r < h.length) :
    ∃ h1, mergeItems (some r) items h = .ret h1 ∧ h1.length = h.length ∧
      (∀ b, b ≠ r → deref h1 b = deref h b) ∧
      ∀ k, (deref h1 r).get? k = firstValue (deref h r :: items.map (snapshotOf h)) k := by
  induction items generalizing h with
  | nil =>
    refine ⟨h, rfl, rfl, fun _ _ => rfl, fun k => ?_⟩
    simp only [List.map_nil, firstValue]
    cases (deref h r).get? k <;> rfl
  | cons item items ih =>
    obtain ⟨h1, e1, l1, f1, g1⟩ := mergeRange_spec r (rangeOf h item) h hr
    obtain ⟨h2, e2, l2, f2, g2⟩ := ih h1 (l1 ▸ hr)
    refine ⟨h2, ?_, l2.trans l1, fun b hb => (f2 b hb).trans (f1 b hb), fun k => ?_⟩
    · simp only [mergeItems, e1]
      exact e2
    · rw [g2 k]
      have g1k := g1 k
      rw [find_rangeOf] at g1k
      simp only [List.map_cons, firstValue]
      cases h1k : (deref h1 r).get? k with
      | some v =>
        rw [h1k] at g1k
        cases hk : (deref h r).get? k with
        | some w => rw [hk] at g1k; simpa using g1k
        | none =>
          rw [hk] at g1k
          simp only at g1k
          rw [← g1k]
      | none =>
        rw [h1k] at g1k
        cases hk : (deref h r).get? k with
        | some w => rw [hk] at g1k; simp at g1k
        | none =>
          rw [hk] at g1k
          simp only at g1k
          rw [← g1k]
          simp only
          apply firstValue_congr
          intro x _
          cases x with
          | none => rfl
          | some b =>
            by_cases hb : b = r
            · subst hb
              simp only [snapshotOf]
              rw [h1k, hk]
            · simp only [snapshotOf]
              rw [f1 b hb]

/-! ## The producer loop visits the items in order -/

theorem unrollLoop_forward (res : MapRef) (slice : List MapRef) (d : Nat) :
    ∀ (i n : Nat) (h : Heap), i + d = slice.length → d < n →
      unrollLoop res n { slice := slice, reverse := false, index := (i : Int) } h =
        mergeItems res (slice.drop i) h := by
  induction d with
  | zero =>
    intro i n h hi hn
    obtain ⟨n, rfl⟩ : ∃ m, n = m + 1 := ⟨n - 1, by omega⟩
    have hlen : i = slice.length := by omega
    subst hlen
    simp [unrollLoop, SliceIter.call, mergeItems]
  | succ d ih =>
    intro i n h hi hn
    obtain ⟨n, rfl⟩ : ∃ m, n = m + 1 := ⟨n - 1, by omega⟩
    have hlt : i < slice.length := by omega
    have hdrop : slice.drop i = slice[i] :: slice.drop (i + 1) := (List.drop_eq_getElem_cons hlt)
    have hget : slice.getD i default = slice[i] := by
      simp [List.getD_eq_getElem?_getD, List.getElem?_eq_getElem hlt]
    rw [hdrop]
    simp only [unrollLoop, SliceIter.call, Bool.false_eq_true, if_false, Nat.cast_lt, hlt,
      if_true, Int.toNat_ofNat, hget, mergeItems]
    cases mergeRange res (rangeOf h slice[i]) h with
    | ret h1 =>
      simp only
      have := ih (i + 1) n h1 (by omega) (by omega)
      simpa using this
    | panic e => rfl
    | timeout => rfl

theorem unrollLoop_reverse (res : MapRef) (slice : List MapRef) (j : Nat) :
    ∀ (n : Nat) (h : Heap), j ≤ slice.length → j < n →
      unrollLoop res n { slice := slice, reverse := true, index := (j : Int) - 1 } h =
        mergeItems res (slice.take j).reverse h := by
  induction j with
  | zero =>
    intro n h _ hn
    obtain ⟨n, rfl⟩ : ∃ m, n = m + 1 := ⟨n - 1, by omega⟩
    simp [unrollLoop, SliceIter.call, mergeItems]
  | succ j ih =>
    intro n h hj hn
    obtain ⟨n, rfl⟩ : ∃ m, n = m + 1 := ⟨n - 1, by omega⟩
    have hlt : j < slice.length := by omega
    have htake : (slice.take (j + 1)).reverse = slice[j] :: (slice.take j).reverse := by
      rw [List.take_succ, List.getElem?_eq_getElem hlt]
      simp
    have hget : slice.getD j default = slice[j] := by
      simp [List.getD_eq_getElem?_getD, List.getElem?_eq_getElem hlt]
    have hidx : ((j + 1 : Nat) : Int) - 1 = (j : Int) := by omega
    rw [htake, hidx]
    have hnn : (j : Int) ≥ 0 := by omega
    simp only [unrollLoop, SliceIter.call, if_true, hnn, Int.toNat_ofNat, hget, mergeItems]
    cases mergeRange res (rangeOf h slice[j]) h with
    | ret h1 =>
      simp only
      exact ih n h1 (by omega) (by omega)
    | panic e => rfl
    | timeout => rfl

theorem unrollLoop_eq (res : MapRef) (rest : List MapRef) (lateSet : Bool) (h : Heap) :
    unrollLoop res (rest.length + 1) (SliceIterator rest lateSet) h =
      mergeItems res (traversal rest lateSet) h := by
  cases lateSet with
  | false =>
    have := unrollLoop_forward res rest rest.length 0 (rest.length + 1) h (by simp) (by omega)
    simpa [SliceIterator, traversal] using this
  | true =>
    have := unrollLoop_reverse res rest rest.length (rest.length + 1) h (le_refl _) (by omega)
    simpa [SliceIterator, traversal] using this

/-! ## What `Unroll` computes -/

theorem setAll_calls {σ : Type} (F : FlagLayer σ) (es : List (String × String)) (fs : σ)
    (log : SetLog) : (setAll F es fs log).2.calls = log.calls ++ es := by
  induction es generalizing fs log with
  | nil => simp [setAll]
  | cons kv kvs ih => simp [setAll, ih]

theorem splitStack_order (refs : List MapRef) (lateSet : Bool) (res : MapRef)
    (rest : List MapRef) (h : splitStack refs lateSet = some (res, rest)) :
    res :: traversal rest lateSet = unrollOrder refs lateSet := by
  cases refs with
  | nil => simp [splitStack] at h
  | cons r0 tl =>
    cases lateSet with
    | false =>
      simp only [splitStack, Bool.false_eq_true, if_false, Option.some.injEq, Prod.mk.injEq] at h
      simp [traversal, unrollOrder, h.1, h.2]
    | true =>
      simp only [splitStack, if_true, Option.some.injEq, Prod.mk.injEq] at h
      obtain ⟨h1, h2⟩ := h
      subst h1; subst h2
      simp only [traversal, unrollOrder, if_true]
      conv_rhs => rw [← List.dropLast_append_getLast (List.cons_ne_nil r0 tl)]
      simp

theorem splitStack_mem (refs : List MapRef) (lateSet : Bool) (res : MapRef)
    (rest : List MapRef) (h : splitStack refs lateSet = some (res, rest)) : res ∈ refs := by
  have := splitStack_order refs lateSet res rest h
  have hm : res ∈ unrollOrder refs lateSet := this ▸ List.mem_cons_self _ _
  unfold unrollOrder at hm
  split at hm
  · exact List.mem_reverse.mp hm
  · exact hm

/-- The effect of `Unroll` on a ready state: it returns; the slice is untouched; only the
object `res` (the head of the consulted order) is written; that object ends up holding,
for every key but the marker, the first value in the consulted order, and no marker; and
`fs.Set` is called once per entry of that object. -/
theorem Unroll_spec {σ : Type} (F : FlagLayer σ) (st : State σ) (lateSet : Bool)
    (hst : st.ready = true) :
    ∃ st1 log res, CfgStack.Unroll F st lateSet = .ret (st1, log) ∧
      (unrollOrder st.s.refs lateSet).head? = some (some res) ∧ res < st.heap.length ∧
      st1.s = st.s ∧ st1.heap.length = st.heap.length ∧
      (∀ b, b ≠ res → deref st1.heap b = deref st.heap b) ∧
      (∀ k, (deref st1.heap res).get? k =
        if k = ProcessKey then none
        else firstValue (unrollOrder (snapshots st) lateSet) k) ∧
      log.calls = (deref st1.heap res).entries := by
  obtain ⟨heap, s, fs⟩ := st
  cases s with
  | nilPtr => simp [State.ready] at hst
  | nilSlice => simp [State.ready] at hst
  | slice refs =>
    cases hsp : splitStack refs lateSet with
    | none =>
      cases refs with
      | nil => simp [State.ready] at hst
      | cons r0 tl => simp [splitStack] at hsp; split at hsp <;> simp at hsp
    | some p =>
      obtain ⟨res, rest⟩ := p
      have hall : ∀ x ∈ refs, validRef heap x = true := by
        cases refs with
        | nil => simp [State.ready] at hst
        | cons r0 tl => simpa [State.ready] using hst
      have hres := hall res (splitStack_mem refs lateSet res rest hsp)
      cases res with
      | none => simp [validRef] at hres
      | some r =>
        have hr : r < heap.length := by simpa [validRef] using hres
        obtain ⟨h1, e1, l1, f1, g1⟩ := mergeItems_spec r (traversal rest lateSet) heap hr
        have hord := splitStack_order refs lateSet (some r) rest hsp
        have hr1 : r < h1.length := l1 ▸ hr
        refine ⟨{ heap := deleteKey h1 (some r), s := .slice refs,
                  fs := (setAll F (rangeOf (deleteKey h1 (some r)) (some r)) fs ⟨[], []⟩).1 },
          (setAll F (rangeOf (deleteKey h1 (some r)) (some r)) fs ⟨[], []⟩).2, r,
          ?_, ?_, hr, rfl, ?_, ?_, ?_, ?_⟩
        · simp only [CfgStack.Unroll, hsp, unrollLoop_eq, e1]
        · show (unrollOrder refs lateSet).head? = _
          rw [← hord]; rfl
        · simp only [deleteKey, length_store, l1]
        · intro b hb
          simp only [deleteKey]
          rw [deref_store_ne _ _ _ _ hb, f1 b hb]
        · intro k
          simp only [deleteKey]
          rw [deref_store_self _ _ _ hr1]
          by_cases hk : k = ProcessKey
          · subst hk
            rw [GoMap.get?_delete_self]; simp
          · rw [GoMap.get?_delete_ne _ _ _ hk, g1 k, if_neg hk]
            have : unrollOrder (snapshots ⟨heap, .slice refs, fs⟩) lateSet =
                (unrollOrder refs lateSet).map (snapshotOf heap) := by
              simp only [unrollOrder, snapshots, CfgStack.refs]
              split <;> simp
            rw [this, ← hord]
            rfl
        · simp only [setAll_calls, List.nil_append, rangeOf]

/-! ## Chain loading, call by call -/

theorem any_marker_iff {σ : Type} (st : State σ) (p : String) :
    st.s.refs.any (fun mm => lookupRef st.heap mm ProcessKey = p) = true ↔ p ∈ markers st := by
  simp only [markers, List.any_eq_true, decide_eq_true_eq, List.mem_map]

/-- One unfolding of `ProcessCfgFileAux` on an initialised stack and a readable file. -/
theorem Aux_succ_readable {σ : Type} (F : FlagLayer σ) (env : Env) (cfgName : String)
    (n : Nat) (path : String) (st : State σ) (refs : List MapRef) (data : String)
    (hread : ReadFile env path = some data) (hs : st.s = .slice refs) :
    CfgStack.ProcessCfgFileAux F env cfgName (n + 1) path st =
      if (fileSnapshot F cfgName path data st.fs).2 = "" then
        .ret { st := pushFile F cfgName path data st refs, err := none, trace := [path] }
      else if (fileSnapshot F cfgName path data st.fs).2 ∈
          markers (pushFile F cfgName path data st refs) then
        .ret { st := pushFile F cfgName path data st refs,
               err := some (.circular (fileSnapshot F cfgName path data st.fs).2),
               trace := [path] }
      else
        match CfgStack.ProcessCfgFileAux F env cfgName n
            (fileSnapshot F cfgName path data st.fs).2 (pushFile F cfgName path data st refs) with
        | .ret r =>
          .ret { st := r.st,
                 err := r.err.map (CfgError.wrapped (fileSnapshot F cfgName path data st.fs).2),
                 trace := path :: r.trace }
        | .panic e => .panic e
        | .timeout => .timeout := by
  obtain ⟨heap, s, fs⟩ := st
  simp only at hs
  subst hs
  simp only [CfgStack.ProcessCfgFileAux, hread, CfgStack.Push, fileSnapshot, pushFile]
  by_cases h1 : (buildSnapshot F path cfgName (tokenize data) (F.Parse fs (tokenize data))).2 = ""
  · simp [h1]
  · simp only [ne_eq, h1, not_false_eq_true, if_true, if_false]
    rw [show (List.any (CfgStack.slice (refs ++ [some heap.length])).refs _) =
      decide ((buildSnapshot F path cfgName (tokenize data) (F.Parse fs (tokenize data))).2 ∈
        markers (σ := σ) ⟨heap ++ [(buildSnapshot F path cfgName (tokenize data) (F.Parse fs (tokenize data))).1],
          .slice (refs ++ [some heap.length]), F.Parse fs (tokenize data)⟩) from ?_]
    · by_cases h2 : (buildSnapshot F path cfgName (tokenize data) (F.Parse fs (tokenize data))).2 ∈
        markers (σ := σ) ⟨heap ++ [(buildSnapshot F path cfgName (tokenize data) (F.Parse fs (tokenize data))).1],
          .slice (refs ++ [some heap.length]), F.Parse fs (tokenize data)⟩
      · simp only [h2, decide_True, if_true]
      · simp only [h2, decide_False, Bool.false_eq_true, if_false]
    · rw [Bool.eq_iff_iff]
      simp only [decide_eq_true_eq]
      exact any_marker_iff (σ := σ)
        ⟨heap ++ [(buildSnapshot F path cfgName (tokenize data) (F.Parse fs (tokenize data))).1],
          .slice (refs ++ [some heap.length]), F.Parse fs (tokenize data)⟩ _

theorem Aux_succ_unreadable {σ : Type} (F : FlagLayer σ) (env : Env) (cfgName : String)
    (n : Nat) (path : String) (st : State σ) (hread : ReadFile env path = none) :
    CfgStack.ProcessCfgFileAux F env cfgName (n + 1) path st =
      .ret { st := st, err := some (.read path), trace := [path] } := by
  simp only [CfgStack.ProcessCfgFileAux, hread]

theorem Aux_succ_nil {σ : Type} (F : FlagLayer σ) (env : Env) (cfgName : String)
    (n : Nat) (path : String) (st : State σ) (data : String)
    (hread : ReadFile env path = some data) (hs : ∀ refs, st.s ≠ .slice refs) :
    ∃ e, CfgStack.ProcessCfgFileAux F env cfgName (n + 1) path st = .panic e := by
  obtain ⟨heap, s, fs⟩ := st
  cases s with
  | nilPtr =>
    exact ⟨"*CfgStack is a nil pointer or pointing to a nil map",
      by simp only [CfgStack.ProcessCfgFileAux, hread, CfgStack.Push]⟩
  | nilSlice =>
    exact ⟨"*CfgStack is a nil pointer or pointing to a nil map",
      by simp only [CfgStack.ProcessCfgFileAux, hread, CfgStack.Push]⟩
  | slice refs => exact absurd rfl (hs refs)

/-- Every returning run of the budgeted function is a derivation of `Loads`. -/
theorem Loads_of_Aux {σ : Type} (F : FlagLayer σ) (env : Env) (cfgName : String) (n : Nat) :
    ∀ (path : String) (st : State σ) (r : Loaded σ),
      CfgStack.ProcessCfgFileAux F env cfgName n path st = .ret r →
      Loads F env cfgName path st r := by
  induction n with
  | zero => intro path st r h; simp [CfgStack.ProcessCfgFileAux] at h
  | succ n ih =>
    intro path st r h
    cases hread : ReadFile env path with
    | none =>
      rw [Aux_succ_unreadable F env cfgName n path st hread] at h
      cases h
      exact Loads.unreadable path st hread
    | some data =>
      by_cases hs : ∃ refs, st.s = .slice refs
      · obtain ⟨refs, hs⟩ := hs
        rw [Aux_succ_readable F env cfgName n path st refs data hread hs] at h
        split at h
        · cases h
          exact Loads.stop path st refs data hread hs (by assumption)
        · split at h
          · cases h
            exact Loads.cycle path st refs data hread hs (by assumption) (by assumption)
          · split at h
            · rename_i r1 hr1
              cases h
              exact Loads.next path st refs data r1 hread hs (by assumption) (by assumption)
                (ih _ _ _ hr1)
            · cases h
            · cases h
      · obtain ⟨e, he⟩ := Aux_succ_nil F env cfgName n path st data hread
          (fun refs hr => hs ⟨refs, hr⟩)
        rw [he] at h
        cases h

/-- A run that returns (or panics) does so with every larger budget. -/
theorem Aux_mono {σ : Type} (F : FlagLayer σ) (env : Env) (cfgName : String) (n : Nat) :
    ∀ (path : String) (st : State σ),
      CfgStack.ProcessCfgFileAux F env cfgName n path st ≠ .timeout →
      ∀ m, n ≤ m → CfgStack.ProcessCfgFileAux F env cfgName m path st =
        CfgStack.ProcessCfgFileAux F env cfgName n path st := by
  induction n with
  | zero => intro path st h; simp [CfgStack.ProcessCfgFileAux] at h
  | succ n ih =>
    intro path st h m hm
    obtain ⟨m, rfl⟩ : ∃ k, m = k + 1 := ⟨m - 1, by omega⟩
    cases hread : ReadFile env path with
    | none =>
      rw [Aux_succ_unreadable F env cfgName n path st hread,
        Aux_succ_unreadable F env cfgName m path st hread]
    | some data =>
      by_cases hs : ∃ refs, st.s = .slice refs
      · obtain ⟨refs, hs⟩ := hs
        rw [Aux_succ_readable F env cfgName n path st refs data hread hs] at h ⊢
        rw [Aux_succ_readable F env cfgName m path st refs data hread hs]
        split
        · rfl
        · split
          · rfl
          · rename_i h1 h2
            simp only [h1, h2, if_false] at h
            have hne : CfgStack.ProcessCfgFileAux F env cfgName n
                (fileSnapshot F cfgName path data st.fs).2
                (pushFile F cfgName path data st refs) ≠ .timeout := by
              intro hc
              rw [hc] at h
              exact h rfl
            rw [ih _ _ hne m (by omega)]
      · obtain ⟨heap, s, fs⟩ := st
        cases s with
        | nilPtr => simp only [CfgStack.ProcessCfgFileAux, hread, CfgStack.Push]
        | nilSlice => simp only [CfgStack.ProcessCfgFileAux, hread, CfgStack.Push]
        | slice refs => exact absurd ⟨refs, rfl⟩ hs

/-! ## Invariants of chain loading -/

theorem liveRef_of_validRef (h : Heap) (x : MapRef) (hx : validRef h x = true) :
    liveRef h x = true := by
  cases x with
  | none => rfl
  | some a => exact hx

theorem ready_iff {σ : Type} (st : State σ) :
    st.ready = true ↔
      (∃ r rs, st.s = .slice (r :: rs)) ∧ ∀ x ∈ st.s.refs, validRef st.heap x = true := by
  obtain ⟨heap, s, fs⟩ := st
  cases s with
  | nilPtr => simp [State.ready]
  | nilSlice => simp [State.ready]
  | slice refs =>
    cases refs with
    | nil => simp [State.ready]
    | cons r rs => simp [State.ready, CfgStack.refs]

theorem allocated_of_ready {σ : Type} (st : State σ) (h : st.ready = true) : st.allocated :=
  fun x hx => liveRef_of_validRef _ _ (((ready_iff st).mp h).2 x hx)

theorem foldl_visitFlag_get?_ne (cfgName : String) (cmds : List String)
    (l : List (String × String)) (acc : GoMap × String) (k : String)
    (hl : ∀ f ∈ l, f.1 ≠ k) :
    (l.foldl (visitFlag cfgName cmds) acc).1.get? k = acc.1.get? k := by
  induction l generalizing acc with
  | nil => rfl
  | cons f fs ih =>
    rw [List.foldl_cons, ih _ (fun g hg => hl g (List.mem_cons_of_mem f hg))]
    unfold visitFlag
    split
    · exact GoMap.get?_set_ne _ _ _ _ (Ne.symm (hl f (List.mem_cons_self f fs)))
    · rfl

/-- Under the reservation, the snapshot of a file carries the path as its marker. -/
theorem fileSnapshot_marker {σ : Type} (F : FlagLayer σ) (hres : Reserved F)
    (cfgName path data : String) (fs : σ) :
    (fileSnapshot F cfgName path data fs).1.get? ProcessKey = some path := by
  unfold fileSnapshot buildSnapshot
  rw [foldl_visitFlag_get?_ne _ _ _ _ _ (fun f hf => hres _ f hf)]
  exact GoMap.get?_set_self _ _ _

/-- Whenever `cfgFile` is non-empty, the snapshot maps the chain option to it. -/
theorem foldl_visitFlag_chain (cfgName : String) (cmds : List String)
    (l : List (String × String)) (acc : GoMap × String)
    (hacc : acc.2 ≠ "" → acc.1.get? cfgName = some acc.2) :
    (l.foldl (visitFlag cfgName cmds) acc).2 ≠ "" →
      (l.foldl (visitFlag cfgName cmds) acc).1.get? cfgName =
        some (l.foldl (visitFlag cfgName cmds) acc).2 := by
  induction l generalizing acc with
  | nil => exact hacc
  | cons f fs ih =>
    rw [List.foldl_cons]
    apply ih
    unfold visitFlag
    split
    · by_cases hf : f.1 = cfgName
      · intro _
        simp only [hf, if_true]
        exact GoMap.get?_set_self _ _ _
      · simp only [hf, if_false]
        intro h
        rw [GoMap.get?_set_ne _ _ _ _ (Ne.symm hf)]
        exact hacc h
    · exact hacc

theorem fileSnapshot_chain {σ : Type} (F : FlagLayer σ) (cfgName path data : String) (fs : σ)
    (h : (fileSnapshot F cfgName path data fs).2 ≠ "") :
    (fileSnapshot F cfgName path data fs).1.get? cfgName =
      some (fileSnapshot F cfgName path data fs).2 :=
  foldl_visitFlag_chain cfgName _ _ _ (fun h0 => absurd rfl h0) h

theorem liveRef_append (h ext : Heap) (x : MapRef) (hx : liveRef h x = true) :
    liveRef (h ++ ext) x = true := by
  cases x with
  | none => rfl
  | some a =>
    simp only [liveRef, decide_eq_true_eq, List.length_append] at hx ⊢
    omega

theorem validRef_append (h ext : Heap) (x : MapRef) (hx : validRef h x = true) :
    validRef (h ++ ext) x = true := by
  cases x with
  | none => simp [validRef] at hx
  | some a =>
    simp only [validRef, decide_eq_true_eq, List.length_append] at hx ⊢
    omega

theorem snapshotOf_append (h ext : Heap) (x : MapRef)
    (hx : liveRef h x = true) : snapshotOf (h ++ ext) x = snapshotOf h x := by
  cases x with
  | none => rfl
  | some a =>
    simp only [liveRef, decide_eq_true_eq] at hx
    simp only [snapshotOf, deref_append_left _ _ _ hx]

theorem pushFile_allocated {σ : Type} (F : FlagLayer σ) (cfgName path data : String)
    (st : State σ) (refs : List MapRef) (hs : st.s = .slice refs) (ha : st.allocated) :
    (pushFile F cfgName path data st refs).allocated := by
  intro x hx
  simp only [pushFile, CfgStack.refs, List.mem_append, List.mem_singleton] at hx
  rcases hx with hx | hx
  · exact liveRef_append _ _ _ (ha x (by rw [hs]; exact hx))
  · subst hx
    simp [pushFile, liveRef]

theorem pushFile_snapshots {σ : Type} (F : FlagLayer σ) (cfgName path data : String)
    (st : State σ) (refs : List MapRef) (hs : st.s = .slice refs) (ha : st.allocated) :
    snapshots (pushFile F cfgName path data st refs) =
      snapshots st ++ [(fileSnapshot F cfgName path data st.fs).1] := by
  simp only [snapshots, pushFile, CfgStack.refs, hs, List.map_append, List.map_cons,
    List.map_nil, snapshotOf, deref_append_length]
  congr 1
  apply List.map_congr_left
  intro x hx
  exact snapshotOf_append _ _ _ (ha x (by rw [hs]; exact hx))

theorem markers_eq_snapshots {σ : Type} (st : State σ) :
    markers st = (snapshots st).map (fun m => m.getD ProcessKey) := by
  simp only [markers, snapshots, List.map_map]
  apply List.map_congr_left
  intro x _
  cases x <;> rfl

theorem pushFile_markers {σ : Type} (F : FlagLayer σ) (hres : Reserved F)
    (cfgName path data : String)
    (st : State σ) (refs : List MapRef) (hs : st.s = .slice refs) (ha : st.allocated) :
    markers (pushFile F cfgName path data st refs) = markers st ++ [path] := by
  rw [markers_eq_snapshots, markers_eq_snapshots, pushFile_snapshots F _ _ _ _ _ hs ha]
  simp [GoMap.getD, fileSnapshot_marker F hres]

/-- Shape of the state after a returning run on an initialised stack: the heap and the
slice are extended, nothing else. -/
theorem Loads_shape {σ : Type} (F : FlagLayer σ) (env : Env) (cfgName : String)
    (path : String) (st : State σ) (r : Loaded σ) (hL : Loads F env cfgName path st r) :
    ∀ refs, st.s = .slice refs → st.allocated →
      r.st.allocated ∧
      ∃ ext, r.st.heap = st.heap ++ ext ∧
        snapshots r.st = snapshots st ++ ext ∧
        ext.length = (pushedPaths env r.trace).length ∧
        ∃ newRefs, r.st.s = .slice (refs ++ newRefs) ∧ newRefs.length = ext.length := by
  induction hL with
  | unreadable path st hread =>
    intro refs hs ha
    exact ⟨ha, [], by simp, by simp, by simp [pushedPaths, hread], [], by simp [hs], rfl⟩
  | stop path st refs0 data hread hs0 hcf =>
    intro refs hs ha
    have : refs0 = refs := by rw [hs0] at hs; cases hs; rfl
    subst this
    exact ⟨pushFile_allocated F _ _ _ _ _ hs ha, [_], rfl, pushFile_snapshots F _ _ _ _ _ hs ha,
      by simp [pushedPaths, hread], [_], rfl, rfl⟩
  | cycle path st refs0 data hread hs0 hcf hmem =>
    intro refs hs ha
    have : refs0 = refs := by rw [hs0] at hs; cases hs; rfl
    subst this
    exact ⟨pushFile_allocated F _ _ _ _ _ hs ha, [_], rfl, pushFile_snapshots F _ _ _ _ _ hs ha,
      by simp [pushedPaths, hread], [_], rfl, rfl⟩
  | next path st refs0 data r hread hs0 hcf hmem hsub ih =>
    intro refs hs ha
    have : refs0 = refs := by rw [hs0] at hs; cases hs; rfl
    subst this
    obtain ⟨ha1, ext, he, hsn, hlen, newRefs, hr, hnl⟩ :=
      ih (refs0 ++ [some st.heap.length]) rfl (pushFile_allocated F _ _ _ _ _ hs ha)
    refine ⟨ha1, (fileSnapshot F cfgName path data st.fs).1 :: ext, ?_, ?_, ?_,
      some st.heap.length :: newRefs, ?_, ?_⟩
    · simp only [he, pushFile, List.append_assoc, List.singleton_append]
    · simp only [hsn, pushFile_snapshots F _ _ _ _ _ hs ha, List.append_assoc,
        List.singleton_append]
    · simp only [pushedPaths, List.length_cons] at hlen ⊢
      rw [List.filter_cons_of_pos (by simp [hread])]
      simp [hlen]
    · simp only [hr, List.append_assoc, List.singleton_append]
    · simp [hnl]

/-- Under the reservation, the markers after a returning run are the old markers followed
by the paths whose file was read, in the order of the calls. -/
theorem Loads_markers {σ : Type} (F : FlagLayer σ) (hres : Reserved F) (env : Env)
    (cfgName : String) (path : String) (st : State σ) (r : Loaded σ)
    (hL : Loads F env cfgName path st r) :
    ∀ refs, st.s = .slice refs → st.allocated →
      markers r.st = markers st ++ pushedPaths env r.trace := by
  induction hL with
  | unreadable path st hread =>
    intro refs _ _
    simp [pushedPaths, hread]
  | stop path st refs0 data hread hs0 hcf =>
    intro refs hs ha
    have : refs0 = refs := by rw [hs0] at hs; cases hs; rfl
    subst this
    simp [pushedPaths, hread, pushFile_markers F hres _ _ _ _ _ hs ha]
  | cycle path st refs0 data hread hs0 hcf hmem =>
    intro refs hs ha
    have : refs0 = refs := by rw [hs0] at hs; cases hs; rfl
    subst this
    simp [pushedPaths, hread, pushFile_markers F hres _ _ _ _ _ hs ha]
  | next path st refs0 data r hread hs0 hcf hmem hsub ih =>
    intro refs hs ha
    have : refs0 = refs := by rw [hs0] at hs; cases hs; rfl
    subst this
    have := ih (refs0 ++ [some st.heap.length]) rfl (pushFile_allocated F _ _ _ _ _ hs ha)
    rw [this, pushFile_markers F hres _ _ _ _ _ hs ha]
    simp [pushedPaths, hread]

/-- A run started on a path that is not yet a marker visits pairwise distinct paths, none
of which is a marker of the initial stack. -/
theorem Loads_fresh {σ : Type} (F : FlagLayer σ) (hres : Reserved F) (env : Env)
    (cfgName : String) (path : String) (st : State σ) (r : Loaded σ)
    (hL : Loads F env cfgName path st r) :
    ∀ refs, st.s = .slice refs → st.allocated → path ∉ markers st →
      r.trace.Nodup ∧ ∀ p ∈ r.trace, p ∉ markers st := by
  induction hL with
  | unreadable path st hread =>
    intro refs _ _ hp
    simpa using hp
  | stop path st refs0 data hread hs0 hcf =>
    intro refs _ _ hp
    simpa using hp
  | cycle path st refs0 data hread hs0 hcf hmem =>
    intro refs _ _ hp
    simpa using hp
  | next path st refs0 data r hread hs0 hcf hmem hsub ih =>
    intro refs hs ha hp
    have : refs0 = refs := by rw [hs0] at hs; cases hs; rfl
    subst this
    obtain ⟨hnd, hfr⟩ :=
      ih (refs0 ++ [some st.heap.length]) rfl (pushFile_allocated F _ _ _ _ _ hs ha) hmem
    rw [pushFile_markers F hres _ _ _ _ _ hs ha] at hfr
    simp only [List.mem_append, List.mem_singleton, not_or] at hfr
    refine ⟨List.nodup_cons.mpr ⟨fun hin => (hfr path hin).2 rfl, hnd⟩, ?_⟩
    intro p hpm
    rcases List.mem_cons.mp hpm with h | h
    · subst h; exact hp
    · exact (hfr p h).1

/-- Any returning run visits pairwise distinct paths; all but the first are no markers of
the initial stack. -/
theorem Loads_distinct {σ : Type} (F : FlagLayer σ) (hres : Reserved F) (env : Env)
    (cfgName : String) (path : String) (st : State σ) (r : Loaded σ)
    (hL : Loads F env cfgName path st r) (refs : List MapRef) (hs : st.s = .slice refs)
    (ha : st.allocated) :
    r.trace.Nodup ∧ ∀ p ∈ r.trace.tail, p ∉ markers st := by
  cases hL with
  | unreadable _ _ hread => simp
  | stop _ _ refs0 data hread hs0 hcf => simp
  | cycle _ _ refs0 data hread hs0 hcf hmem => simp
  | next _ _ refs0 data r hread hs0 hcf hmem hsub =>
    have : refs0 = refs := by rw [hs0] at hs; cases hs; rfl
    subst this
    obtain ⟨hnd, hfr⟩ := Loads_fresh F hres env cfgName _ _ _ hsub
      (refs0 ++ [some st.heap.length]) rfl (pushFile_allocated F _ _ _ _ _ hs ha) hmem
    rw [pushFile_markers F hres _ _ _ _ _ hs ha] at hfr
    simp only [List.mem_append, List.mem_singleton, not_or] at hfr
    refine ⟨List.nodup_cons.mpr ⟨fun hin => (hfr path hin).2 rfl, hnd⟩, ?_⟩
    intro p hpm
    exact (hfr p hpm).1

theorem mem_readablePaths (env : Env) (p : String) :
    p ∈ readablePaths env ↔ (ReadFile env p).isSome = true := by
  unfold readablePaths ReadFile
  simp only [List.mem_dedup, List.mem_filter, List.mem_map, decide_eq_true_eq]
  constructor
  · rintro ⟨⟨f, hf, rfl⟩, hne⟩
    simp only [hne, if_false, Option.isSome_map']
    rw [List.find?_isSome]
    exact ⟨f, hf, by simp⟩
  · intro h
    by_cases hp : p = ""
    · simp [hp] at h
    · simp only [hp, if_false, Option.isSome_map'] at h
      rw [List.find?_isSome] at h
      obtain ⟨f, hf, hfp⟩ := h
      exact ⟨⟨f, hf, by simpa using hfp⟩, hp⟩

theorem readablePaths_length_le (env : Env) : (readablePaths env).length ≤ env.files.length := by
  unfold readablePaths
  calc ((env.files.map Prod.fst).filter (fun p => p ≠ "")).dedup.length
      ≤ ((env.files.map Prod.fst).filter (fun p => p ≠ "")).length :=
        (List.dedup_sublist _).length_le
    _ ≤ (env.files.map Prod.fst).length := List.length_filter_le _ _
    _ = env.files.length := List.length_map _ _

/-- Distinct readable paths are no more than the readable paths of the file system. -/
theorem length_le_readable (env : Env) (l : List String) (hnd : l.Nodup)
    (hr : ∀ p ∈ l, (ReadFile env p).isSome = true) : l.length ≤ (readablePaths env).length := by
  have hsub : l ⊆ readablePaths env := fun p hp => (mem_readablePaths env p).mpr (hr p hp)
  exact (List.subperm_of_subset hnd hsub).length_le

/-! ## Termination of chain loading -/

theorem unvisited_push_lt {σ : Type} (F : FlagLayer σ) (hres : Reserved F) (env : Env)
    (cfgName path data : String) (st : State σ) (refs : List MapRef)
    (hs : st.s = .slice refs) (ha : st.allocated) (hread : ReadFile env path = some data)
    (hp : path ∉ markers st) :
    (unvisited env (pushFile F cfgName path data st refs)).length < (unvisited env st).length := by
  unfold unvisited
  rw [pushFile_markers F hres _ _ _ _ _ hs ha]
  have : (readablePaths env).filter (fun p => p ∉ markers st ++ [path]) =
      ((readablePaths env).filter (fun p => p ∉ markers st)).filter (fun p => p ≠ path) := by
    rw [List.filter_filter]
    apply List.filter_congr
    intro x _
    simp only [List.mem_append, List.mem_singleton, not_or, Bool.decide_and, ne_eq]
    exact Bool.and_comm _ _
  rw [this, List.length_filter_lt_length_iff_exists]
  refine ⟨path, List.mem_filter.mpr ⟨(mem_readablePaths env path).mpr (by simp [hread]), ?_⟩, ?_⟩
  · simpa using hp
  · simp

theorem unvisited_push_lt_all {σ : Type} (F : FlagLayer σ) (hres : Reserved F) (env : Env)
    (cfgName path data : String) (st : State σ) (refs : List MapRef)
    (hs : st.s = .slice refs) (ha : st.allocated) (hread : ReadFile env path = some data) :
    (unvisited env (pushFile F cfgName path data st refs)).length < (readablePaths env).length := by
  unfold unvisited
  rw [pushFile_markers F hres _ _ _ _ _ hs ha, List.length_filter_lt_length_iff_exists]
  exact ⟨path, (mem_readablePaths env path).mpr (by simp [hread]), by simp⟩

/-- A call on a path that is no marker yet returns or panics when the budget exceeds the
number of unvisited readable paths. -/
theorem Aux_terminates_fresh {σ : Type} (F : FlagLayer σ) (hres : Reserved F) (env : Env)
    (cfgName : String) (n : Nat) :
    ∀ (path : String) (st : State σ), st.allocated → path ∉ markers st →
      (unvisited env st).length < n →
      CfgStack.ProcessCfgFileAux F env cfgName n path st ≠ .timeout := by
  induction n with
  | zero => intro path st _ _ h; omega
  | succ n ih =>
    intro path st ha hp hn
    cases hread : ReadFile env path with
    | none => rw [Aux_succ_unreadable F env cfgName n path st hread]; simp
    | some data =>
      by_cases hs : ∃ refs, st.s = .slice refs
      · obtain ⟨refs, hs⟩ := hs
        rw [Aux_succ_readable F env cfgName n path st refs data hread hs]
        split
        · simp
        · split
          · simp
          · rename_i h1 h2
            have hlt := unvisited_push_lt F hres env cfgName path data st refs hs ha hread hp
            have := ih _ _ (pushFile_allocated F cfgName path data st refs hs ha) h2 (by omega)
            split <;> simp_all
      · obtain ⟨e, he⟩ := Aux_succ_nil F env cfgName n path st data hread
          (fun refs hr => hs ⟨refs, hr⟩)
        rw [he]; simp

/-- Any call returns or panics when the budget exceeds the number of readable paths. -/
theorem Aux_terminates {σ : Type} (F : FlagLayer σ) (hres : Reserved F) (env : Env)
    (cfgName : String) (n : Nat) (path : String) (st : State σ) (ha : st.allocated)
    (hn : (readablePaths env).length < n) :
    CfgStack.ProcessCfgFileAux F env cfgName n path st ≠ .timeout := by
  obtain ⟨n, rfl⟩ : ∃ k, n = k + 1 := ⟨n - 1, by omega⟩
  cases hread : ReadFile env path with
  | none => rw [Aux_succ_unreadable F env cfgName n path st hread]; simp
  | some data =>
    by_cases hs : ∃ refs, st.s = .slice refs
    · obtain ⟨refs, hs⟩ := hs
      rw [Aux_succ_readable F env cfgName n path st refs data hread hs]
      split
      · simp
      · split
        · simp
        · rename_i h1 h2
          have hlt := unvisited_push_lt_all F hres env cfgName path data st refs hs ha hread
          have := Aux_terminates_fresh F hres env cfgName n _ _
            (pushFile_allocated F cfgName path data st refs hs ha) h2 (by omega)
          split <;> simp_all
    · obtain ⟨e, he⟩ := Aux_succ_nil F env cfgName n path st data hread
        (fun refs hr => hs ⟨refs, hr⟩)
      rw [he]; simp

/-- The budget of `ProcessCfgFile` is never exhausted, and a larger budget changes
nothing. -/
theorem ProcessCfgFile_total {σ : Type} (F : FlagLayer σ) (hres : Reserved F) (env : Env)
    (path cfgName : String) (st : State σ) (ha : st.allocated) :
    CfgStack.ProcessCfgFile F env path cfgName st ≠ .timeout ∧
    ∀ n, (readablePaths env).length < n →
      CfgStack.ProcessCfgFileAux F env cfgName n path st =
        CfgStack.ProcessCfgFile F env path cfgName st := by
  have hle := readablePaths_length_le env
  have h1 := Aux_terminates F hres env cfgName (env.files.length + 1) path st ha (by omega)
  refine ⟨h1, fun n hn => ?_⟩
  have h2 := Aux_terminates F hres env cfgName n path st ha hn
  unfold CfgStack.ProcessCfgFile
  rcases Nat.le_total n (env.files.length + 1) with h | h
  · exact (Aux_mono F env cfgName n path st h2 _ h).symm
  · exact Aux_mono F env cfgName _ path st h1 _ h

theorem Loads_of_ProcessCfgFile {σ : Type} (F : FlagLayer σ) (env : Env)
    (path cfgName : String) (st : State σ) (r : Loaded σ)
    (h : CfgStack.ProcessCfgFile F env path cfgName st = .ret r) :
    Loads F env cfgName path st r :=
  Loads_of_Aux F env cfgName _ path st r h

/-! ## Stacks built by the program -/

theorem NewCfgStack_ready {σ : Type} (F : FlagLayer σ) (heap : Heap) (fs : Option σ)
    (st : State σ) (h : NewCfgStack F heap fs = .ok st) : st.ready = true := by
  unfold NewCfgStack at h
  cases fs with
  | none => simp at h
  | some fs =>
    simp only at h
    split at h
    · simp at h
    · cases h
      simp [State.ready, validRef]

theorem pushFile_ready {σ : Type} (F : FlagLayer σ) (cfgName path data : String)
    (st : State σ) (refs : List MapRef) (hs : st.s = .slice refs) (hr : st.ready = true) :
    (pushFile F cfgName path data st refs).ready = true := by
  rw [ready_iff] at hr ⊢
  obtain ⟨⟨r, rs, hrs⟩, hv⟩ := hr
  have : refs = r :: rs := by rw [hs] at hrs; cases hrs; rfl
  subst this
  refine ⟨⟨r, rs ++ [some st.heap.length], by simp [pushFile]⟩, ?_⟩
  intro x hx
  simp only [pushFile, CfgStack.refs, List.mem_append, List.mem_singleton] at hx
  rcases hx with hx | hx
  · exact validRef_append _ _ _ (hv x (by rw [hs]; exact hx))
  · subst hx
    simp [pushFile, validRef]

theorem Loads_ready {σ : Type} (F : FlagLayer σ) (env : Env) (cfgName : String)
    (path : String) (st : State σ) (r : Loaded σ) (hL : Loads F env cfgName path st r) :
    st.ready = true → r.st.ready = true := by
  induction hL with
  | unreadable path st hread => exact id
  | stop path st refs data hread hs hcf => exact pushFile_ready F _ _ _ _ _ hs
  | cycle path st refs data hread hs hcf hmem => exact pushFile_ready F _ _ _ _ _ hs
  | next path st refs data r hread hs hcf hmem hsub ih =>
    exact fun h => ih (pushFile_ready F _ _ _ _ _ hs h)

theorem Built_ready {σ : Type} (F : FlagLayer σ) (env : Env) (st : State σ)
    (hb : Built F env st) : st.ready = true := by
  induction hb with
  | new heap fs st h => exact NewCfgStack_ready F heap _ st h
  | load st path cfgName r _ h ih =>
    exact Loads_ready F env cfgName path st r (Loads_of_ProcessCfgFile F env path cfgName st r h) ih

/-! ## The value `Unroll` picks, by index -/

theorem firstValue_append_of_none (a b : List GoMap) (k : String)
    (h : ∀ m ∈ a, m.get? k = none) : firstValue (a ++ b) k = firstValue b k := by
  induction a with
  | nil => rfl
  | cons m ms ih =>
    simp only [List.cons_append, firstValue, h m (List.mem_cons_self m ms)]
    exact ih (fun x hx => h x (List.mem_cons_of_mem m hx))

theorem firstValue_eq_none_iff (ms : List GoMap) (k : String) :
    firstValue ms k = none ↔ ∀ m ∈ ms, m.get? k = none := by
  induction ms with
  | nil => simp [firstValue]
  | cons m ms ih =>
    simp only [firstValue, List.mem_cons, forall_eq_or_imp]
    cases hm : m.get? k with
    | none => simpa using ih
    | some v => simp

theorem firstValue_mem (ms : List GoMap) (k v : String) (h : firstValue ms k = some v) :
    ∃ m ∈ ms, m.get? k = some v := by
  induction ms with
  | nil => simp [firstValue] at h
  | cons m ms ih =>
    simp only [firstValue] at h
    cases hm : m.get? k with
    | none =>
      rw [hm] at h
      obtain ⟨x, hx, hv⟩ := ih h
      exact ⟨x, List.mem_cons_of_mem m hx, hv⟩
    | some w =>
      rw [hm] at h
      cases h
      exact ⟨m, List.mem_cons_self m ms, hm⟩

/-- The first snapshot that has the key decides the value of a forward traversal. -/
theorem firstValue_of_first (ms : List GoMap) (k v : String) (i : Nat)
    (hget : (ms[i]?).bind (fun m => m.get? k) = some v)
    (hfirst : ∀ j, j < i → (ms[j]?).bind (fun m => m.get? k) = none) :
    firstValue ms k = some v := by
  induction ms generalizing i with
  | nil => simp at hget
  | cons m ms ih =>
    cases i with
    | zero =>
      simp only [List.getElem?_cons_zero, Option.some_bind] at hget
      simp only [firstValue, hget]
    | succ i =>
      have h0 := hfirst 0 (Nat.succ_pos i)
      simp only [List.getElem?_cons_zero, Option.some_bind] at h0
      simp only [firstValue, h0]
      apply ih i
      · simpa using hget
      · intro j hj
        have := hfirst (j + 1) (by omega)
        simpa using this

/-- The last snapshot that has the key decides the value of a backward traversal. -/
theorem firstValue_reverse_of_last (ms : List GoMap) (k v : String) (i : Nat)
    (hget : (ms[i]?).bind (fun m => m.get? k) = some v)
    (hlast : ∀ j, i < j → (ms[j]?).bind (fun m => m.get? k) = none) :
    firstValue ms.reverse k = some v := by
  induction ms generalizing i with
  | nil => simp at hget
  | cons m ms ih =>
    rw [List.reverse_cons]
    cases i with
    | zero =>
      simp only [List.getElem?_cons_zero, Option.some_bind] at hget
      rw [firstValue_append_of_none]
      · simp only [firstValue, hget]
      · intro x hx
        obtain ⟨j, hj, hjx⟩ := List.mem_iff_getElem.mp (List.mem_reverse.mp hx)
        have := hlast (j + 1) (by omega)
        simp only [List.getElem?_cons_succ, List.getElem?_eq_getElem hj, Option.some_bind,
          hjx] at this
        exact this
    | succ i =>
      have h1 : firstValue ms.reverse k = some v := by
        apply ih i
        · simpa using hget
        · intro j hj
          have := hlast (j + 1) (by omega)
          simpa using this
      obtain ⟨x, hx, hxv⟩ := firstValue_mem _ _ _ h1
      clear hx hxv
      generalize ms.reverse = l at h1
      induction l with
      | nil => simp [firstValue] at h1
      | cons y ys ihl =>
        simp only [List.cons_append, firstValue] at h1 ⊢
        cases hy : y.get? k with
        | none =>
          rw [hy] at h1
          exact ihl h1
        | some w =>
          rw [hy] at h1
          exact h1

/-- The calls of `Unroll` on a ready state: it returns, calls `fs.Set` once per name, and
the pairs it passes are the non-marker keys with the first value in the consulted
order. -/
theorem Unroll_calls {σ : Type} (F : FlagLayer σ) (st : State σ) (lateSet : Bool)
    (hst : st.ready = true) :
    ∃ st1 log, CfgStack.Unroll F st lateSet = .ret (st1, log) ∧
      st1.s = st.s ∧ st1.heap.length = st.heap.length ∧
      (log.calls.map Prod.fst).Nodup ∧
      ∀ k v, (k, v) ∈ log.calls ↔
        k ≠ ProcessKey ∧ firstValue (unrollOrder (snapshots st) lateSet) k = some v := by
  obtain ⟨st1, log, res, hun, _, _, hs, hlen, _, hval, hcalls⟩ := Unroll_spec F st lateSet hst
  refine ⟨st1, log, hun, hs, hlen, ?_, fun k v => ?_⟩
  · rw [hcalls]; exact (deref st1.heap res).nodup
  · rw [hcalls, GoMap.mem_entries_iff, hval k]
    by_cases hk : k = ProcessKey
    · simp [hk]
    · simp [hk]

/-! ## The scenarios of `main` -/

theorem mainStack_new : NewCfgStack goFlag [] (some mainParsed) = .ok mainStack := rfl

theorem chainState_load :
    CfgStack.ProcessCfgFile goFlag chainEnv "test.cfg" "c" mainStack =
      .ret { st := chainState, err := none, trace := ["test.cfg", "parent.cfg"] } := by
  decide

theorem chainState_built : Built goFlag chainEnv chainState :=
  Built.load mainStack "test.cfg" "c" _ (Built.new [] mainParsed mainStack mainStack_new)
    chainState_load

theorem ready_of_unroll {σ : Type} (st st1 : State σ) (hst : st.ready = true)
    (hs : st1.s = st.s) (hlen : st1.heap.length = st.heap.length) : st1.ready = true := by
  rw [ready_iff] at hst ⊢
  rw [hs]
  refine ⟨hst.1, fun x hx => ?_⟩
  have := hst.2 x hx
  cases x with
  | none => exact this
  | some a => simpa [validRef, hlen] using this

/-- After `Unroll(fs, false)` a forward traversal of the stack still finds, for every
key but the marker, the value it found before. -/
theorem firstValue_after_early {σ : Type} (F : FlagLayer σ) (st : State σ)
    (hst : st.ready = true) :
    ∃ st1 log, CfgStack.Unroll F st false = .ret (st1, log) ∧ st1.ready = true ∧
      ∀ k, k ≠ ProcessKey → firstValue (snapshots st1) k = firstValue (snapshots st) k := by
  obtain ⟨st1, log, res, hun, hhead, hres, hs, hlen, hframe, hval, _⟩ :=
    Unroll_spec F st false hst
  refine ⟨st1, log, hun, ready_of_unroll st st1 hst hs hlen, fun k hk => ?_⟩
  have hv := hval k
  simp only [hk, if_false, unrollOrder, Bool.false_eq_true] at hv
  simp only [unrollOrder, Bool.false_eq_true, if_false] at hhead
  have hsn : snapshots st1 = st.s.refs.map (snapshotOf st1.heap) := by
    simp only [snapshots, hs]
  cases hrefs : st.s.refs with
  | nil => rw [hrefs] at hhead; simp at hhead
  | cons r0 rest =>
    rw [hrefs] at hhead
    simp only [List.head?_cons, Option.some.injEq] at hhead
    subst hhead
    rw [hsn, hrefs, List.map_cons]
    cases hfv : firstValue (snapshots st) k with
    | some v =>
      rw [hfv] at hv
      simp only [firstValue, snapshotOf, hv]
    | none =>
      rw [hfv] at hv
      rw [firstValue_eq_none_iff] at hfv ⊢
      intro m hm
      rw [← List.map_cons, List.mem_map] at hm
      obtain ⟨x, hx, rfl⟩ := hm
      cases x with
      | none => rfl
      | some b =>
        by_cases hb : b = res
        · subst hb; exact hv
        · simp only [snapshotOf, hframe b hb]
          apply hfv
          simp only [snapshots, List.mem_map]
          exact ⟨some b, hrefs ▸ hx, rfl⟩

/-! ## Claims about `Unroll` -/

/-- C1 (as amended): on an initialised non-empty stack, `Unroll` returns and leaves the
slice (its length and the order of its elements) and every map object other than `res`
as they were; `res` - the first snapshot when `lateSet` is false, the last one when it is
true - is overwritten in place: afterwards it has no `!!Process!!` entry and holds, for
every other key, the first value found in the order `Unroll` consults the snapshots. -/
theorem C1_unroll_writes_only_res {σ : Type} (F : FlagLayer σ) (st : State σ)
    (lateSet : Bool) (hst : st.ready = true) :
    ∃ st1 log res, CfgStack.Unroll F st lateSet = .ret (st1, log) ∧
      st1.s = st.s ∧ st1.heap.length = st.heap.length ∧
      (unrollOrder st.s.refs lateSet).head? = some (some res) ∧
      (∀ b, b ≠ res → deref st1.heap b = deref st.heap b) ∧
      (∀ k, (deref st1.heap res).get? k =
        if k = ProcessKey then none
        else firstValue (unrollOrder (snapshots st) lateSet) k) := by
  obtain ⟨st1, log, res, hun, hhead, _, hs, hlen, hframe, hval, _⟩ :=
    Unroll_spec F st lateSet hst
  exact ⟨st1, log, res, hun, hs, hlen, hhead, hframe, hval⟩

/-- C1, witness: the amended statement on the stack of the scenario, `lateSet = true`. -/
theorem C1_unroll_writes_only_res_witness :
    ∃ st1 log res, CfgStack.Unroll goFlag chainState true = .ret (st1, log) ∧
      st1.s = chainState.s ∧ st1.heap.length = chainState.heap.length ∧
      (unrollOrder chainState.s.refs true).head? = some (some res) ∧
      (∀ b, b ≠ res → deref st1.heap b = deref chainState.heap b) ∧
      (∀ k, (deref st1.heap res).get? k =
        if k = ProcessKey then none
        else firstValue (unrollOrder (snapshots chainState) true) k) :=
  C1_unroll_writes_only_res goFlag chainState true (by decide)

/-- C1, counterexample: on the stack of the scenario `Unroll` changes a stored snapshot.
With `lateSet = false` the process-level snapshot (index 0) gains the key `a`; with
`lateSet = true` the snapshot of `parent.cfg` (index 2) loses its provenance marker. -/
theorem C1_unroll_mutates_stack :
    (∃ st1 log, CfgStack.Unroll goFlag chainState false = .ret (st1, log) ∧
      valueAt chainState 0 "a" = none ∧ valueAt st1 0 "a" = some "30") ∧
    (∃ st1 log, CfgStack.Unroll goFlag chainState true = .ret (st1, log) ∧
      valueAt chainState 2 ProcessKey = some "parent.cfg" ∧ valueAt st1 2 ProcessKey = none) :=
  ⟨⟨_, _, rfl, by decide, by decide⟩, ⟨_, _, rfl, by decide, by decide⟩⟩

/-- The loop of lines 78-83 makes the calls it records: the flag set it leaves is the one
after those calls, and the failures it reports are the calls that returned an error. -/
theorem setAll_run {σ : Type} (F : FlagLayer σ) (es : List (String × String)) (fs : σ)
    (log : SetLog) :
    setAll F es fs log =
      (applySets F fs es,
        { calls := log.calls ++ es, failed := log.failed ++ failedSets F fs es }) := by
  induction es generalizing fs log with
  | nil => simp [setAll, applySets, failedSets]
  | cons kv kvs ih =>
    simp only [setAll, ih, applySets, List.foldl_cons, failedSets]
    split <;> simp

/-- The flag set `Unroll` leaves is the one after the calls of its log, made in order on
the flag set it was given; the failures of the log are the calls that returned an error. -/
theorem Unroll_flags {σ : Type} (F : FlagLayer σ) (st st1 : State σ) (lateSet : Bool)
    (log : SetLog) (h : CfgStack.Unroll F st lateSet = .ret (st1, log)) :
    st1.fs = applySets F st.fs log.calls ∧ log.failed = failedSets F st.fs log.calls := by
  unfold CfgStack.Unroll at h
  split at h
  · cases h
  · cases h
  · split at h
    · cases h
    · split at h
      · cases h
      · cases h
      · simp only [setAll_run, Exec.ret.injEq, Prod.mk.injEq] at h
        obtain ⟨h1, h2⟩ := h
        subst h1; subst h2
        simp

theorem applySets_append {σ : Type} (F : FlagLayer σ) (fs : σ)
    (a b : List (String × String)) :
    applySets F fs (a ++ b) = applySets F (applySets F fs a) b := by
  simp [applySets, List.foldl_append]

/-- C2: earliest-wins.  On every stack built by `NewCfgStack` and chain loading,
`Unroll(fs, false)` returns, and for every option name `k` (a key other than the reserved
marker) it calls `fs.Set` for `k` once, with the value of the first snapshot that has `k`:
with `i = 0` this is the process-level snapshot, whatever later file snapshots say; with
`i > 0` the key is absent from the process-level snapshot and from every snapshot before
`i`.  The calls are made on the flag set: the flag set left behind is the one after the
recorded calls, among them `fs.Set(k, v)`. -/
theorem C2_earliest_wins {σ : Type} (F : FlagLayer σ) (env : Env) (st : State σ)
    (hb : Built F env st) (k v : String) (hk : k ≠ ProcessKey) (i : Nat)
    (hget : valueAt st i k = some v) (hfirst : ∀ j, j < i → valueAt st j k = none) :
    ∃ st1 log, CfgStack.Unroll F st false = .ret (st1, log) ∧
      (∀ w, (k, w) ∈ log.calls ↔ w = v) ∧
      (log.calls.map Prod.fst).Nodup ∧
      st1.fs = applySets F st.fs log.calls ∧
      ∃ pre post, log.calls = pre ++ (k, v) :: post ∧
        st1.fs = applySets F (F.Set (applySets F st.fs pre) k v).1 post := by
  obtain ⟨st1, log, hun, _, _, hnd, hcalls⟩ :=
    Unroll_calls F st false (Built_ready F env st hb)
  have hfv : firstValue (unrollOrder (snapshots st) false) k = some v :=
    firstValue_of_first (snapshots st) k v i hget hfirst
  have hfs := (Unroll_flags F st st1 false log hun).1
  have hmem : (k, v) ∈ log.calls := (hcalls k v).mpr ⟨hk, hfv⟩
  obtain ⟨pre, post, hsplit⟩ := List.append_of_mem hmem
  refine ⟨st1, log, hun, fun w => ?_, hnd, hfs, pre, post, hsplit, ?_⟩
  · rw [hcalls k w, hfv]
    simp only [ne_eq, hk, not_false_eq_true, true_and, Option.some.injEq]
    exact eq_comm
  · rw [hfs, hsplit, applySets_append]
    rfl

/-- C2, witness: on the stack of the scenario, `c` is a key of the process-level snapshot
and of the snapshot of `test.cfg`; `Unroll(fs, false)` sets `c` to the process-level
value, its calls are `c=test.cfg, n=fake, a=30, m=true`, none fails, and the flags then
read `a=30, c=test.cfg, m=true, n=fake`. -/
theorem C2_earliest_wins_witness :
    (∃ st1 log, CfgStack.Unroll goFlag chainState false = .ret (st1, log) ∧
      (∀ w, ("c", w) ∈ log.calls ↔ w = "test.cfg") ∧
      (log.calls.map Prod.fst).Nodup ∧
      st1.fs = applySets goFlag chainState.fs log.calls ∧
      ∃ pre post, log.calls = pre ++ ("c", "test.cfg") :: post ∧
        st1.fs = applySets goFlag
          (goFlag.Set (applySets goFlag chainState.fs pre) "c" "test.cfg").1 post) ∧
    valueAt chainState 1 "c" = some "parent.cfg" ∧
    ∃ st1 log, CfgStack.Unroll goFlag chainState false = .ret (st1, log) ∧
      log.calls = [("c", "test.cfg"), ("n", "fake"), ("a", "30"), ("m", "true")] ∧
      log.failed = [] ∧
      goFlag.Visit st1.fs = [("a", "30"), ("c", "test.cfg"), ("m", "true"), ("n", "fake")] :=
  ⟨C2_earliest_wins goFlag chainEnv chainState chainState_built "c" "test.cfg" (by decide) 0
      (by decide) (fun j hj => absurd hj (Nat.not_lt_zero j)),
    by decide, ⟨_, _, rfl, by decide, by decide, by decide⟩⟩

/-- C3: latest-wins.  On every initialised non-empty stack, `Unroll(fs, true)` returns,
and for every option name `k` (a key other than the reserved marker) it calls `fs.Set`
for `k` once, with the value of the last snapshot that has `k`: the last snapshot of the
stack when it has the key, otherwise the nearest preceding snapshot that has it.  The
calls are made on the flag set: the flag set left behind is the one after the recorded
calls, among them `fs.Set(k, v)`. -/
theorem C3_latest_wins {σ : Type} (F : FlagLayer σ) (st : State σ) (hst : st.ready = true)
    (k v : String) (hk : k ≠ ProcessKey) (i : Nat)
    (hget : valueAt st i k = some v) (hlast : ∀ j, i < j → valueAt st j k = none) :
    ∃ st1 log, CfgStack.Unroll F st true = .ret (st1, log) ∧
      (∀ w, (k, w) ∈ log.calls ↔ w = v) ∧
      (log.calls.map Prod.fst).Nodup ∧
      st1.fs = applySets F st.fs log.calls ∧
      ∃ pre post, log.calls = pre ++ (k, v) :: post ∧
        st1.fs = applySets F (F.Set (applySets F st.fs pre) k v).1 post := by
  obtain ⟨st1, log, hun, _, _, hnd, hcalls⟩ := Unroll_calls F st true hst
  have hfv : firstValue (unrollOrder (snapshots st) true) k = some v :=
    firstValue_reverse_of_last (snapshots st) k v i hget hlast
  have hfs := (Unroll_flags F st st1 true log hun).1
  have hmem : (k, v) ∈ log.calls := (hcalls k v).mpr ⟨hk, hfv⟩
  obtain ⟨pre, post, hsplit⟩ := List.append_of_mem hmem
  refine ⟨st1, log, hun, fun w => ?_, hnd, hfs, pre, post, hsplit, ?_⟩
  · rw [hcalls k w, hfv]
    simp only [ne_eq, hk, not_false_eq_true, true_and, Option.some.injEq]
    exact eq_comm
  · rw [hfs, hsplit, applySets_append]
    rfl

/-- C3, witness: on the stack of the scenario, `c` is absent from the last snapshot
(`parent.cfg`, index 2) and present in the one before it (`test.cfg`, index 1), whose
value `Unroll(fs, true)` passes to `fs.Set`; the flags then read
`a=30, c=parent.cfg, m=true, n=fake`. -/
theorem C3_latest_wins_witness :
    (∃ st1 log, CfgStack.Unroll goFlag chainState true = .ret (st1, log) ∧
      (∀ w, ("c", w) ∈ log.calls ↔ w = "parent.cfg") ∧
      (log.calls.map Prod.fst).Nodup ∧
      st1.fs = applySets goFlag chainState.fs log.calls ∧
      ∃ pre post, log.calls = pre ++ ("c", "parent.cfg") :: post ∧
        st1.fs = applySets goFlag
          (goFlag.Set (applySets goFlag chainState.fs pre) "c" "parent.cfg").1 post) ∧
    ∃ st1 log, CfgStack.Unroll goFlag chainState true = .ret (st1, log) ∧
      goFlag.Visit st1.fs =
        [("a", "30"), ("c", "parent.cfg"), ("m", "true"), ("n", "fake")] :=
  ⟨C3_latest_wins goFlag chainState (by decide) "c" "parent.cfg" (by decide) 1 (by decide)
    (fun j hj => by
      obtain ⟨d, rfl⟩ : ∃ d, j = d + 2 := ⟨j - 2, by omega⟩
      cases d with
      | zero => decide
      | succ d => rfl),
    ⟨_, _, rfl, by decide⟩⟩

/-- C4: merge completeness.  On every initialised non-empty stack, in either direction and
for every flag layer (whatever its `Set` does, failing or not), `Unroll` returns, calls
`fs.Set` at most once per name, and the names it calls it for are exactly the keys of the
snapshots of the stack other than the marker `!!Process!!`, which is never passed.  Every
one of these calls is made on the flag set, in the order of the log, whether or not an
earlier call failed: the flag set left behind is the one after all the calls, and the
failures reported are the calls that returned an error. -/
theorem C4_merge_completeness {σ : Type} (F : FlagLayer σ) (st : State σ) (lateSet : Bool)
    (hst : st.ready = true) :
    ∃ st1 log, CfgStack.Unroll F st lateSet = .ret (st1, log) ∧
      (log.calls.map Prod.fst).Nodup ∧
      (∀ k, k ∈ log.calls.map Prod.fst ↔ k ≠ ProcessKey ∧ ∃ m ∈ snapshots st, k ∈ m.keys) ∧
      ProcessKey ∉ log.calls.map Prod.fst ∧
      st1.fs = applySets F st.fs log.calls ∧
      log.failed = failedSets F st.fs log.calls := by
  obtain ⟨st1, log, hun, _, _, hnd, hcalls⟩ := Unroll_calls F st lateSet hst
  have hkeys : ∀ k, k ∈ log.calls.map Prod.fst ↔
      k ≠ ProcessKey ∧ ∃ m ∈ snapshots st, k ∈ m.keys := by
    intro k
    constructor
    · intro hk
      obtain ⟨⟨k1, v⟩, hmem, rfl⟩ := List.mem_map.mp hk
      obtain ⟨hne, hfv⟩ := (hcalls k1 v).mp hmem
      obtain ⟨m, hm, hmv⟩ := firstValue_mem _ _ _ hfv
      refine ⟨hne, m, ?_, (GoMap.mem_keys_iff m k1).mpr ⟨v, hmv⟩⟩
      unfold unrollOrder at hm
      split at hm
      · exact List.mem_reverse.mp hm
      · exact hm
    · rintro ⟨hne, m, hm, hk⟩
      obtain ⟨v, hv⟩ := (GoMap.mem_keys_iff m k).mp hk
      have hsome : firstValue (unrollOrder (snapshots st) lateSet) k ≠ none := by
        intro hnone
        rw [firstValue_eq_none_iff] at hnone
        have hm1 : m ∈ unrollOrder (snapshots st) lateSet := by
          unfold unrollOrder
          split
          · exact List.mem_reverse.mpr hm
          · exact hm
        rw [hnone m hm1] at hv
        cases hv
      obtain ⟨w, hw⟩ := Option.ne_none_iff_exists'.mp hsome
      exact List.mem_map.mpr ⟨(k, w), (hcalls k w).mpr ⟨hne, hw⟩, rfl⟩
  obtain ⟨hfs, hfail⟩ := Unroll_flags F st st1 lateSet log hun
  exact ⟨st1, log, hun, hnd, hkeys, fun h => ((hkeys ProcessKey).mp h).1 rfl, hfs, hfail⟩

/-- C4, witness: the statement on a stack with a key that is no registered option.  The
call `fs.Set("zz", "1")` fails and is reported, and the call for `m`, made after it,
still sets `m`. -/
theorem C4_merge_completeness_witness :
    (∃ st1 log, CfgStack.Unroll goFlag strayState false = .ret (st1, log) ∧
      (log.calls.map Prod.fst).Nodup ∧
      (∀ k, k ∈ log.calls.map Prod.fst ↔
        k ≠ ProcessKey ∧ ∃ m ∈ snapshots strayState, k ∈ m.keys) ∧
      ProcessKey ∉ log.calls.map Prod.fst ∧
      st1.fs = applySets goFlag strayState.fs log.calls ∧
      log.failed = failedSets goFlag strayState.fs log.calls) ∧
    ∃ st1 log, CfgStack.Unroll goFlag strayState false = .ret (st1, log) ∧
      log.calls = [("c", "test.cfg"), ("n", "fake"), ("zz", "1"), ("m", "true")] ∧
      log.failed = [("zz", "1")] ∧
      goFlag.Visit strayState.fs = [("c", "test.cfg"), ("n", "fake")] ∧
      goFlag.Visit st1.fs = [("c", "test.cfg"), ("m", "true"), ("n", "fake")] :=
  ⟨C4_merge_completeness goFlag strayState false (by decide),
    ⟨_, _, rfl, by decide, by decide, by decide, by decide⟩⟩

/-- C6 (as amended): on the stack loaded from the process snapshot `{n: fake, c: test.cfg}`,
`test.cfg` containing `-a 30 -c parent.cfg` and `parent.cfg` containing `-m true`,
`Unroll(fs, true)` sets `m=true` (from `parent.cfg`, index 2), `a=30` and `c=parent.cfg`
(both from `test.cfg`, index 1) and `n=fake` (from the process snapshot, index 0), and
nothing else; no call fails, and the flags then read `a=30, c=parent.cfg, m=true,
n=fake`.  These values are the work of the calls, not a leftover of the parse of the
files: run on the same stack with every flag at its default, as `main` registers them,
`Unroll(fs, true)` leaves the same four values. -/
theorem C6_scenario_late :
    ∃ r st1 log, NewCfgStack goFlag [] (some mainParsed) = .ok mainStack ∧
      CfgStack.ProcessCfgFile goFlag chainEnv "test.cfg" "c" mainStack = .ret r ∧
      CfgStack.Unroll goFlag r.st true = .ret (st1, log) ∧
      (∀ kv, kv ∈ log.calls ↔
        kv ∈ [("m", "true"), ("a", "30"), ("c", "parent.cfg"), ("n", "fake")]) ∧
      valueAt r.st 2 "m" = some "true" ∧ valueAt r.st 1 "a" = some "30" ∧
      valueAt r.st 1 "c" = some "parent.cfg" ∧ valueAt r.st 2 "c" = none ∧
      valueAt r.st 0 "n" = some "fake" ∧
      log.failed = [] ∧
      st1.fs = applySets goFlag r.st.fs log.calls ∧
      goFlag.Visit st1.fs =
        [("a", "30"), ("c", "parent.cfg"), ("m", "true"), ("n", "fake")] ∧
      goFlag.Visit mainFlags = [] ∧
      ∃ st2 log2, CfgStack.Unroll goFlag { heap := r.st.heap, s := r.st.s, fs := mainFlags }
          true = .ret (st2, log2) ∧
        log2.calls = log.calls ∧
        goFlag.Visit st2.fs =
          [("a", "30"), ("c", "parent.cfg"), ("m", "true"), ("n", "fake")] :=
  ⟨_, _, _, rfl, chainState_load, rfl, fun _ => Iff.rfl, by decide, by decide, by decide,
    by decide, by decide, by decide, by decide, by decide, by decide,
    ⟨_, _, rfl, by decide, by decide⟩⟩

theorem chainState_late :
    ∃ st1, CfgStack.Unroll goFlag chainState true =
      .ret (st1, { calls := [("m", "true"), ("a", "30"), ("c", "parent.cfg"), ("n", "fake")],
                   failed := [] }) :=
  ⟨_, rfl⟩

/-- C6, counterexample: in that scenario `Unroll(fs, true)` does not set `c` to the
process-level value `test.cfg`. -/
theorem C6_scenario_late_not_process_value :
    ¬ ∃ r st1 log, CfgStack.ProcessCfgFile goFlag chainEnv "test.cfg" "c" mainStack = .ret r ∧
      CfgStack.Unroll goFlag r.st true = .ret (st1, log) ∧
      ("m", "true") ∈ log.calls ∧ ("a", "30") ∈ log.calls ∧
      ("c", "test.cfg") ∈ log.calls ∧ ("n", "fake") ∈ log.calls := by
  rintro ⟨r, st1, log, hload, hun, _, _, hc, _⟩
  rw [chainState_load] at hload
  cases hload
  obtain ⟨st2, h2⟩ := chainState_late
  rw [h2] at hun
  cases hun
  revert hc
  decide

/-- C7: merge idempotence.  On every initialised non-empty stack, two calls of
`Unroll(fs, false)` in a row (nothing pushed in between) both return, and the second
passes to `fs.Set` exactly the (name, value) pairs the first one passed. -/
theorem C7_merge_idempotence {σ : Type} (F : FlagLayer σ) (st : State σ)
    (hst : st.ready = true) :
    ∃ st1 log1 st2 log2, CfgStack.Unroll F st false = .ret (st1, log1) ∧
      CfgStack.Unroll F st1 false = .ret (st2, log2) ∧
      ∀ kv, kv ∈ log2.calls ↔ kv ∈ log1.calls := by
  obtain ⟨st1, log1, hun1, hready1, hfv⟩ := firstValue_after_early F st hst
  obtain ⟨st1a, log1a, hun1a, _, _, _, hcalls1⟩ := Unroll_calls F st false hst
  rw [hun1] at hun1a
  cases hun1a
  obtain ⟨st2, log2, hun2, _, _, _, hcalls2⟩ := Unroll_calls F st1 false hready1
  refine ⟨st1, log1, st2, log2, hun1, hun2, ?_⟩
  rintro ⟨k, v⟩
  rw [hcalls1 k v, hcalls2 k v]
  simp only [unrollOrder, Bool.false_eq_true, if_false]
  constructor
  · rintro ⟨hk, h⟩
    exact ⟨hk, (hfv k hk) ▸ h⟩
  · rintro ⟨hk, h⟩
    exact ⟨hk, (hfv k hk).symm ▸ h⟩

/-- C7, witness: the statement on the stack of the scenario. -/
theorem C7_merge_idempotence_witness :
    ∃ st1 log1 st2 log2, CfgStack.Unroll goFlag chainState false = .ret (st1, log1) ∧
      CfgStack.Unroll goFlag st1 false = .ret (st2, log2) ∧
      ∀ kv, kv ∈ log2.calls ↔ kv ∈ log1.calls :=
  C7_merge_idempotence goFlag chainState (by decide)

/-! ## Claims about chain loading -/

theorem goFlag_reserved : Reserved goFlag := by
  intro fs f hf
  simp only [goFlag, List.mem_map, List.mem_filter] at hf
  obtain ⟨g, ⟨hg, _⟩, rfl⟩ := hf
  exact fs.reserved g hg

theorem markers_eq_provenance {σ : Type} (st : State σ) :
    markers st = (provenance st).map (fun o => o.getD "") := by
  rw [markers_eq_snapshots, provenance, List.map_map]
  rfl

/-- Under the reservation a returning run appends to the provenance entries the paths
whose file was read, in the order of the calls. -/
theorem Loads_provenance {σ : Type} (F : FlagLayer σ) (hres : Reserved F) (env : Env)
    (cfgName : String) (path : String) (st : State σ) (r : Loaded σ)
    (hL : Loads F env cfgName path st r) :
    ∀ refs, st.s = .slice refs → st.allocated →
      provenance r.st = provenance st ++ (pushedPaths env r.trace).map some := by
  induction hL with
  | unreadable path st hread =>
    intro refs _ _
    simp [pushedPaths, hread]
  | stop path st refs0 data hread hs0 hcf =>
    intro refs hs ha
    have : refs0 = refs := by rw [hs0] at hs; cases hs; rfl
    subst this
    simp [provenance, pushedPaths, hread, pushFile_snapshots F _ _ _ _ _ hs ha,
      fileSnapshot_marker F hres]
  | cycle path st refs0 data hread hs0 hcf hmem =>
    intro refs hs ha
    have : refs0 = refs := by rw [hs0] at hs; cases hs; rfl
    subst this
    simp [provenance, pushedPaths, hread, pushFile_snapshots F _ _ _ _ _ hs ha,
      fileSnapshot_marker F hres]
  | next path st refs0 data r hread hs0 hcf hmem hsub ih =>
    intro refs hs ha
    have : refs0 = refs := by rw [hs0] at hs; cases hs; rfl
    subst this
    have := ih (refs0 ++ [some st.heap.length]) rfl (pushFile_allocated F _ _ _ _ _ hs ha)
    rw [this]
    simp [provenance, pushedPaths, hread, pushFile_snapshots F _ _ _ _ _ hs ha,
      fileSnapshot_marker F hres]

/-- At most the last call of a run fails to read its file. -/
theorem Loads_trace_le {σ : Type} (F : FlagLayer σ) (env : Env)
    (cfgName : String) (path : String) (st : State σ) (r : Loaded σ)
    (hL : Loads F env cfgName path st r) :
    r.trace.length ≤ (pushedPaths env r.trace).length + 1 := by
  induction hL with
  | unreadable path st hread => simp
  | stop path st refs0 data hread hs0 hcf => simp
  | cycle path st refs0 data hread hs0 hcf hmem => simp
  | next path st refs0 data r hread hs0 hcf hmem hsub ih =>
    simp only [pushedPaths, List.length_cons] at ih ⊢
    rw [List.filter_cons_of_pos (by simp [hread])]
    simp only [List.length_cons]
    omega

theorem Loads_nil {σ : Type} (F : FlagLayer σ) (env : Env)
    (cfgName : String) (path : String) (st : State σ) (r : Loaded σ)
    (hL : Loads F env cfgName path st r) (hs : ∀ refs, st.s ≠ .slice refs) :
    r.st = st ∧ r.trace = [path] := by
  cases hL with
  | unreadable _ _ hread => exact ⟨rfl, rfl⟩
  | stop _ _ refs0 data hread hs0 hcf => exact absurd hs0 (hs refs0)
  | cycle _ _ refs0 data hread hs0 hcf hmem => exact absurd hs0 (hs refs0)
  | next _ _ refs0 data r hread hs0 hcf hmem hsub => exact absurd hs0 (hs refs0)

theorem pushedPaths_readable (env : Env) (trace : List String) :
    ∀ p ∈ pushedPaths env trace, (ReadFile env p).isSome = true := by
  intro p hp
  exact (List.mem_filter.mp hp).2

/-- C8: termination of chain loading.  For every file system, starting path, chain-option
name and initial stack, and every flag layer that honours the reservation of the marker
key: `ProcessCfgFile` does not run out of its budget, every budget above the number of
distinct readable paths gives the same outcome, and when it returns, the number of
recursive calls and the number of snapshots pushed are at most the number of distinct
readable paths; the paths of the calls are pairwise distinct, and every path recursed
into differs from the marker of every snapshot of the initial stack. -/
theorem C8_chain_loading_terminates {σ : Type} (F : FlagLayer σ) (hres : Reserved F)
    (env : Env) (path cfgName : String) (st : State σ) (ha : st.allocated) :
    CfgStack.ProcessCfgFile F env path cfgName st ≠ .timeout ∧
    (∀ n, (readablePaths env).length < n →
      CfgStack.ProcessCfgFileAux F env cfgName n path st =
        CfgStack.ProcessCfgFile F env path cfgName st) ∧
    ∀ r, CfgStack.ProcessCfgFile F env path cfgName st = .ret r →
      r.trace.length - 1 ≤ (readablePaths env).length ∧
      r.st.s.refs.length - st.s.refs.length ≤ (readablePaths env).length ∧
      r.trace.Nodup ∧ ∀ p ∈ r.trace.tail, p ∉ markers st := by
  obtain ⟨h1, h2⟩ := ProcessCfgFile_total F hres env path cfgName st ha
  refine ⟨h1, h2, fun r hr => ?_⟩
  have hL := Loads_of_ProcessCfgFile F env path cfgName st r hr
  by_cases hs : ∃ refs, st.s = .slice refs
  · obtain ⟨refs, hs⟩ := hs
    obtain ⟨hnd, hfresh⟩ := Loads_distinct F hres env cfgName path st r hL refs hs ha
    obtain ⟨_, ext, _, _, hlen, newRefs, hrs, hnl⟩ :=
      Loads_shape F env cfgName path st r hL refs hs ha
    have hle := Loads_trace_le F env cfgName path st r hL
    have hpush : (pushedPaths env r.trace).length ≤ (readablePaths env).length :=
      length_le_readable env _ (hnd.filter _) (pushedPaths_readable env r.trace)
    refine ⟨by omega, ?_, hnd, hfresh⟩
    rw [hrs, hs]
    simp only [CfgStack.refs, List.length_append]
    omega
  · obtain ⟨hst, htr⟩ := Loads_nil F env cfgName path st r hL (fun refs h => hs ⟨refs, h⟩)
    rw [hst, htr]
    simp

/-- C8, witness: the statement for the files of the scenario, started on the stack that
holds the process-level snapshot. -/
theorem C8_chain_loading_terminates_witness :
    CfgStack.ProcessCfgFile goFlag chainEnv "test.cfg" "c" mainStack ≠ .timeout ∧
    (∀ n, (readablePaths chainEnv).length < n →
      CfgStack.ProcessCfgFileAux goFlag chainEnv "c" n "test.cfg" mainStack =
        CfgStack.ProcessCfgFile goFlag chainEnv "test.cfg" "c" mainStack) ∧
    ∀ r, CfgStack.ProcessCfgFile goFlag chainEnv "test.cfg" "c" mainStack = .ret r →
      r.trace.length - 1 ≤ (readablePaths chainEnv).length ∧
      r.st.s.refs.length - mainStack.s.refs.length ≤ (readablePaths chainEnv).length ∧
      r.trace.Nodup ∧ ∀ p ∈ r.trace.tail, p ∉ markers mainStack :=
  C8_chain_loading_terminates goFlag goFlag_reserved chainEnv "test.cfg" "c" mainStack
    (allocated_of_ready mainStack (by decide))

theorem Aux_no_panic {σ : Type} (F : FlagLayer σ) (env : Env) (cfgName : String) (n : Nat) :
    ∀ (path : String) (st : State σ) (refs : List MapRef), st.s = .slice refs →
      ∀ e, CfgStack.ProcessCfgFileAux F env cfgName n path st ≠ .panic e := by
  induction n with
  | zero => intro path st refs _ e; simp [CfgStack.ProcessCfgFileAux]
  | succ n ih =>
    intro path st refs hs e
    cases hread : ReadFile env path with
    | none => rw [Aux_succ_unreadable F env cfgName n path st hread]; simp
    | some data =>
      rw [Aux_succ_readable F env cfgName n path st refs data hread hs]
      split
      · simp
      · split
        · simp
        · have := ih (fileSnapshot F cfgName path data st.fs).2
            (pushFile F cfgName path data st refs) _ rfl
          split
          · simp
          · rename_i e1 he1
            exact absurd he1 (this e1)
          · simp

/-- On an initialised stack `ProcessCfgFile` returns. -/
theorem ProcessCfgFile_returns {σ : Type} (F : FlagLayer σ) (hres : Reserved F) (env : Env)
    (path cfgName : String) (st : State σ) (refs : List MapRef) (hs : st.s = .slice refs)
    (ha : st.allocated) :
    ∃ r, CfgStack.ProcessCfgFile F env path cfgName st = .ret r := by
  have h1 := (ProcessCfgFile_total F hres env path cfgName st ha).1
  have h2 := Aux_no_panic F env cfgName (env.files.length + 1) path st refs hs
  unfold CfgStack.ProcessCfgFile at h1 ⊢
  cases h : CfgStack.ProcessCfgFileAux F env cfgName (env.files.length + 1) path st with
  | ret r => exact ⟨r, rfl⟩
  | panic e => exact absurd h (h2 e)
  | timeout => exact absurd h h1

theorem foldl_set_get?_ne (l : List (String × String)) (m : GoMap) (k : String)
    (hl : ∀ f ∈ l, f.1 ≠ k) :
    (l.foldl (fun m f => m.set f.1 f.2) m).get? k = m.get? k := by
  induction l generalizing m with
  | nil => rfl
  | cons f fs ih =>
    rw [List.foldl_cons, ih _ (fun g hg => hl g (List.mem_cons_of_mem f hg))]
    exact GoMap.get?_set_ne _ _ _ _ (Ne.symm (hl f (List.mem_cons_self f fs)))

/-- The stack `NewCfgStack` returns: one snapshot, without a marker under the
reservation. -/
theorem NewCfgStack_provenance {σ : Type} (F : FlagLayer σ) (hres : Reserved F) (heap : Heap)
    (fs : σ) (st : State σ) (h : NewCfgStack F heap (some fs) = .ok st) :
    provenance st = [none] ∧ st.s = .slice [some heap.length] := by
  unfold NewCfgStack at h
  simp only at h
  split at h
  · simp at h
  · cases h
    refine ⟨?_, rfl⟩
    simp only [provenance, snapshots, CfgStack.refs, List.map_cons, List.map_nil, snapshotOf,
      deref_append_length]
    rw [foldl_set_get?_ne _ _ _ (fun f hf => hres fs f hf)]
    rfl

/-- C9: provenance uniqueness.  For every stack built by `NewCfgStack` and then grown by
one `ProcessCfgFile` call (the call returns, with or without an error): the process-level
snapshot has no marker, every file snapshot has one, and no two snapshots carry the same
marker. -/
theorem C9_provenance_unique {σ : Type} (F : FlagLayer σ) (hres : Reserved F) (env : Env)
    (heap : Heap) (fs : σ) (st0 : State σ) (path cfgName : String)
    (hnew : NewCfgStack F heap (some fs) = .ok st0) :
    ∃ r, CfgStack.ProcessCfgFile F env path cfgName st0 = .ret r ∧
      (provenance r.st).head? = some none ∧
      (∀ o ∈ (provenance r.st).tail, ∃ p, o = some p) ∧
      (provenance r.st).Nodup := by
  obtain ⟨hp0, hs0⟩ := NewCfgStack_provenance F hres heap fs st0 hnew
  have ha0 := allocated_of_ready st0 (NewCfgStack_ready F heap _ st0 hnew)
  obtain ⟨r, hr⟩ := ProcessCfgFile_returns F hres env path cfgName st0 _ hs0 ha0
  have hL := Loads_of_ProcessCfgFile F env path cfgName st0 r hr
  have hprov := Loads_provenance F hres env cfgName path st0 r hL _ hs0 ha0
  obtain ⟨hnd, _⟩ := Loads_distinct F hres env cfgName path st0 r hL _ hs0 ha0
  rw [hp0] at hprov
  refine ⟨r, hr, ?_, ?_, ?_⟩
  · rw [hprov]; rfl
  · rw [hprov]
    intro o ho
    simp only [List.singleton_append, List.tail_cons, List.mem_map] at ho
    obtain ⟨p, _, rfl⟩ := ho
    exact ⟨p, rfl⟩
  · rw [hprov]
    rw [List.singleton_append, List.nodup_cons]
    refine ⟨fun hmem => ?_, (hnd.filter _).map (fun a b h => by cases h; rfl)⟩
    obtain ⟨p, _, hp⟩ := List.mem_map.mp hmem
    cases hp

/-- C9, witness: the statement for the files of the scenario and the flag set of `main`. -/
theorem C9_provenance_unique_witness :
    ∃ r, CfgStack.ProcessCfgFile goFlag chainEnv "test.cfg" "c" mainStack = .ret r ∧
      (provenance r.st).head? = some none ∧
      (∀ o ∈ (provenance r.st).tail, ∃ p, o = some p) ∧
      (provenance r.st).Nodup :=
  C9_provenance_unique goFlag goFlag_reserved chainEnv [] mainParsed mainStack "test.cfg" "c"
    mainStack_new

theorem cause_map_wrapped (err : Option CfgError) (p : String) :
    (err.map (CfgError.wrapped p)).map CfgError.cause = err.map CfgError.cause := by
  cases err <;> rfl

/-- What a run that ends in a circular-reference error leaves: the named path is not
empty, is a marker on the stack and is the chain-option value of the last snapshot, and
every call of the run read its file. -/
theorem Loads_circular {σ : Type} (F : FlagLayer σ) (env : Env)
    (cfgName : String) (path : String) (st : State σ) (r : Loaded σ)
    (hL : Loads F env cfgName path st r) (p : String) :
    st.allocated → r.err.map CfgError.cause = some (.circular p) →
      p ≠ "" ∧ p ∈ markers r.st ∧
      ((snapshots r.st).getLast?).bind (fun m => m.get? cfgName) = some p ∧
      pushedPaths env r.trace = r.trace ∧ ∃ refs, st.s = .slice refs := by
  induction hL with
  | unreadable path st hread =>
    intro _ h
    simp [CfgError.cause] at h
  | stop path st refs0 data hread hs0 hcf =>
    intro _ h
    simp at h
  | cycle path st refs0 data hread hs0 hcf hmem =>
    intro ha h
    simp only [Option.map_some', CfgError.cause, Option.some.injEq, CfgError.circular.injEq] at h
    subst h
    refine ⟨hcf, hmem, ?_, by simp [pushedPaths, hread], refs0, hs0⟩
    rw [pushFile_snapshots F _ _ _ _ _ hs0 ha]
    simp [fileSnapshot_chain F cfgName path data st.fs hcf]
  | next path st refs0 data r hread hs0 hcf hmem hsub ih =>
    intro ha h
    rw [cause_map_wrapped] at h
    obtain ⟨h1, h2, h3, h4, _⟩ := ih (pushFile_allocated F _ _ _ _ _ hs0 ha) h
    refine ⟨h1, h2, h3, ?_, refs0, hs0⟩
    simp only [pushedPaths] at h4 ⊢
    rw [List.filter_cons_of_pos (by simp [hread]), h4]

/-- C10: partial progress on a cycle.  When `ProcessCfgFile` returns an error whose
cause is a circular reference naming `p`: `p` is the (non-empty) chain-option value of the
last snapshot on the stack and the marker of a snapshot on the stack; the snapshots that
were on the stack before the call are still there, unchanged and in order, followed by
one snapshot per call of the run, in the order of the calls, each marked with the path of
its call; so nothing is pushed after the detection. -/
theorem C10_partial_progress {σ : Type} (F : FlagLayer σ) (hres : Reserved F) (env : Env)
    (path cfgName : String) (st : State σ) (ha : st.allocated) (r : Loaded σ) (p : String)
    (hload : CfgStack.ProcessCfgFile F env path cfgName st = .ret r)
    (herr : r.err.map CfgError.cause = some (.circular p)) :
    p ≠ "" ∧ p ∈ markers r.st ∧
    ((snapshots r.st).getLast?).bind (fun m => m.get? cfgName) = some p ∧
    ∃ ext newRefs, r.st.heap = st.heap ++ ext ∧ r.st.s = .slice (st.s.refs ++ newRefs) ∧
      snapshots r.st = snapshots st ++ ext ∧
      ext.map (fun m => m.get? ProcessKey) = r.trace.map some := by
  have hL := Loads_of_ProcessCfgFile F env path cfgName st r hload
  obtain ⟨h1, h2, h3, h4, refs, hs⟩ := Loads_circular F env cfgName path st r hL p ha herr
  obtain ⟨_, ext, he, hsn, _, newRefs, hrs, _⟩ := Loads_shape F env cfgName path st r hL refs hs ha
  have hprov := Loads_provenance F hres env cfgName path st r hL refs hs ha
  refine ⟨h1, h2, h3, ext, newRefs, he, ?_, hsn, ?_⟩
  · rw [hrs, hs]; rfl
  · rw [h4] at hprov
    simp only [provenance, hsn, List.map_append] at hprov
    exact List.append_cancel_left hprov

theorem selfState_load :
    CfgStack.ProcessCfgFile goFlag selfEnv "test.cfg" "c" mainStack =
      .ret { st := selfState, err := some (.circular "test.cfg"), trace := ["test.cfg"] } := by
  decide

/-- C10, witness: `test.cfg` containing `-c test.cfg`, loaded on the stack that holds the
process-level snapshot, fails naming `test.cfg` and leaves exactly two snapshots, the
process-level one and the one of `test.cfg`. -/
theorem C10_partial_progress_witness :
    CfgStack.ProcessCfgFile goFlag selfEnv "test.cfg" "c" mainStack =
      .ret { st := selfState, err := some (.circular "test.cfg"), trace := ["test.cfg"] } ∧
    (snapshots selfState).length = 2 ∧
    "test.cfg" ≠ "" ∧ "test.cfg" ∈ markers selfState ∧
    ((snapshots selfState).getLast?).bind (fun m => m.get? "c") = some "test.cfg" ∧
    ∃ ext newRefs, selfState.heap = mainStack.heap ++ ext ∧
      selfState.s = .slice (mainStack.s.refs ++ newRefs) ∧
      snapshots selfState = snapshots mainStack ++ ext ∧
      ext.map (fun m => m.get? ProcessKey) = ["test.cfg"].map some :=
  ⟨selfState_load, by decide,
    C10_partial_progress goFlag goFlag_reserved selfEnv "test.cfg" "c" mainStack
      (allocated_of_ready mainStack (by decide))
      { st := selfState, err := some (.circular "test.cfg"), trace := ["test.cfg"] } "test.cfg"
      selfState_load rfl⟩

/-! ## A cycle of files -/

theorem parseFiles_append {σ : Type} (F : FlagLayer σ) (env : Env) (fs : σ)
    (l : List String) (p : String) :
    parseFiles F env fs (l ++ [p]) =
      F.Parse (parseFiles F env fs l) (tokenize ((ReadFile env p).getD "")) := by
  induction l generalizing fs with
  | nil => rfl
  | cons q qs ih => exact ih _

theorem take_succ_getElem {α : Type} (l : List α) (k : Nat) (h : k < l.length) :
    l.take (k + 1) = l.take k ++ [l[k]] := by
  rw [List.take_succ, List.getElem?_eq_getElem h]
  rfl

theorem readable_ne_empty (env : Env) (p : String) (h : (ReadFile env p).isSome = true) :
    p ≠ "" := by
  intro hp
  simp [ReadFile, hp] at h

theorem cycle_run {σ : Type} (F : FlagLayer σ) (hres : Reserved F) (env : Env)
    (cfgName : String) (fs0 : σ) (ps : List String) (hnd : ps.Nodup)
    (hread : ∀ p ∈ ps, (ReadFile env p).isSome = true)
    (hnext : ∀ k, k < ps.length →
      (fileSnapshot F cfgName (ps.getD k "") ((ReadFile env (ps.getD k "")).getD "")
          (parseFiles F env fs0 (ps.take k))).2 =
        ps.getD ((k + 1) % ps.length) "") (d : Nat) :
    ∀ (k n : Nat) (st : State σ) (refs : List MapRef), k + d + 1 = ps.length →
      st.s = .slice refs → st.allocated → markers st = "" :: ps.take k →
      st.fs = parseFiles F env fs0 (ps.take k) → refs.length = k + 1 → d < n →
      ∃ r, CfgStack.ProcessCfgFileAux F env cfgName n (ps.getD k "") st = .ret r ∧
        r.err.map CfgError.cause = some (.circular (ps.getD 0 "")) ∧
        r.trace = ps.drop k ∧ r.st.s.refs.length = ps.length + 1 := by
  induction d with
  | zero =>
    intro k n st refs hk hs ha hm hfs hlen hn
    obtain ⟨n, rfl⟩ : ∃ m, n = m + 1 := ⟨n - 1, by omega⟩
    have hklt : k < ps.length := by omega
    have hpk : ps.getD k "" = ps[k] := by
      simp [List.getD_eq_getElem?_getD, List.getElem?_eq_getElem hklt]
    have hmemk : ps[k] ∈ ps := List.getElem_mem hklt
    obtain ⟨data, hdata⟩ := Option.isSome_iff_exists.mp (hread _ hmemk)
    have hcv := hnext k hklt
    have hmod : (k + 1) % ps.length = 0 := by rw [hk]; exact Nat.mod_self _
    rw [hmod, ← hfs] at hcv
    simp only [hpk, hdata, Option.getD_some] at hcv
    have h0lt : 0 < ps.length := by omega
    have hp0 : ps.getD 0 "" = ps[0] := by
      simp [List.getD_eq_getElem?_getD, List.getElem?_eq_getElem h0lt]
    have hne : (fileSnapshot F cfgName ps[k] data st.fs).2 ≠ "" := by
      rw [hcv, hp0]
      exact readable_ne_empty env _ (hread _ (List.getElem_mem h0lt))
    have hin : (fileSnapshot F cfgName ps[k] data st.fs).2 ∈
        markers (pushFile F cfgName ps[k] data st refs) := by
      rw [pushFile_markers F hres _ _ _ _ _ hs ha, hm, hcv, hp0]
      have : ps[0] ∈ ps.take k ++ [ps[k]] := by
        rw [← take_succ_getElem ps k hklt, List.mem_take_iff_getElem]
        exact ⟨0, by simp [h0lt], rfl⟩
      simp only [List.cons_append, List.mem_cons]
      exact Or.inr this
    rw [hpk, Aux_succ_readable F env cfgName n _ st refs data hdata hs, if_neg hne, if_pos hin]
    refine ⟨_, rfl, ?_, ?_, ?_⟩
    · simp [CfgError.cause, hcv]
    · have : ps.drop k = [ps[k]] := by
        rw [List.drop_eq_getElem_cons hklt, List.drop_of_length_le (by omega)]
      rw [this]
    · simp only [pushFile, CfgStack.refs, List.length_append, List.length_singleton]
      omega
  | succ d ih =>
    intro k n st refs hk hs ha hm hfs hlen hn
    obtain ⟨n, rfl⟩ : ∃ m, n = m + 1 := ⟨n - 1, by omega⟩
    have hklt : k < ps.length := by omega
    have hk1lt : k + 1 < ps.length := by omega
    have hpk : ps.getD k "" = ps[k] := by
      simp [List.getD_eq_getElem?_getD, List.getElem?_eq_getElem hklt]
    have hpk1 : ps.getD (k + 1) "" = ps[k + 1] := by
      simp [List.getD_eq_getElem?_getD, List.getElem?_eq_getElem hk1lt]
    have hmemk : ps[k] ∈ ps := List.getElem_mem hklt
    obtain ⟨data, hdata⟩ := Option.isSome_iff_exists.mp (hread _ hmemk)
    have hcv := hnext k hklt
    have hmod : (k + 1) % ps.length = k + 1 := Nat.mod_eq_of_lt hk1lt
    rw [hmod, ← hfs] at hcv
    simp only [hpk, hdata, Option.getD_some, hpk1] at hcv
    have hne : (fileSnapshot F cfgName ps[k] data st.fs).2 ≠ "" := by
      rw [hcv]
      exact readable_ne_empty env _ (hread _ (List.getElem_mem hk1lt))
    have htake : ps.take (k + 1) = ps.take k ++ [ps[k]] :=
      take_succ_getElem ps k hklt
    have hm1 : markers (pushFile F cfgName ps[k] data st refs) = "" :: ps.take (k + 1) := by
      rw [pushFile_markers F hres _ _ _ _ _ hs ha, hm, htake]
      rfl
    have hnin : (fileSnapshot F cfgName ps[k] data st.fs).2 ∉
        markers (pushFile F cfgName ps[k] data st refs) := by
      rw [hm1, hcv]
      simp only [List.mem_cons, not_or]
      refine ⟨hcv ▸ hne, ?_⟩
      intro hmem
      obtain ⟨j, hj, hjeq⟩ := List.mem_take_iff_getElem.mp hmem
      have := (List.Nodup.getElem_inj_iff hnd).mp hjeq
      simp only [lt_min_iff] at hj
      omega
    have hfs1 : (pushFile F cfgName ps[k] data st refs).fs =
        parseFiles F env fs0 (ps.take (k + 1)) := by
      rw [htake, parseFiles_append, hdata, ← hfs]
      rfl
    obtain ⟨r, hr, herr, htr, hlenr⟩ := ih (k + 1) n (pushFile F cfgName ps[k] data st refs)
      (refs ++ [some st.heap.length]) (by omega) rfl (pushFile_allocated F _ _ _ _ _ hs ha)
      hm1 hfs1 (by simp [hlen]) (by omega)
    rw [hpk1, ← hcv] at hr
    rw [hpk, Aux_succ_readable F env cfgName n _ st refs data hdata hs, if_neg hne, if_neg hnin,
      hr]
    refine ⟨_, rfl, ?_, ?_, hlenr⟩
    · simp only [cause_map_wrapped, herr]
    · simp only [htr]
      exact (List.drop_eq_getElem_cons hklt).symm

/-! ## Claims about `Push` and `SliceIterator` -/

/-- C13: `Push` appends.  On an initialised stack, `Push(m)` with a non-nil mapping
returns, the stack is one longer, its last element is `m`, its earlier elements are the
old elements in the same order (and the map objects are untouched); with a nil mapping it
returns and changes nothing. -/
theorem C13_push_appends {σ : Type} (heap : Heap) (refs : List MapRef) (fs : σ) (a : Nat) :
    (∃ st1, CfgStack.Push { heap := heap, s := .slice refs, fs := fs } (some a) = .ret st1 ∧
      st1.s.refs.length = refs.length + 1 ∧
      st1.s.refs.getLast? = some (some a) ∧
      st1.s.refs.take refs.length = refs ∧
      st1.heap = heap ∧ st1.fs = fs ∧ st1.s = .slice (refs ++ [some a])) ∧
    CfgStack.Push { heap := heap, s := .slice refs, fs := fs } none =
      .ret { heap := heap, s := .slice refs, fs := fs } := by
  refine ⟨⟨{ heap := heap, s := .slice (refs ++ [some a]), fs := fs }, rfl, ?_, ?_, ?_, rfl, rfl,
    rfl⟩, rfl⟩
  · simp [CfgStack.refs]
  · simp [CfgStack.refs]
  · simp [CfgStack.refs]

/-- C14 (as amended): pushing a mapping with no keys is not a no-op.  `Push` tests the
mapping for nil only: an empty non-nil mapping is appended like any other, the stack is
one longer and its last snapshot is the empty mapping; only a nil mapping leaves the stack
as it was. -/
theorem C14_push_empty_appends {σ : Type} (heap : Heap) (refs : List MapRef) (fs : σ)
    (a : Nat) (hempty : (deref heap a).keys = []) :
    (∃ st1, CfgStack.Push { heap := heap, s := .slice refs, fs := fs } (some a) = .ret st1 ∧
      st1.s = .slice (refs ++ [some a]) ∧
      st1.s.refs.length = refs.length + 1 ∧
      ((snapshots st1).getLast?).map GoMap.keys = some []) ∧
    CfgStack.Push { heap := heap, s := .slice refs, fs := fs } none =
      .ret { heap := heap, s := .slice refs, fs := fs } := by
  refine ⟨⟨{ heap := heap, s := .slice (refs ++ [some a]), fs := fs }, rfl, rfl, ?_, ?_⟩, rfl⟩
  · simp [CfgStack.refs]
  · simp [snapshots, CfgStack.refs, snapshotOf, hempty]

/-- C14, witness: the amended statement for the fresh stack of `main` and an empty map. -/
theorem C14_push_empty_appends_witness :
    (∃ st1, CfgStack.Push emptyMapState (some 1) = .ret st1 ∧
      st1.s = .slice ([some 0] ++ [some 1]) ∧
      st1.s.refs.length = [some 0].length + 1 ∧
      ((snapshots st1).getLast?).map GoMap.keys = some []) ∧
    CfgStack.Push emptyMapState none = .ret emptyMapState :=
  C14_push_empty_appends (mainStack.heap ++ [GoMap.empty]) [some 0] mainStack.fs 1 (by decide)

/-- C14, counterexample: pushing an empty mapping on the fresh stack of `main` changes
the stack: it has two snapshots afterwards instead of one. -/
theorem C14_push_empty_changes_stack :
    (snapshots emptyMapState).length = 1 ∧
    ∃ st1, CfgStack.Push emptyMapState (some 1) = .ret st1 ∧
      (snapshots st1).length = 2 ∧ st1 ≠ emptyMapState :=
  ⟨by decide, _, rfl, by decide, by decide⟩

theorem after_forward {T : Type} [Inhabited T] (xs : List T) (i : Nat) :
    ∀ j : Nat, j ≤ xs.length → (SliceIter.mk xs false (j : Int)).after i =
      SliceIter.mk xs false ((min (j + i) xs.length : Nat) : Int) := by
  induction i with
  | zero =>
    intro j hj
    simp only [SliceIter.after, Nat.add_zero]
    rw [Nat.min_eq_left hj]
  | succ i ih =>
    intro j hj
    simp only [SliceIter.after, SliceIter.call, Bool.false_eq_true, if_false, Nat.cast_lt]
    by_cases hlt : j < xs.length
    · simp only [hlt, if_true]
      have := ih (j + 1) (by omega)
      rw [show ((j : Int) + 1) = ((j + 1 : Nat) : Int) by simp, this]
      congr 2
      omega
    · simp only [hlt, if_false]
      rw [ih j hj]
      congr 2
      omega

theorem after_reverse {T : Type} [Inhabited T] (xs : List T) (i : Nat) :
    ∀ j : Nat, (SliceIter.mk xs true ((j : Int) - 1)).after i =
      SliceIter.mk xs true (((j - i : Nat) : Int) - 1) := by
  induction i with
  | zero => intro j; simp [SliceIter.after]
  | succ i ih =>
    intro j
    simp only [SliceIter.after, SliceIter.call, if_true]
    cases j with
    | zero =>
      simp only [Nat.cast_zero, zero_sub, ge_iff_le, Left.nonneg_neg_iff, Int.reduceLE, if_false]
      have := ih 0
      simpa using this
    | succ j =>
      have h0 : ((j + 1 : Nat) : Int) - 1 ≥ 0 := by omega
      simp only [h0, if_true]
      have := ih j
      rw [show ((j + 1 : Nat) : Int) - 1 - 1 = (j : Int) - 1 by omega, this]
      congr 2
      omega

/-- C15: the contract of `SliceIterator`.  For every slice `xs` (the empty one included):
in forward mode call `i + 1` yields `(xs[i], true)` for `i < len(xs)`, in reverse mode it
yields `(xs[len(xs) - 1 - i], true)`, and in both modes every later call yields the zero
value and `false`. -/
theorem C15_slice_iterator_contract {T : Type} [Inhabited T] (xs : List T) (i : Nat) :
    (∀ h : i < xs.length,
      (SliceIterator xs false).nth i = (xs[i], true) ∧
      (SliceIterator xs true).nth i = (xs[xs.length - 1 - i], true)) ∧
    (xs.length ≤ i →
      (SliceIterator xs false).nth i = (default, false) ∧
      (SliceIterator xs true).nth i = (default, false)) := by
  have hf := after_forward xs i 0 (Nat.zero_le _)
  have hr := after_reverse xs i xs.length
  simp only [Nat.cast_zero, zero_add] at hf
  have hf0 : (SliceIterator xs false).after i = SliceIter.mk xs false ((min i xs.length : Nat) : Int) := by
    simpa [SliceIterator] using hf
  have hr0 : (SliceIterator xs true).after i =
      SliceIter.mk xs true (((xs.length - i : Nat) : Int) - 1) := by
    simpa [SliceIterator] using hr
  constructor
  · intro h
    constructor
    · simp only [SliceIter.nth, hf0, SliceIter.call, Bool.false_eq_true, if_false, Nat.cast_lt]
      have : min i xs.length = i := by omega
      simp [this, h, List.getD_eq_getElem?_getD, List.getElem?_eq_getElem h]
    · simp only [SliceIter.nth, hr0, SliceIter.call, if_true]
      have h0 : ((xs.length - i : Nat) : Int) - 1 ≥ 0 := by omega
      have h1 : (((xs.length - i : Nat) : Int) - 1).toNat = xs.length - 1 - i := by omega
      have h2 : xs.length - 1 - i < xs.length := by omega
      simp [h0, h1, List.getD_eq_getElem?_getD, List.getElem?_eq_getElem h2]
  · intro h
    constructor
    · simp only [SliceIter.nth, hf0, SliceIter.call, Bool.false_eq_true, if_false, Nat.cast_lt]
      have : min i xs.length = xs.length := by omega
      simp [this]
    · simp only [SliceIter.nth, hr0, SliceIter.call, if_true]
      have h0 : ¬ ((xs.length - i : Nat) : Int) - 1 ≥ 0 := by omega
      simp [h0]

/-! ## Uninitialised stacks -/

/-- The outcome next to the effects of `Push` is the outcome of `Push`, and when `Push`
returns the stack has grown by exactly the elements recorded as appended. -/
theorem PushTraced_sound {σ : Type} (st : State σ) (m : MapRef) :
    (CfgStack.PushTraced st m).2 = CfgStack.Push st m ∧
    (CfgStack.PushTraced st m).1.calls = [] ∧
    ∀ st1, CfgStack.Push st m = .ret st1 →
      st1.s.refs = st.s.refs ++ (CfgStack.PushTraced st m).1.appended ∧
      st1.heap = st.heap ∧ st1.fs = st.fs := by
  obtain ⟨heap, s, fs⟩ := st
  cases s with
  | nilPtr => exact ⟨rfl, rfl, fun st1 h => by cases h⟩
  | nilSlice => exact ⟨rfl, rfl, fun st1 h => by cases h⟩
  | slice refs =>
    cases m with
    | none =>
      refine ⟨rfl, rfl, fun st1 h => ?_⟩
      simp only [CfgStack.Push, Exec.ret.injEq] at h
      subst h
      simp [CfgStack.PushTraced, CfgStack.refs]
    | some a =>
      refine ⟨rfl, rfl, fun st1 h => ?_⟩
      simp only [CfgStack.Push, Exec.ret.injEq] at h
      subst h
      simp [CfgStack.PushTraced, CfgStack.refs]

/-- The outcome next to the effects of `Unroll` is the outcome of `Unroll`; nothing is
appended; and when `Unroll` returns, the calls recorded are those of its log, which are
the calls that made the flag set it returns. -/
theorem UnrollTraced_sound {σ : Type} (F : FlagLayer σ) (st : State σ) (lateSet : Bool) :
    (CfgStack.UnrollTraced F st lateSet).2 = CfgStack.Unroll F st lateSet ∧
    (CfgStack.UnrollTraced F st lateSet).1.appended = [] ∧
    ∀ st1 log, CfgStack.Unroll F st lateSet = .ret (st1, log) →
      (CfgStack.UnrollTraced F st lateSet).1.calls = log.calls ∧
      st1.fs = applySets F st.fs (CfgStack.UnrollTraced F st lateSet).1.calls ∧
      st1.s = st.s := by
  have hcalls : ∀ st1 log, CfgStack.Unroll F st lateSet = .ret (st1, log) →
      (CfgStack.UnrollTraced F st lateSet).1.calls = log.calls ∧ st1.s = st.s := by
    intro st1 log h
    obtain ⟨heap, s, fs⟩ := st
    cases s with
    | nilPtr => cases h
    | nilSlice => cases h
    | slice refs =>
      cases hsp : splitStack refs lateSet with
      | none =>
        simp only [CfgStack.Unroll, hsp] at h
        cases h
      | some p =>
        obtain ⟨res, rest⟩ := p
        cases hloop : unrollLoop res (rest.length + 1) (SliceIterator rest lateSet) heap with
        | panic e =>
          simp only [CfgStack.Unroll, hsp, hloop] at h
          cases h
        | timeout =>
          simp only [CfgStack.Unroll, hsp, hloop] at h
          cases h
        | ret h1 =>
          simp only [CfgStack.Unroll, hsp, hloop, Exec.ret.injEq, Prod.mk.injEq] at h
          obtain ⟨ha, hb⟩ := h
          subst ha; subst hb
          simp [CfgStack.UnrollTraced, hsp, hloop]
  have hshape : (CfgStack.UnrollTraced F st lateSet).2 = CfgStack.Unroll F st lateSet ∧
      (CfgStack.UnrollTraced F st lateSet).1.appended = [] := by
    obtain ⟨heap, s, fs⟩ := st
    cases s with
    | nilPtr => exact ⟨rfl, rfl⟩
    | nilSlice => exact ⟨rfl, rfl⟩
    | slice refs =>
      cases hsp : splitStack refs lateSet with
      | none => simp [CfgStack.UnrollTraced, CfgStack.Unroll, hsp]
      | some p =>
        obtain ⟨res, rest⟩ := p
        cases hloop : unrollLoop res (rest.length + 1) (SliceIterator rest lateSet) heap with
        | panic e => simp [CfgStack.UnrollTraced, CfgStack.Unroll, hsp, hloop]
        | timeout => simp [CfgStack.UnrollTraced, CfgStack.Unroll, hsp, hloop]
        | ret h1 => simp [CfgStack.UnrollTraced, CfgStack.Unroll, hsp, hloop]
  refine ⟨hshape.1, hshape.2, fun st1 log h => ?_⟩
  · obtain ⟨h1, h2⟩ := hcalls st1 log h
    exact ⟨h1, by rw [h1]; exact (Unroll_flags F st st1 lateSet log h).1, h2⟩

/-- C17: an uninitialised stack is fatal.  On a nil pointer and on a pointer to a nil
slice, `Push` (for every mapping, nil included) and `Unroll` (for every direction, flag
layer and flag set) end in a panic instead of returning, and by the time they panic they
have appended nothing to the stack and made no `fs.Set` call.  The record of appends and
calls is that of the traced variants, which on every stack have the outcome of `Push` and
`Unroll` and, when these return, record exactly the growth of the stack and the calls
that made the returned flag set. -/
theorem C17_uninitialised_is_fatal {σ : Type} (F : FlagLayer σ) (heap : Heap) (fs : σ)
    (m : MapRef) (lateSet : Bool) :
    (∃ msg, CfgStack.Push { heap := heap, s := .nilPtr, fs := fs } m = .panic msg) ∧
    (∃ msg, CfgStack.Push { heap := heap, s := .nilSlice, fs := fs } m = .panic msg) ∧
    (∃ msg, CfgStack.Unroll F { heap := heap, s := .nilPtr, fs := fs } lateSet = .panic msg) ∧
    (∃ msg, CfgStack.Unroll F { heap := heap, s := .nilSlice, fs := fs } lateSet = .panic msg) ∧
    (∃ msg, CfgStack.PushTraced { heap := heap, s := .nilPtr, fs := fs } m =
      ({ appended := [], calls := [] }, .panic msg)) ∧
    (∃ msg, CfgStack.PushTraced { heap := heap, s := .nilSlice, fs := fs } m =
      ({ appended := [], calls := [] }, .panic msg)) ∧
    (∃ msg, CfgStack.UnrollTraced F { heap := heap, s := .nilPtr, fs := fs } lateSet =
      ({ appended := [], calls := [] }, .panic msg)) ∧
    (∃ msg, CfgStack.UnrollTraced F { heap := heap, s := .nilSlice, fs := fs } lateSet =
      ({ appended := [], calls := [] }, .panic msg)) ∧
    (∀ G : FlagLayer σ,
      CfgStack.Unroll G { heap := heap, s := .nilPtr, fs := fs } lateSet =
        CfgStack.Unroll F { heap := heap, s := .nilPtr, fs := fs } lateSet ∧
      CfgStack.Unroll G { heap := heap, s := .nilSlice, fs := fs } lateSet =
        CfgStack.Unroll F { heap := heap, s := .nilSlice, fs := fs } lateSet) ∧
    (∀ st : State σ,
      (CfgStack.PushTraced st m).2 = CfgStack.Push st m ∧
      ∀ st1, CfgStack.Push st m = .ret st1 →
        st1.s.refs = st.s.refs ++ (CfgStack.PushTraced st m).1.appended) ∧
    (∀ st : State σ,
      (CfgStack.UnrollTraced F st lateSet).2 = CfgStack.Unroll F st lateSet ∧
      ∀ st1 log, CfgStack.Unroll F st lateSet = .ret (st1, log) →
        (CfgStack.UnrollTraced F st lateSet).1.calls = log.calls ∧
        st1.fs = applySets F st.fs (CfgStack.UnrollTraced F st lateSet).1.calls) :=
  ⟨⟨_, rfl⟩, ⟨_, rfl⟩, ⟨_, rfl⟩, ⟨_, rfl⟩, ⟨_, rfl⟩, ⟨_, rfl⟩, ⟨_, rfl⟩, ⟨_, rfl⟩,
    fun _ => ⟨rfl, rfl⟩,
    fun st => ⟨(PushTraced_sound st m).1, fun st1 h => ((PushTraced_sound st m).2.2 st1 h).1⟩,
    fun st => ⟨(UnrollTraced_sound F st lateSet).1, fun st1 log h =>
      ⟨((UnrollTraced_sound F st lateSet).2.2 st1 log h).1,
        ((UnrollTraced_sound F st lateSet).2.2 st1 log h).2.1⟩⟩⟩

/-! ## The snapshot of a file -/

theorem visitFlag_skip (cfgName : String) (cmds : List String) (acc : GoMap × String)
    (f : String × String) (h : named cmds f.1 = false) :
    visitFlag cfgName cmds acc f = acc := by
  unfold visitFlag
  unfold named at h
  rw [h]
  rfl

theorem visitFlag_take (cfgName : String) (cmds : List String) (acc : GoMap × String)
    (f : String × String) (h : named cmds f.1 = true) :
    visitFlag cfgName cmds acc f =
      (acc.1.set f.1 f.2, if f.1 = cfgName then f.2 else acc.2) := by
  unfold visitFlag
  unfold named at h
  rw [h]
  rfl

/-- A key that no visited and named flag carries keeps its entry. -/
theorem foldl_visitFlag_get?_other (cfgName : String) (cmds : List String)
    (l : List (String × String)) (acc : GoMap × String) (k : String)
    (hl : ∀ f ∈ l, f.1 = k → named cmds k = false) :
    (l.foldl (visitFlag cfgName cmds) acc).1.get? k = acc.1.get? k := by
  induction l generalizing acc with
  | nil => rfl
  | cons f fs ih =>
    rw [List.foldl_cons, ih _ (fun g hg => hl g (List.mem_cons_of_mem f hg))]
    by_cases hn : named cmds f.1 = true
    · rw [visitFlag_take _ _ _ _ hn]
      by_cases hk : f.1 = k
      · have := hl f (List.mem_cons_self f fs) hk
        rw [hk, this] at hn
        cases hn
      · exact GoMap.get?_set_ne _ _ _ _ (Ne.symm hk)
    · rw [visitFlag_skip _ _ _ _ (by simpa using hn)]

/-- A visited and named flag, visited once, ends up in the snapshot with its value. -/
theorem foldl_visitFlag_get?_mem (cfgName : String) (cmds : List String)
    (l : List (String × String)) (acc : GoMap × String) (k v : String)
    (hnd : (l.map Prod.fst).Nodup) (hmem : (k, v) ∈ l) (hn : named cmds k = true) :
    (l.foldl (visitFlag cfgName cmds) acc).1.get? k = some v := by
  induction l generalizing acc with
  | nil => simp at hmem
  | cons f fs ih =>
    simp only [List.map_cons, List.nodup_cons] at hnd
    rw [List.foldl_cons]
    rcases List.mem_cons.mp hmem with h | h
    · subst h
      rw [foldl_visitFlag_get?_other _ _ _ _ _ (fun g hg hgk =>
        absurd (show (k, v).1 ∈ fs.map Prod.fst from
          List.mem_map.mpr ⟨g, hg, hgk⟩) hnd.1)]
      rw [visitFlag_take _ _ _ _ hn]
      exact GoMap.get?_set_self _ _ _
    · exact ih _ hnd.2 h

/-- The variable `cfgFile` keeps its value when no visited and named flag is the chain
option. -/
theorem foldl_visitFlag_cfg_other (cfgName : String) (cmds : List String)
    (l : List (String × String)) (acc : GoMap × String)
    (hl : ∀ f ∈ l, f.1 = cfgName → named cmds cfgName = false) :
    (l.foldl (visitFlag cfgName cmds) acc).2 = acc.2 := by
  induction l generalizing acc with
  | nil => rfl
  | cons f fs ih =>
    rw [List.foldl_cons, ih _ (fun g hg => hl g (List.mem_cons_of_mem f hg))]
    by_cases hn : named cmds f.1 = true
    · rw [visitFlag_take _ _ _ _ hn]
      by_cases hk : f.1 = cfgName
      · have := hl f (List.mem_cons_self f fs) hk
        rw [hk, this] at hn
        cases hn
      · simp only [hk, if_false]
    · rw [visitFlag_skip _ _ _ _ (by simpa using hn)]

/-- The variable `cfgFile` is the value of the chain option when that option is visited
(once) and named. -/
theorem foldl_visitFlag_cfg_mem (cfgName : String) (cmds : List String)
    (l : List (String × String)) (acc : GoMap × String) (v : String)
    (hnd : (l.map Prod.fst).Nodup) (hmem : (cfgName, v) ∈ l)
    (hn : named cmds cfgName = true) :
    (l.foldl (visitFlag cfgName cmds) acc).2 = v := by
  induction l generalizing acc with
  | nil => simp at hmem
  | cons f fs ih =>
    simp only [List.map_cons, List.nodup_cons] at hnd
    rw [List.foldl_cons]
    rcases List.mem_cons.mp hmem with h | h
    · subst h
      rw [foldl_visitFlag_cfg_other _ _ _ _ (fun g hg hgk =>
        absurd (show (cfgName, v).1 ∈ fs.map Prod.fst from
          List.mem_map.mpr ⟨g, hg, hgk⟩) hnd.1)]
      rw [visitFlag_take _ _ _ _ hn]
      simp
    · exact ih _ hnd.2 h

/-- The keys of the snapshot of a file other than the marker: the visited flags that a
token of the file names. -/
theorem fileSnapshot_keys {σ : Type} (F : FlagLayer σ) (cfgName path data : String) (fs : σ)
    (k : String) (hk : k ≠ ProcessKey) :
    k ∈ (fileSnapshot F cfgName path data fs).1.keys ↔
      (∃ v, (k, v) ∈ F.Visit (F.Parse fs (tokenize data))) ∧ named (tokenize data) k = true := by
  rw [GoMap.mem_keys_iff]
  unfold fileSnapshot buildSnapshot
  constructor
  · rintro ⟨v, hv⟩
    by_contra hcon
    have hother : ∀ f ∈ F.Visit (F.Parse fs (tokenize data)), f.1 = k →
        named (tokenize data) k = false := by
      intro f hf hfk
      by_contra hn
      exact hcon ⟨⟨f.2, by rw [← hfk]; exact hf⟩, by simpa using hn⟩
    rw [foldl_visitFlag_get?_other _ _ _ _ _ hother, GoMap.get?_set_ne _ _ _ _ hk] at hv
    cases hv
  · rintro ⟨⟨v, hv⟩, hn⟩
    generalize (GoMap.empty.set ProcessKey path, "") = acc
    generalize F.Visit (F.Parse fs (tokenize data)) = l at hv
    induction l generalizing acc v with
    | nil => simp at hv
    | cons f fs ih =>
      rw [List.foldl_cons]
      by_cases hlater : ∃ w, (k, w) ∈ fs
      · obtain ⟨w, hw⟩ := hlater
        exact ih _ _ hw
      · have hother : ∀ g ∈ fs, g.1 = k → named (tokenize data) k = false := by
          intro g hg hgk
          exact absurd ⟨g.2, by rw [← hgk]; exact hg⟩ hlater
        rw [foldl_visitFlag_get?_other _ _ _ _ _ hother]
        rcases List.mem_cons.mp hv with h | h
        · subst h
          rw [visitFlag_take _ _ _ _ hn]
          exact ⟨_, GoMap.get?_set_self _ _ _⟩
        · exact absurd ⟨v, h⟩ hlater

theorem named_iff (cmds : List String) (k : String) :
    named cmds k = true ↔ ∃ cmd ∈ cmds, tokenNames cmd k = true := by
  simp [named, List.any_eq_true]

/-- C12 (as amended): for every file and every prior state of the flag layer, the keys
of the snapshot built for the file, other than the provenance marker, are exactly the
options that `Visit` reports as set after the parse (by this file or before it) and that
a token of the file names, that is a token that starts with `-` and ends with the option
name.  An option set by the command line or an earlier file is a key of this file's
snapshot only when such a token occurs in this file. -/
theorem C12_snapshot_keys {σ : Type} (F : FlagLayer σ) (cfgName path data : String) (fs : σ)
    (k : String) (hk : k ≠ ProcessKey) :
    (k ∈ (fileSnapshot F cfgName path data fs).1.keys ↔
      (∃ v, (k, v) ∈ F.Visit (F.Parse fs (tokenize data))) ∧
        ∃ cmd ∈ tokenize data, tokenNames cmd k = true) ∧
    ((¬ ∃ cmd ∈ tokenize data, tokenNames cmd k = true) →
      k ∉ (fileSnapshot F cfgName path data fs).1.keys) := by
  have h := fileSnapshot_keys F cfgName path data fs k hk
  rw [named_iff] at h
  exact ⟨h, fun hno hmem => hno (h.mp hmem).2⟩

/-- C12, witness: in the scenario, `n` was set by the command line and no token of
`test.cfg` names it, so it is no key of the snapshot of `test.cfg`. -/
theorem C12_snapshot_keys_witness :
    ("n" ∈ (fileSnapshot goFlag "c" "test.cfg" "-a 30 -c parent.cfg\n" mainParsed).1.keys ↔
      (∃ v, ("n", v) ∈ goFlag.Visit (goFlag.Parse mainParsed (tokenize "-a 30 -c parent.cfg\n"))) ∧
        ∃ cmd ∈ tokenize "-a 30 -c parent.cfg\n", tokenNames cmd "n" = true) ∧
    ((¬ ∃ cmd ∈ tokenize "-a 30 -c parent.cfg\n", tokenNames cmd "n" = true) →
      "n" ∉ (fileSnapshot goFlag "c" "test.cfg" "-a 30 -c parent.cfg\n" mainParsed).1.keys) :=
  C12_snapshot_keys goFlag "c" "test.cfg" "-a 30 -c parent.cfg\n" mainParsed "n" (by decide)

/-- C12, counterexample: the keys of a file's snapshot are not the options its tokens
set.  After the command line `-n fake -c test.cfg`, a file containing `-n -c` sets only
`n` (to the value `-c`), yet `c`, set by the command line, is a key of its snapshot with
the command-line value; and a file containing `-a=30` sets `a`, yet `a` is no key of its
snapshot. -/
theorem C12_keys_differ_from_options_set :
    (setByTokens mainParsed (tokenize "-n -c") = ["n"] ∧
      "c" ∈ (fileSnapshot goFlag "c" "test.cfg" "-n -c" mainParsed).1.keys ∧
      (fileSnapshot goFlag "c" "test.cfg" "-n -c" mainParsed).1.get? "c" = some "test.cfg") ∧
    (setByTokens mainParsed (tokenize "-a=30") = ["a"] ∧
      "a" ∉ (fileSnapshot goFlag "c" "test.cfg" "-a=30" mainParsed).1.keys) := by
  decide

theorem Loads_trace_head {σ : Type} (F : FlagLayer σ) (env : Env)
    (cfgName : String) (path : String) (st : State σ) (r : Loaded σ)
    (hL : Loads F env cfgName path st r) : ∃ t, r.trace = path :: t := by
  cases hL with
  | unreadable _ _ hread => exact ⟨[], rfl⟩
  | stop _ _ refs0 data hread hs0 hcf => exact ⟨[], rfl⟩
  | cycle _ _ refs0 data hread hs0 hcf hmem => exact ⟨[], rfl⟩
  | next _ _ refs0 data r hread hs0 hcf hmem hsub => exact ⟨r.trace, rfl⟩

/-- A returning run on an initialised stack and a readable file pushes the snapshot of
that file first, and it ends without error after this one call exactly when `cfgFile` is
empty. -/
theorem Loads_first {σ : Type} (F : FlagLayer σ) (env : Env)
    (cfgName : String) (path : String) (st : State σ) (r : Loaded σ)
    (hL : Loads F env cfgName path st r) (refs : List MapRef) (data : String)
    (hread : ReadFile env path = some data) (hs : st.s = .slice refs) (ha : st.allocated) :
    (snapshots r.st)[refs.length]? = some (fileSnapshot F cfgName path data st.fs).1 ∧
    ((r.err = none ∧ r.trace = [path]) ↔ (fileSnapshot F cfgName path data st.fs).2 = "") := by
  have hlen : (snapshots st).length = refs.length := by simp [snapshots, hs, CfgStack.refs]
  have hpush : (snapshots (pushFile F cfgName path data st refs))[refs.length]? =
      some (fileSnapshot F cfgName path data st.fs).1 := by
    rw [pushFile_snapshots F _ _ _ _ _ hs ha, ← hlen]
    simp
  cases hL with
  | unreadable _ _ hread0 => rw [hread] at hread0; cases hread0
  | stop _ _ refs0 data0 hread0 hs0 hcf =>
    have hd : data0 = data := by rw [hread] at hread0; cases hread0; rfl
    have hr : refs0 = refs := by rw [hs] at hs0; cases hs0; rfl
    subst hd; subst hr
    exact ⟨hpush, by simp [hcf]⟩
  | cycle _ _ refs0 data0 hread0 hs0 hcf hmem =>
    have hd : data0 = data := by rw [hread] at hread0; cases hread0; rfl
    have hr : refs0 = refs := by rw [hs] at hs0; cases hs0; rfl
    subst hd; subst hr
    exact ⟨hpush, by simp [hcf]⟩
  | next _ _ refs0 data0 r1 hread0 hs0 hcf hmem hsub =>
    have hd : data0 = data := by rw [hread] at hread0; cases hread0; rfl
    have hr : refs0 = refs := by rw [hs] at hs0; cases hs0; rfl
    subst hd; subst hr
    obtain ⟨_, ext, _, hsn, _⟩ := Loads_shape F env cfgName _ _ r1 hsub
      (refs0 ++ [some st.heap.length]) rfl (pushFile_allocated F _ _ _ _ _ hs ha)
    obtain ⟨t, ht⟩ := Loads_trace_head F env cfgName _ _ r1 hsub
    refine ⟨?_, ?_⟩
    · simp only [hsn]
      rw [List.getElem?_append_left, hpush]
      rw [pushFile_snapshots F _ _ _ _ _ hs ha]
      simp [hlen]
    · simp [hcf, ht]

/-- What a returning run on a readable file does after the push, by the value of `cfgFile`:
empty, it ends without error; the marker of a snapshot on the stack, it ends with the
circular-reference error, without a recursive call; otherwise its next call is the
recursive one, on that value. -/
theorem Loads_follow {σ : Type} (F : FlagLayer σ) (env : Env)
    (cfgName : String) (path : String) (st : State σ) (r : Loaded σ)
    (hL : Loads F env cfgName path st r) (refs : List MapRef) (data : String)
    (hread : ReadFile env path = some data) (hs : st.s = .slice refs) :
    ((fileSnapshot F cfgName path data st.fs).2 ≠ "" →
      (fileSnapshot F cfgName path data st.fs).2 ∈ markers (pushFile F cfgName path data st refs) →
      r.err = some (.circular (fileSnapshot F cfgName path data st.fs).2) ∧ r.trace = [path] ∧
        r.st = pushFile F cfgName path data st refs) ∧
    ((∃ w t, r.trace = path :: w :: t) ↔
      (fileSnapshot F cfgName path data st.fs).2 ≠ "" ∧
      (fileSnapshot F cfgName path data st.fs).2 ∉
        markers (pushFile F cfgName path data st refs)) ∧
    ∀ w t, r.trace = path :: w :: t → w = (fileSnapshot F cfgName path data st.fs).2 := by
  cases hL with
  | unreadable _ _ hread0 => rw [hread] at hread0; cases hread0
  | stop _ _ refs0 data0 hread0 hs0 hcf =>
    have hd : data0 = data := by rw [hread] at hread0; cases hread0; rfl
    have hr : refs0 = refs := by rw [hs] at hs0; cases hs0; rfl
    subst hd; subst hr
    refine ⟨fun hne => absurd hcf hne, ?_, ?_⟩
    · constructor
      · rintro ⟨w, t, h⟩
        cases h
      · rintro ⟨hne, _⟩
        exact absurd hcf hne
    · intro w t h
      cases h
  | cycle _ _ refs0 data0 hread0 hs0 hcf hmem =>
    have hd : data0 = data := by rw [hread] at hread0; cases hread0; rfl
    have hr : refs0 = refs := by rw [hs] at hs0; cases hs0; rfl
    subst hd; subst hr
    refine ⟨fun _ _ => ⟨rfl, rfl, rfl⟩, ?_, ?_⟩
    · constructor
      · rintro ⟨w, t, h⟩
        cases h
      · rintro ⟨_, hnin⟩
        exact absurd hmem hnin
    · intro w t h
      cases h
  | next _ _ refs0 data0 r1 hread0 hs0 hcf hmem hsub =>
    have hd : data0 = data := by rw [hread] at hread0; cases hread0; rfl
    have hr : refs0 = refs := by rw [hs] at hs0; cases hs0; rfl
    subst hd; subst hr
    obtain ⟨t, ht⟩ := Loads_trace_head F env cfgName _ _ r1 hsub
    refine ⟨fun _ hin => absurd hin hmem, ?_, ?_⟩
    · constructor
      · intro _
        exact ⟨hcf, hmem⟩
      · intro _
        exact ⟨(fileSnapshot F cfgName path data0 st.fs).2, t, by simp only [ht]⟩
    · intro w t1 h
      simp only [ht, List.cons.injEq, true_and] at h
      exact h.1.symm

/-- C18 (as amended): the snapshot construction rule.  For every readable file, prior flag
state and initialised stack (the flag layer visiting each flag once and honouring the
reservation of the marker key), `ProcessCfgFile` returns, and the snapshot `m` it pushes
for the file maps `!!Process!!` to the path, has an option name as key exactly when
`Visit` reports the option and some token of the file starts with `-` and ends with the
name, then with the value `Visit` reports.  The call ends there without error exactly when
the chain option is not such a key with a non-empty value.  The chain is followed - the
next call is the recursive one, on the value of the chain option - exactly when the chain
option is such a key with a non-empty value that is neither the path of the file itself
nor the marker of a snapshot already on the stack; when the value is one of these, the call
returns the circular-reference error naming it, right after the push and without a
recursive call. -/
theorem C18_snapshot_rule {σ : Type} (F : FlagLayer σ) (hres : Reserved F) (env : Env)
    (path cfgName data : String) (st : State σ) (refs : List MapRef)
    (hread : ReadFile env path = some data) (hs : st.s = .slice refs) (ha : st.allocated)
    (hnd : ((F.Visit (F.Parse st.fs (tokenize data))).map Prod.fst).Nodup) :
    ∃ r m, CfgStack.ProcessCfgFile F env path cfgName st = .ret r ∧
      (snapshots r.st)[refs.length]? = some m ∧
      m.get? ProcessKey = some path ∧
      (∀ k, k ≠ ProcessKey →
        (k ∈ m.keys ↔ (∃ v, (k, v) ∈ F.Visit (F.Parse st.fs (tokenize data))) ∧
          ∃ cmd ∈ tokenize data, tokenNames cmd k = true)) ∧
      (∀ k v, (k, v) ∈ F.Visit (F.Parse st.fs (tokenize data)) →
        (∃ cmd ∈ tokenize data, tokenNames cmd k = true) → m.get? k = some v) ∧
      ((r.err = none ∧ r.trace = [path]) ↔
        ¬ ∃ v, (cfgName, v) ∈ F.Visit (F.Parse st.fs (tokenize data)) ∧
          (∃ cmd ∈ tokenize data, tokenNames cmd cfgName = true) ∧ v ≠ "") ∧
      ((∃ w t, r.trace = path :: w :: t) ↔
        ∃ v, (cfgName, v) ∈ F.Visit (F.Parse st.fs (tokenize data)) ∧
          (∃ cmd ∈ tokenize data, tokenNames cmd cfgName = true) ∧ v ≠ "" ∧
          v ≠ path ∧ v ∉ markers st) ∧
      (∀ v, (cfgName, v) ∈ F.Visit (F.Parse st.fs (tokenize data)) →
        (∃ cmd ∈ tokenize data, tokenNames cmd cfgName = true) → v ≠ "" →
        ((v = path ∨ v ∈ markers st) →
          r.err = some (.circular v) ∧ r.trace = [path] ∧
            snapshots r.st = snapshots st ++ [m]) ∧
        (v ≠ path → v ∉ markers st → ∃ t, r.trace = path :: v :: t)) := by
  obtain ⟨r, hr⟩ := ProcessCfgFile_returns F hres env path cfgName st refs hs ha
  have hL := Loads_of_ProcessCfgFile F env path cfgName st r hr
  obtain ⟨h1, h2⟩ := Loads_first F env cfgName path st r hL refs data hread hs ha
  obtain ⟨h3, h4, h5⟩ := Loads_follow F env cfgName path st r hL refs data hread hs
  have hmk : ∀ v, v ∈ markers (pushFile F cfgName path data st refs) ↔
      (v = path ∨ v ∈ markers st) := by
    intro v
    rw [pushFile_markers F hres _ _ _ _ _ hs ha]
    simp only [List.mem_append, List.mem_singleton]
    exact Or.comm
  have hcfg : ∀ v, (cfgName, v) ∈ F.Visit (F.Parse st.fs (tokenize data)) →
      (∃ cmd ∈ tokenize data, tokenNames cmd cfgName = true) →
      (fileSnapshot F cfgName path data st.fs).2 = v := fun v hv hn =>
    foldl_visitFlag_cfg_mem cfgName (tokenize data) _
      (GoMap.empty.set ProcessKey path, "") v hnd hv ((named_iff _ _).mpr hn)
  have hex : (fileSnapshot F cfgName path data st.fs).2 ≠ "" →
      (cfgName, (fileSnapshot F cfgName path data st.fs).2) ∈
          F.Visit (F.Parse st.fs (tokenize data)) ∧
        ∃ cmd ∈ tokenize data, tokenNames cmd cfgName = true := by
    intro hne
    have hex : ∃ f ∈ F.Visit (F.Parse st.fs (tokenize data)),
        f.1 = cfgName ∧ named (tokenize data) cfgName = true := by
      by_contra hcon
      apply hne
      exact foldl_visitFlag_cfg_other cfgName (tokenize data) _
        (GoMap.empty.set ProcessKey path, "") (fun f hf hfk => by
          by_contra hn
          exact hcon ⟨f, hf, hfk, by simpa using hn⟩)
    obtain ⟨f, hf, hfk, hn⟩ := hex
    have hmem : (cfgName, f.2) ∈ F.Visit (F.Parse st.fs (tokenize data)) := by
      rw [← hfk]; exact hf
    have := hcfg f.2 hmem ((named_iff _ _).mp hn)
    exact ⟨this ▸ hmem, (named_iff _ _).mp hn⟩
  refine ⟨r, _, hr, h1, fileSnapshot_marker F hres _ _ _ _, fun k hk => ?_, fun k v hv hn => ?_,
    ?_, ?_, fun v hv hn hne => ⟨fun hin => ?_, fun hp hm => ?_⟩⟩
  · rw [fileSnapshot_keys F cfgName path data st.fs k hk, named_iff]
  · exact foldl_visitFlag_get?_mem _ _ _ _ k v hnd hv ((named_iff _ _).mpr hn)
  · rw [h2]
    constructor
    · rintro hemp ⟨v, hv, hn, hne⟩
      exact hne ((hcfg v hv hn).symm.trans hemp)
    · intro hno
      by_contra hne
      obtain ⟨hmem, hn⟩ := hex hne
      exact hno ⟨_, hmem, hn, hne⟩
  · rw [h4]
    constructor
    · rintro ⟨hne, hnin⟩
      obtain ⟨hmem, hn⟩ := hex hne
      rw [hmk, not_or] at hnin
      exact ⟨_, hmem, hn, hne, hnin.1, hnin.2⟩
    · rintro ⟨v, hv, hn, hne, hp, hm⟩
      rw [hcfg v hv hn, hmk, not_or]
      exact ⟨hne, hp, hm⟩
  · have hc := hcfg v hv hn
    obtain ⟨e1, e2, e3⟩ := h3 (by rw [hc]; exact hne) (by rw [hc, hmk]; exact hin)
    rw [hc] at e1
    refine ⟨e1, e2, ?_⟩
    rw [e3]
    exact pushFile_snapshots F _ _ _ _ _ hs ha
  · have hc := hcfg v hv hn
    obtain ⟨w, t, ht⟩ := h4.mpr ⟨by rw [hc]; exact hne, by rw [hc, hmk, not_or]; exact ⟨hp, hm⟩⟩
    have := h5 w t ht
    rw [hc] at this
    exact ⟨t, by rw [ht, this]⟩

/-- C18, witness: the rule for `test.cfg` of the scenario, loaded on the fresh stack of
`main`; its chain option names `parent.cfg`, and the next call is the one on
`parent.cfg`. -/
theorem C18_snapshot_rule_witness :
    (∃ r m, CfgStack.ProcessCfgFile goFlag chainEnv "test.cfg" "c" mainStack = .ret r ∧
      (snapshots r.st)[[some 0].length]? = some m ∧
      m.get? ProcessKey = some "test.cfg" ∧
      (∀ k, k ≠ ProcessKey →
        (k ∈ m.keys ↔
          (∃ v, (k, v) ∈ goFlag.Visit
            (goFlag.Parse mainStack.fs (tokenize "-a 30 -c parent.cfg\n"))) ∧
          ∃ cmd ∈ tokenize "-a 30 -c parent.cfg\n", tokenNames cmd k = true)) ∧
      (∀ k v, (k, v) ∈ goFlag.Visit
          (goFlag.Parse mainStack.fs (tokenize "-a 30 -c parent.cfg\n")) →
        (∃ cmd ∈ tokenize "-a 30 -c parent.cfg\n", tokenNames cmd k = true) →
        m.get? k = some v) ∧
      ((r.err = none ∧ r.trace = ["test.cfg"]) ↔
        ¬ ∃ v, (("c" : String), v) ∈ goFlag.Visit
            (goFlag.Parse mainStack.fs (tokenize "-a 30 -c parent.cfg\n")) ∧
          (∃ cmd ∈ tokenize "-a 30 -c parent.cfg\n", tokenNames cmd "c" = true) ∧ v ≠ "") ∧
      ((∃ w t, r.trace = "test.cfg" :: w :: t) ↔
        ∃ v, (("c" : String), v) ∈ goFlag.Visit
            (goFlag.Parse mainStack.fs (tokenize "-a 30 -c parent.cfg\n")) ∧
          (∃ cmd ∈ tokenize "-a 30 -c parent.cfg\n", tokenNames cmd "c" = true) ∧ v ≠ "" ∧
          v ≠ "test.cfg" ∧ v ∉ markers mainStack) ∧
      (∀ v, (("c" : String), v) ∈ goFlag.Visit
            (goFlag.Parse mainStack.fs (tokenize "-a 30 -c parent.cfg\n")) →
        (∃ cmd ∈ tokenize "-a 30 -c parent.cfg\n", tokenNames cmd "c" = true) → v ≠ "" →
        ((v = "test.cfg" ∨ v ∈ markers mainStack) →
          r.err = some (.circular v) ∧ r.trace = ["test.cfg"] ∧
            snapshots r.st = snapshots mainStack ++ [m]) ∧
        (v ≠ "test.cfg" → v ∉ markers mainStack → ∃ t, r.trace = "test.cfg" :: v :: t))) ∧
    ∃ r, CfgStack.ProcessCfgFile goFlag chainEnv "test.cfg" "c" mainStack = .ret r ∧
      r.trace = ["test.cfg", "parent.cfg"] ∧
      (snapshots r.st)[1]? =
        some ⟨[("!!Process!!", "test.cfg"), ("a", "30"), ("c", "parent.cfg")], by decide⟩ :=
  ⟨C18_snapshot_rule goFlag goFlag_reserved chainEnv "test.cfg" "c" "-a 30 -c parent.cfg\n"
    mainStack [some 0] (by decide) rfl (allocated_of_ready mainStack (by decide)) (by decide),
    ⟨_, chainState_load, rfl, by decide⟩⟩

/-- C18, counterexample: a chain option that is a key with a non-empty value, and a chain
that is not followed.  `test.cfg` contains `-c test.cfg`; its snapshot has the key `c`
with the value `test.cfg`, which is the marker of that very snapshot, so the call returns
the circular-reference error after the push: the only call made is the one on `test.cfg`
itself. -/
theorem C18_chain_key_not_followed :
    ∃ r m, CfgStack.ProcessCfgFile goFlag selfEnv "test.cfg" "c" mainStack = .ret r ∧
      (snapshots r.st)[1]? = some m ∧ m.get? "c" = some "test.cfg" ∧
      (("c" : String), "test.cfg") ∈
        goFlag.Visit (goFlag.Parse mainStack.fs (tokenize "-c test.cfg\n")) ∧
      (∃ cmd ∈ tokenize "-c test.cfg\n", tokenNames cmd "c" = true) ∧
      r.trace = ["test.cfg"] ∧ r.err = some (.circular "test.cfg") ∧
      ¬ ∃ w t, r.trace = "test.cfg" :: w :: t :=
  ⟨_, _, selfState_load, rfl, by decide, by decide, ⟨"-c", by decide, by decide⟩, rfl, rfl,
    fun ⟨_, _, h⟩ => by cases h⟩

/-! ## Read failures and linear chains -/

/-- The flag set after a run: `Parse` ran on the files that were read, in order. -/
theorem Loads_flags {σ : Type} (F : FlagLayer σ) (env : Env)
    (cfgName : String) (path : String) (st : State σ) (r : Loaded σ)
    (hL : Loads F env cfgName path st r) :
    r.st.fs = parseFiles F env st.fs (pushedPaths env r.trace) := by
  induction hL with
  | unreadable path st hread => simp [pushedPaths, hread, parseFiles]
  | stop path st refs0 data hread hs0 hcf =>
    simp [pushedPaths, hread, parseFiles, pushFile]
  | cycle path st refs0 data hread hs0 hcf hmem =>
    simp [pushedPaths, hread, parseFiles, pushFile]
  | next path st refs0 data r hread hs0 hcf hmem hsub ih =>
    rw [ih]
    simp [pushedPaths, hread, parseFiles, pushFile]

/-- A run that meets an unreadable file: it is the last call, every call returns an
error, the innermost one the read error, and every earlier call read its file. -/
theorem Loads_read_error {σ : Type} (F : FlagLayer σ) (env : Env)
    (cfgName : String) (path : String) (st : State σ) (r : Loaded σ)
    (hL : Loads F env cfgName path st r) (p : String) (hp : ReadFile env p = none) :
    p ∈ r.trace →
      r.trace.getLast? = some p ∧
      (∃ e, r.err = some e ∧ e.cause = .read p ∧ e.paths = r.trace.tail ++ [p]) ∧
      pushedPaths env r.trace = r.trace.dropLast := by
  induction hL with
  | unreadable path st hread =>
    intro hmem
    simp only [List.mem_singleton] at hmem
    subst hmem
    exact ⟨rfl, ⟨_, rfl, rfl, rfl⟩, by simp [pushedPaths, hread]⟩
  | stop path st refs0 data hread hs0 hcf =>
    intro hmem
    simp only [List.mem_singleton] at hmem
    subst hmem
    rw [hp] at hread; cases hread
  | cycle path st refs0 data hread hs0 hcf hmem0 =>
    intro hmem
    simp only [List.mem_singleton] at hmem
    subst hmem
    rw [hp] at hread; cases hread
  | next path st refs0 data r hread hs0 hcf hmem0 hsub ih =>
    intro hmem
    simp only [List.mem_cons] at hmem
    rcases hmem with h | h
    · subst h
      rw [hp] at hread; cases hread
    · obtain ⟨h1, ⟨e, he, hc, hpaths⟩, h3⟩ := ih h
      obtain ⟨t, ht⟩ := Loads_trace_head F env cfgName _ _ r hsub
      refine ⟨?_, ⟨CfgError.wrapped (fileSnapshot F cfgName path data st.fs).2 e,
        by rw [he]; rfl, hc, ?_⟩, ?_⟩
      · rw [ht] at h1 ⊢
        simpa [List.getLast?_cons_cons] using h1
      · rw [ht] at hpaths
        simp only [CfgError.paths, hpaths, List.tail_cons, ht, List.cons_append]
      · simp only [pushedPaths] at h3 ⊢
        rw [List.filter_cons_of_pos (by simp [hread]), h3, ht]
        rfl

/-- C16: a read failure aborts.  If the file at the given path cannot be read,
`ProcessCfgFile` returns the read error naming the path and leaves the state - stack and
flag set - as it was: nothing is pushed, `Parse` is not called.  If an unreadable file is
reached through the chain, it is the last call; every enclosing call returns an error
that wraps the read error and names the path it recursed into; the snapshots pushed for
the files read before stay on the stack, after the old ones, and `Parse` ran on those
files only. -/
theorem C16_read_failure_aborts {σ : Type} (F : FlagLayer σ) (hres : Reserved F) (env : Env)
    (path cfgName : String) (st : State σ) (ha : st.allocated) :
    (ReadFile env path = none →
      CfgStack.ProcessCfgFile F env path cfgName st =
        .ret { st := st, err := some (.read path), trace := [path] }) ∧
    ∀ r p, CfgStack.ProcessCfgFile F env path cfgName st = .ret r → p ∈ r.trace →
      ReadFile env p = none →
      r.trace.getLast? = some p ∧
      (∃ e, r.err = some e ∧ e.cause = .read p ∧ e.paths = r.trace.tail ++ [p]) ∧
      r.st.fs = parseFiles F env st.fs r.trace.dropLast ∧
      ∃ ext, snapshots r.st = snapshots st ++ ext ∧
        ext.map (fun m => m.get? ProcessKey) = r.trace.dropLast.map some := by
  refine ⟨fun hread => Aux_succ_unreadable F env cfgName _ path st hread, ?_⟩
  intro r p hr hmem hp
  have hL := Loads_of_ProcessCfgFile F env path cfgName st r hr
  obtain ⟨h1, h2, h3⟩ := Loads_read_error F env cfgName path st r hL p hp hmem
  have hfs := Loads_flags F env cfgName path st r hL
  rw [h3] at hfs
  refine ⟨h1, h2, hfs, ?_⟩
  by_cases hs : ∃ refs, st.s = .slice refs
  · obtain ⟨refs, hs⟩ := hs
    obtain ⟨_, ext, _, hsn, _⟩ := Loads_shape F env cfgName path st r hL refs hs ha
    have hprov := Loads_provenance F hres env cfgName path st r hL refs hs ha
    refine ⟨ext, hsn, ?_⟩
    rw [h3] at hprov
    simp only [provenance, hsn, List.map_append] at hprov
    exact List.append_cancel_left hprov
  · obtain ⟨hst, htr⟩ := Loads_nil F env cfgName path st r hL (fun refs h => hs ⟨refs, h⟩)
    refine ⟨[], by rw [hst]; simp, ?_⟩
    rw [htr]
    rfl

/-- C16, witness: `test.cfg` names `missing.cfg`, which cannot be read.  The load returns
an error whose cause is the read error for `missing.cfg`, and the snapshot of `test.cfg`
stays on the stack. -/
theorem C16_read_failure_aborts_witness :
    ((ReadFile brokenEnv "test.cfg" = none →
      CfgStack.ProcessCfgFile goFlag brokenEnv "test.cfg" "c" mainStack =
        .ret { st := mainStack, err := some (.read "test.cfg"), trace := ["test.cfg"] }) ∧
    ∀ r p, CfgStack.ProcessCfgFile goFlag brokenEnv "test.cfg" "c" mainStack = .ret r →
      p ∈ r.trace → ReadFile brokenEnv p = none →
      r.trace.getLast? = some p ∧
      (∃ e, r.err = some e ∧ e.cause = .read p ∧ e.paths = r.trace.tail ++ [p]) ∧
      r.st.fs = parseFiles goFlag brokenEnv mainStack.fs r.trace.dropLast ∧
      ∃ ext, snapshots r.st = snapshots mainStack ++ ext ∧
        ext.map (fun m => m.get? ProcessKey) = r.trace.dropLast.map some) ∧
    ∃ r, CfgStack.ProcessCfgFile goFlag brokenEnv "test.cfg" "c" mainStack = .ret r ∧
      r.err = some (.wrapped "missing.cfg" (.read "missing.cfg")) ∧
      r.trace = ["test.cfg", "missing.cfg"] ∧ provenance r.st = [none, some "test.cfg"] :=
  ⟨C16_read_failure_aborts goFlag goFlag_reserved brokenEnv "test.cfg" "c" mainStack
      (allocated_of_ready mainStack (by decide)),
    _, rfl, by decide, by decide, by decide⟩

theorem chain_run {σ : Type} (F : FlagLayer σ) (hres : Reserved F) (env : Env)
    (cfgName : String) (fs0 : σ) (ps : List String) (hnd : ps.Nodup)
    (hread : ∀ p ∈ ps, (ReadFile env p).isSome = true)
    (hnext : ∀ k, k < ps.length →
      (fileSnapshot F cfgName (ps.getD k "") ((ReadFile env (ps.getD k "")).getD "")
          (parseFiles F env fs0 (ps.take k))).2 =
        if k + 1 < ps.length then ps.getD (k + 1) "" else "") (d : Nat) :
    ∀ (k n : Nat) (st : State σ) (refs : List MapRef), k + d + 1 = ps.length →
      st.s = .slice refs → st.allocated → markers st = "" :: ps.take k →
      st.fs = parseFiles F env fs0 (ps.take k) → d < n →
      ∃ r, CfgStack.ProcessCfgFileAux F env cfgName n (ps.getD k "") st = .ret r ∧
        r.err = none ∧ r.trace = ps.drop k := by
  induction d with
  | zero =>
    intro k n st refs hk hs ha hm hfs hn
    obtain ⟨n, rfl⟩ : ∃ m, n = m + 1 := ⟨n - 1, by omega⟩
    have hklt : k < ps.length := by omega
    have hpk : ps.getD k "" = ps[k] := by
      simp [List.getD_eq_getElem?_getD, List.getElem?_eq_getElem hklt]
    obtain ⟨data, hdata⟩ := Option.isSome_iff_exists.mp (hread _ (List.getElem_mem hklt))
    have hcv := hnext k hklt
    rw [if_neg (by omega), ← hfs] at hcv
    simp only [hpk, hdata, Option.getD_some] at hcv
    rw [hpk, Aux_succ_readable F env cfgName n _ st refs data hdata hs, if_pos hcv]
    refine ⟨_, rfl, rfl, ?_⟩
    rw [List.drop_eq_getElem_cons hklt, List.drop_of_length_le (by omega)]
  | succ d ih =>
    intro k n st refs hk hs ha hm hfs hn
    obtain ⟨n, rfl⟩ : ∃ m, n = m + 1 := ⟨n - 1, by omega⟩
    have hklt : k < ps.length := by omega
    have hk1lt : k + 1 < ps.length := by omega
    have hpk : ps.getD k "" = ps[k] := by
      simp [List.getD_eq_getElem?_getD, List.getElem?_eq_getElem hklt]
    have hpk1 : ps.getD (k + 1) "" = ps[k + 1] := by
      simp [List.getD_eq_getElem?_getD, List.getElem?_eq_getElem hk1lt]
    obtain ⟨data, hdata⟩ := Option.isSome_iff_exists.mp (hread _ (List.getElem_mem hklt))
    have hcv := hnext k hklt
    rw [if_pos hk1lt, ← hfs] at hcv
    simp only [hpk, hdata, Option.getD_some, hpk1] at hcv
    have hne : (fileSnapshot F cfgName ps[k] data st.fs).2 ≠ "" := by
      rw [hcv]
      exact readable_ne_empty env _ (hread _ (List.getElem_mem hk1lt))
    have htake : ps.take (k + 1) = ps.take k ++ [ps[k]] := take_succ_getElem ps k hklt
    have hm1 : markers (pushFile F cfgName ps[k] data st refs) = "" :: ps.take (k + 1) := by
      rw [pushFile_markers F hres _ _ _ _ _ hs ha, hm, htake]
      rfl
    have hnin : (fileSnapshot F cfgName ps[k] data st.fs).2 ∉
        markers (pushFile F cfgName ps[k] data st refs) := by
      rw [hm1, hcv]
      simp only [List.mem_cons, not_or]
      refine ⟨hcv ▸ hne, ?_⟩
      intro hmem
      obtain ⟨j, hj, hjeq⟩ := List.mem_take_iff_getElem.mp hmem
      have := (List.Nodup.getElem_inj_iff hnd).mp hjeq
      simp only [lt_min_iff] at hj
      omega
    have hfs1 : (pushFile F cfgName ps[k] data st refs).fs =
        parseFiles F env fs0 (ps.take (k + 1)) := by
      rw [htake, parseFiles_append, hdata, ← hfs]
      rfl
    obtain ⟨r, hr, herr, htr⟩ := ih (k + 1) n (pushFile F cfgName ps[k] data st refs)
      (refs ++ [some st.heap.length]) (by omega) rfl (pushFile_allocated F _ _ _ _ _ hs ha)
      hm1 hfs1 (by omega)
    rw [hpk1, ← hcv] at hr
    rw [hpk, Aux_succ_readable F env cfgName n _ st refs data hdata hs, if_neg hne, if_neg hnin,
      hr]
    refine ⟨_, rfl, ?_, ?_⟩
    · simp only [herr, Option.map_none']
    · simp only [htr]
      exact (List.drop_eq_getElem_cons hklt).symm

theorem pushedPaths_of_readable (env : Env) (ps : List String)
    (hread : ∀ p ∈ ps, (ReadFile env p).isSome = true) : pushedPaths env ps = ps :=
  List.filter_eq_self.mpr hread

/-! ## Cycles and linear chains of files -/

/-- The variable `cfgFile` ends up as `v` when the chain option is named, every report of
it carries `v`, and it is reported or `cfgFile` already holds `v`. -/
theorem foldl_visitFlag_cfg_all (cfgName : String) (cmds : List String)
    (l : List (String × String)) (acc : GoMap × String) (v : String)
    (hn : named cmds cfgName = true) (hall : ∀ f ∈ l, f.1 = cfgName → f.2 = v)
    (h : (∃ f ∈ l, f.1 = cfgName) ∨ acc.2 = v) :
    (l.foldl (visitFlag cfgName cmds) acc).2 = v := by
  induction l generalizing acc with
  | nil =>
    rcases h with ⟨f, hf, _⟩ | h
    · cases hf
    · exact h
  | cons f fs ih =>
    rw [List.foldl_cons]
    apply ih _ (fun g hg => hall g (List.mem_cons_of_mem f hg))
    by_cases hf : f.1 = cfgName
    · right
      rw [visitFlag_take _ _ _ _ (by rw [hf]; exact hn)]
      simp only [hf, if_true]
      exact hall f (List.mem_cons_self f fs) hf
    · have hacc : (visitFlag cfgName cmds acc f).2 = acc.2 := by
        by_cases hnf : named cmds f.1 = true
        · rw [visitFlag_take _ _ _ _ hnf]
          simp only [hf, if_false]
        · rw [visitFlag_skip _ _ _ _ (by simpa using hnf)]
      rcases h with ⟨g, hg, hgc⟩ | h
      · rcases List.mem_cons.mp hg with hgf | hgf
        · subst hgf
          exact absurd hgc hf
        · exact Or.inl ⟨g, hgf, hgc⟩
      · exact Or.inr (hacc.trans h)

/-- A file that hands the chain on to `next` leaves `next` in the variable `cfgFile`. -/
theorem cfgFile_of_designates {σ : Type} (F : FlagLayer σ) (env : Env)
    (cfgName path : String) (fs : σ) (next : String)
    (h : designates F env cfgName path fs next = true) :
    (fileSnapshot F cfgName path ((ReadFile env path).getD "") fs).2 = next := by
  simp only [designates, fileTokens, Bool.and_eq_true, List.any_eq_true, List.all_eq_true,
    Bool.or_eq_true, bne_iff_ne, ne_eq, beq_iff_eq] at h
  obtain ⟨⟨hn, hex⟩, hall⟩ := h
  unfold fileSnapshot buildSnapshot
  apply foldl_visitFlag_cfg_all _ _ _ _ _ hn _ (Or.inl hex)
  intro f hf hfc
  rcases hall f hf with h1 | h1
  · exact absurd hfc h1
  · exact h1

/-- A file that hands the chain on to no file leaves the variable `cfgFile` empty. -/
theorem cfgFile_of_endsChain {σ : Type} (F : FlagLayer σ) (env : Env)
    (cfgName path : String) (fs : σ) (h : endsChain F env cfgName path fs = true) :
    (fileSnapshot F cfgName path ((ReadFile env path).getD "") fs).2 = "" := by
  simp only [endsChain, fileTokens, Bool.or_eq_true, Bool.not_eq_true', List.all_eq_true,
    bne_iff_ne, ne_eq, beq_iff_eq] at h
  unfold fileSnapshot buildSnapshot
  by_cases hn : named (tokenize ((ReadFile env path).getD "")) cfgName = true
  · apply foldl_visitFlag_cfg_all _ _ _ _ _ hn _ (Or.inr rfl)
    intro f hf hfc
    rcases h with h | h
    · rw [h] at hn
      cases hn
    · rcases h f hf with h1 | h1
      · exact absurd hfc h1
      · exact h1
  · exact foldl_visitFlag_cfg_other _ _ _ _ (fun _ _ _ => by simpa using hn)

/-- C5 (as amended): cycle-freedom.  Let `ps` be `N >= 1` distinct readable paths such
that, in the run started at the first of them, each file `k` hands the chain on to the
path of file `(k mod N) + 1`: a token of file `k` names the chain option, and after the
parse of file `k` the flag layer reports the chain option with that path as its value.
Started at the first path on a stack freshly built by `NewCfgStack`, `ProcessCfgFile`
returns an error whose cause is a circular reference (naming the first path), after one
call per file and `N` pushes: the stack has `N + 1` entries. -/
theorem C5_cycle_detected {σ : Type} (F : FlagLayer σ) (hres : Reserved F) (env : Env)
    (cfgName : String) (heap : Heap) (fs0 : σ) (st0 : State σ) (ps : List String)
    (hne : ps ≠ []) (hnd : ps.Nodup)
    (hread : ∀ p ∈ ps, (ReadFile env p).isSome = true)
    (hnext : ∀ k, k < ps.length →
      designates F env cfgName (ps.getD k "") (parseFiles F env fs0 (ps.take k))
        (ps.getD ((k + 1) % ps.length) "") = true)
    (hnew : NewCfgStack F heap (some fs0) = .ok st0) :
    ∃ r, CfgStack.ProcessCfgFile F env (ps.getD 0 "") cfgName st0 = .ret r ∧
      r.err.map CfgError.cause = some (.circular (ps.getD 0 "")) ∧
      r.trace = ps ∧ r.st.s.refs.length ≤ ps.length + 1 ∧
      r.st.s.refs.length - st0.s.refs.length ≤ ps.length ∧
      r.st.s.refs.length = st0.s.refs.length + ps.length := by
  obtain ⟨hp0, hs0⟩ := NewCfgStack_provenance F hres heap fs0 st0 hnew
  have ha0 := allocated_of_ready st0 (NewCfgStack_ready F heap _ st0 hnew)
  have hpos : 0 < ps.length := List.length_pos.mpr hne
  have hfs : st0.fs = fs0 := by
    unfold NewCfgStack at hnew
    simp only at hnew
    split at hnew
    · simp at hnew
    · cases hnew; rfl
  have hle : ps.length ≤ env.files.length :=
    (length_le_readable env ps hnd hread).trans (readablePaths_length_le env)
  obtain ⟨r, hr, herr, htr, hlen⟩ := cycle_run F hres env cfgName fs0 ps hnd hread
    (fun k hk => cfgFile_of_designates F env cfgName _ _ _ (hnext k hk))
    (ps.length - 1) 0 (env.files.length + 1) st0 [some heap.length] (by omega) hs0 ha0
    (by rw [markers_eq_provenance, hp0]; rfl) (by rw [hfs]; rfl) rfl (by omega)
  have hlen0 : st0.s.refs.length = 1 := by rw [hs0]; rfl
  refine ⟨r, hr, herr, by simpa using htr, by omega, ?_, ?_⟩
  · rw [hlen, hlen0]
    simp
  · rw [hlen, hlen0]
    omega

/-- C5, witness: `a.cfg` names `b.cfg` and `b.cfg` names `a.cfg`, each by tokens
`-c FILE`; loading `a.cfg` on the fresh stack of `main` fails with a circular reference
to `a.cfg` after two pushes. -/
theorem C5_cycle_detected_witness :
    ∃ r, CfgStack.ProcessCfgFile goFlag loopEnv (["a.cfg", "b.cfg"].getD 0 "") "c" mainStack =
        .ret r ∧
      r.err.map CfgError.cause = some (.circular (["a.cfg", "b.cfg"].getD 0 "")) ∧
      r.trace = ["a.cfg", "b.cfg"] ∧ r.st.s.refs.length ≤ ["a.cfg", "b.cfg"].length + 1 ∧
      r.st.s.refs.length - mainStack.s.refs.length ≤ ["a.cfg", "b.cfg"].length ∧
      r.st.s.refs.length = mainStack.s.refs.length + ["a.cfg", "b.cfg"].length :=
  C5_cycle_detected goFlag goFlag_reserved loopEnv "c" [] mainParsed mainStack
    ["a.cfg", "b.cfg"] (by decide) (by decide) (by decide) (by decide) mainStack_new

/-- C5, counterexample: a cycle that is not detected.  After the command line `-c a.cfg`,
`a.cfg` contains `-c=b.cfg` and `b.cfg` contains `-c=a.cfg`: each file sets the chain
option to the path of the other.  The parse of `a.cfg` sets `c` to `b.cfg`, yet no token
of `a.cfg` ends with `c`, so loading `a.cfg` on the fresh stack returns no error after one
call and one push. -/
theorem C5_cycle_not_detected :
    ∃ st0 r, NewCfgStack goFlag [] (some equalsParsed) = .ok st0 ∧
      goFlag.Visit equalsParsed = [("c", "a.cfg")] ∧
      setByTokens equalsParsed (fileTokens equalsEnv "a.cfg") = ["c"] ∧
      goFlag.Visit (goFlag.Parse equalsParsed (fileTokens equalsEnv "a.cfg")) =
        [("c", "b.cfg")] ∧
      setByTokens (goFlag.Parse equalsParsed (fileTokens equalsEnv "a.cfg"))
        (fileTokens equalsEnv "b.cfg") = ["c"] ∧
      goFlag.Visit (goFlag.Parse (goFlag.Parse equalsParsed (fileTokens equalsEnv "a.cfg"))
        (fileTokens equalsEnv "b.cfg")) = [("c", "a.cfg")] ∧
      CfgStack.ProcessCfgFile goFlag equalsEnv "a.cfg" "c" st0 = .ret r ∧
      r.err = none ∧ r.trace = ["a.cfg"] ∧ r.st.s.refs.length = 2 ∧
      provenance r.st = [none, some "a.cfg"] :=
  ⟨_, _, rfl, by decide, by decide, by decide, by decide, by decide, rfl, by decide,
    by decide, by decide, by decide⟩

/-- C11 (as amended): discovery order of a linear chain.  Let `ps` be `K >= 1` distinct
readable paths such that, in the run started at the first of them, each file but the last
hands the chain on to the next path (a token of the file names the chain option, and
after the parse of the file the flag layer reports the chain option with the next path as
its value), and the last hands it on to no file (none of its tokens names the chain
option, or the chain option is reported with the empty value only).  Started at the first
path on a stack freshly built by `NewCfgStack`, `ProcessCfgFile` returns without error
after one call per file, and leaves exactly `K + 1` snapshots: index 0 is the
process-level snapshot, which has no marker, and index `i` (from 1 to `K`) carries the
marker `p_i`. -/
theorem C11_linear_chain_order {σ : Type} (F : FlagLayer σ) (hres : Reserved F) (env : Env)
    (cfgName : String) (heap : Heap) (fs0 : σ) (st0 : State σ) (ps : List String)
    (hne : ps ≠ []) (hnd : ps.Nodup)
    (hread : ∀ p ∈ ps, (ReadFile env p).isSome = true)
    (hnext : ∀ k, k + 1 < ps.length →
      designates F env cfgName (ps.getD k "") (parseFiles F env fs0 (ps.take k))
        (ps.getD (k + 1) "") = true)
    (hlast : endsChain F env cfgName (ps.getD (ps.length - 1) "")
      (parseFiles F env fs0 (ps.take (ps.length - 1))) = true)
    (hnew : NewCfgStack F heap (some fs0) = .ok st0) :
    ∃ r, CfgStack.ProcessCfgFile F env (ps.getD 0 "") cfgName st0 = .ret r ∧
      r.err = none ∧ r.trace = ps ∧
      (snapshots r.st).length = ps.length + 1 ∧
      (snapshots r.st)[0]? = (snapshots st0)[0]? ∧
      provenance r.st = none :: ps.map some := by
  obtain ⟨hp0, hs0⟩ := NewCfgStack_provenance F hres heap fs0 st0 hnew
  have ha0 := allocated_of_ready st0 (NewCfgStack_ready F heap _ st0 hnew)
  have hpos : 0 < ps.length := List.length_pos.mpr hne
  have hfs : st0.fs = fs0 := by
    unfold NewCfgStack at hnew
    simp only at hnew
    split at hnew
    · simp at hnew
    · cases hnew; rfl
  have hle : ps.length ≤ env.files.length :=
    (length_le_readable env ps hnd hread).trans (readablePaths_length_le env)
  have hcf : ∀ k, k < ps.length →
      (fileSnapshot F cfgName (ps.getD k "") ((ReadFile env (ps.getD k "")).getD "")
          (parseFiles F env fs0 (ps.take k))).2 =
        if k + 1 < ps.length then ps.getD (k + 1) "" else "" := by
    intro k hk
    by_cases hk1 : k + 1 < ps.length
    · rw [if_pos hk1]
      exact cfgFile_of_designates F env cfgName _ _ _ (hnext k hk1)
    · rw [if_neg hk1]
      have hkl : k = ps.length - 1 := by omega
      rw [hkl]
      exact cfgFile_of_endsChain F env cfgName _ _ hlast
  obtain ⟨r, hr, herr, htr⟩ := chain_run F hres env cfgName fs0 ps hnd hread hcf
    (ps.length - 1) 0 (env.files.length + 1) st0 [some heap.length] (by omega) hs0 ha0
    (by rw [markers_eq_provenance, hp0]; rfl) (by rw [hfs]; rfl) (by omega)
  have htr0 : r.trace = ps := by simpa using htr
  have hL := Loads_of_ProcessCfgFile F env (ps.getD 0 "") cfgName st0 r hr
  have hprov := Loads_provenance F hres env cfgName _ st0 r hL _ hs0 ha0
  rw [htr0, pushedPaths_of_readable env ps hread, hp0] at hprov
  obtain ⟨_, ext, _, hsn, _⟩ := Loads_shape F env cfgName _ st0 r hL _ hs0 ha0
  have hlen0 : (snapshots st0).length = 1 := by
    have := congrArg List.length hp0
    simpa [provenance] using this
  refine ⟨r, hr, herr, htr0, ?_, ?_, hprov⟩
  · have := congrArg List.length hprov
    simpa [provenance] using this
  · rw [hsn, List.getElem?_append_left (by omega)]

/-- C11, witness: `test.cfg -> parent.cfg` on the fresh stack of `main` gives three
snapshots: the process-level one, then `test.cfg`, then `parent.cfg`. -/
theorem C11_linear_chain_order_witness :
    ∃ r, CfgStack.ProcessCfgFile goFlag chainEnv (["test.cfg", "parent.cfg"].getD 0 "") "c"
        mainStack = .ret r ∧
      r.err = none ∧ r.trace = ["test.cfg", "parent.cfg"] ∧
      (snapshots r.st).length = ["test.cfg", "parent.cfg"].length + 1 ∧
      (snapshots r.st)[0]? = (snapshots mainStack)[0]? ∧
      provenance r.st = none :: ["test.cfg", "parent.cfg"].map some :=
  C11_linear_chain_order goFlag goFlag_reserved chainEnv "c" [] mainParsed mainStack
    ["test.cfg", "parent.cfg"] (by decide) (by decide) (by decide)
    (fun k hk => by
      obtain rfl : k = 0 := by
        simp only [List.length_cons, List.length_nil] at hk
        omega
      decide)
    (by decide) mainStack_new

/-- C11, counterexample: a one-file chain whose file does not set the chain option, and
whose load fails.  After the command line `-n fake -c test.cfg`, `test.cfg` contains
`-n -c`: the parse sets only `n` (to the value `-c`) and leaves `c` as the command line
set it.  The token `-c` still names the chain option, so the load of `test.cfg` on the
fresh stack ends with a circular-reference error instead of succeeding. -/
theorem C11_unset_chain_option_followed :
    ∃ r, NewCfgStack goFlag [] (some mainParsed) = .ok mainStack ∧
      goFlag.Visit mainParsed = [("c", "test.cfg"), ("n", "fake")] ∧
      setByTokens mainParsed (fileTokens valueEnv "test.cfg") = ["n"] ∧
      goFlag.Visit (goFlag.Parse mainParsed (fileTokens valueEnv "test.cfg")) =
        [("c", "test.cfg"), ("n", "-c")] ∧
      CfgStack.ProcessCfgFile goFlag valueEnv "test.cfg" "c" mainStack = .ret r ∧
      r.err = some (.circular "test.cfg") ∧ r.trace = ["test.cfg"] ∧
      provenance r.st = [none, some "test.cfg"] :=
  ⟨_, rfl, by decide, by decide, by decide, rfl, by decide, by decide, by decide⟩

/-! ## Repeated merges and reachable stacks -/

theorem firstValue_append (a b : List GoMap) (k : String) :
    firstValue (a ++ b) k =
      match firstValue a k with
      | some v => some v
      | none => firstValue b k := by
  induction a with
  | nil => rfl
  | cons m ms ih =>
    simp only [List.cons_append, firstValue]
    cases m.get? k with
    | some v => rfl
    | none => exact ih

theorem firstValue_reverse_none (l : List GoMap) (k : String) :
    firstValue l.reverse k = none ↔ firstValue l k = none := by
  rw [firstValue_eq_none_iff, firstValue_eq_none_iff]
  simp only [List.mem_reverse]

/-- Replacing the first map of a traversal by its merge with the others changes no
lookup, neither of this traversal nor of the traversal in the opposite order. -/
theorem lookups_after_merge (c c1 : GoMap) (os : List GoMap) (k : String)
    (h : c1.get? k = firstValue (c :: os) k) :
    firstValue (c1 :: os) k = firstValue (c :: os) k ∧
    firstValue (c1 :: os).reverse k = firstValue (c :: os).reverse k := by
  constructor
  · cases hc1 : c1.get? k with
    | some v => rw [← h, hc1]; simp only [firstValue, hc1]
    | none =>
      rw [hc1] at h
      have hall := (firstValue_eq_none_iff _ _).mp h.symm
      rw [← h]
      simp only [firstValue, hc1]
      exact (firstValue_eq_none_iff _ _).mpr
        (fun m hm => hall m (List.mem_cons_of_mem c hm))
  · simp only [List.reverse_cons, firstValue_append]
    cases hr : firstValue os.reverse k with
    | some v => rfl
    | none =>
      have hos := (firstValue_reverse_none os k).mp hr
      simp only [firstValue, hos] at h ⊢
      rw [h]
      cases c.get? k <;> rfl

theorem unrollOrder_map {α β : Type} (f : α → β) (l : List α) (d : Bool) :
    unrollOrder (l.map f) d = (unrollOrder l d).map f := by
  cases d <;> simp [unrollOrder]

theorem unrollOrder_not {α : Type} (l : List α) (d : Bool) :
    unrollOrder l (!d) = (unrollOrder l d).reverse := by
  cases d <;> simp [unrollOrder]

theorem unrollOrder_nodup {α : Type} (l : List α) (d : Bool) (h : l.Nodup) :
    (unrollOrder l d).Nodup := by
  cases d
  · simpa [unrollOrder] using h
  · simpa [unrollOrder] using h

/-- On a stack of distinct map objects, `Unroll` in either direction changes no lookup of
a non-marker key, forward or backward. -/
theorem Unroll_preserves_lookups {σ : Type} (F : FlagLayer σ) (st : State σ) (d : Bool)
    (hst : st.ready = true) (hnd : st.s.refs.Nodup) :
    ∃ st1 log, CfgStack.Unroll F st d = .ret (st1, log) ∧ st1.ready = true ∧ st1.s = st.s ∧
      ∀ e k, k ≠ ProcessKey →
        firstValue (unrollOrder (snapshots st1) e) k =
          firstValue (unrollOrder (snapshots st) e) k := by
  obtain ⟨st1, log, res, hun, hhead, hres, hs, hlen, hframe, hval, _⟩ :=
    Unroll_spec F st d hst
  refine ⟨st1, log, hun, ready_of_unroll st st1 hst hs hlen, hs, ?_⟩
  have hO := unrollOrder_nodup st.s.refs d hnd
  cases hord : unrollOrder st.s.refs d with
  | nil => rw [hord] at hhead; simp at hhead
  | cons x others =>
    rw [hord] at hhead hO
    simp only [List.head?_cons, Option.some.injEq] at hhead
    subst hhead
    have hnot : some res ∉ others := (List.nodup_cons.mp hO).1
    have hS : unrollOrder (snapshots st) d =
        deref st.heap res :: others.map (snapshotOf st.heap) := by
      rw [snapshots, unrollOrder_map, hord]; rfl
    have hS1 : unrollOrder (snapshots st1) d =
        deref st1.heap res :: others.map (snapshotOf st.heap) := by
      rw [snapshots, unrollOrder_map, hs, hord, List.map_cons]
      congr 1
      apply List.map_congr_left
      intro y hy
      cases y with
      | none => rfl
      | some b =>
        have hb : b ≠ res := fun h => hnot (h ▸ hy)
        simp only [snapshotOf, hframe b hb]
    intro e k hk
    have hv := hval k
    rw [if_neg hk, hS] at hv
    obtain ⟨h1, h2⟩ := lookups_after_merge _ _ _ k hv
    by_cases he : e = d
    · subst he
      rw [hS, hS1]
      exact h1
    · have he2 : e = !d := by cases e <;> cases d <;> simp_all
      subst he2
      rw [unrollOrder_not, unrollOrder_not, hS, hS1]
      exact h2

theorem unrollAll_preserves {σ : Type} (F : FlagLayer σ) (ds : List Bool) :
    ∀ (st : State σ), st.ready = true → st.s.refs.Nodup →
      ∃ st1, unrollAll F st ds = .ret st1 ∧ st1.ready = true ∧ st1.s = st.s ∧
        ∀ e k, k ≠ ProcessKey →
          firstValue (unrollOrder (snapshots st1) e) k =
            firstValue (unrollOrder (snapshots st) e) k := by
  induction ds with
  | nil => intro st hst _; exact ⟨st, rfl, hst, rfl, fun _ _ _ => rfl⟩
  | cons d ds ih =>
    intro st hst hnd
    obtain ⟨st1, log, hun, hr1, hs1, hl1⟩ := Unroll_preserves_lookups F st d hst hnd
    obtain ⟨st2, hall, hr2, hs2, hl2⟩ := ih st1 hr1 (hs1 ▸ hnd)
    refine ⟨st2, ?_, hr2, hs2.trans hs1, fun e k hk => (hl2 e k hk).trans (hl1 e k hk)⟩
    simp only [unrollAll, hun]
    exact hall

/-- C19 (as amended): history independence of `Unroll` on stacks of distinct map objects.
For every initialised non-empty stack whose snapshots are pairwise distinct map objects
(as on every stack built by `NewCfgStack` and `ProcessCfgFile`), every direction `d` and
every sequence `ds` of earlier `Unroll` calls on the same stack, all calls return and
`Unroll(d)` after them passes to `fs.Set` exactly the pairs it passes when called first
on the original stack. -/
theorem C19_history_independence {σ : Type} (F : FlagLayer σ) (st : State σ)
    (hst : st.ready = true) (hnd : st.s.refs.Nodup) (ds : List Bool) (d : Bool) :
    ∃ st' st1 log1 st2 log2, unrollAll F st ds = .ret st' ∧
      CfgStack.Unroll F st' d = .ret (st1, log1) ∧
      CfgStack.Unroll F st d = .ret (st2, log2) ∧
      ∀ kv, kv ∈ log1.calls ↔ kv ∈ log2.calls := by
  obtain ⟨st', hall, hr, _, hl⟩ := unrollAll_preserves F ds st hst hnd
  obtain ⟨st1, log1, hun1, _, _, _, hc1⟩ := Unroll_calls F st' d hr
  obtain ⟨st2, log2, hun2, _, _, _, hc2⟩ := Unroll_calls F st d hst
  refine ⟨st', st1, log1, st2, log2, hall, hun1, hun2, ?_⟩
  rintro ⟨k, v⟩
  rw [hc1 k v, hc2 k v]
  constructor
  · rintro ⟨hk, h⟩
    exact ⟨hk, (hl d k hk) ▸ h⟩
  · rintro ⟨hk, h⟩
    exact ⟨hk, (hl d k hk).symm ▸ h⟩

/-- C19, witness: the three calls of `main` (early, late, early) on the stack of the
scenario: the third call passes the pairs of the first. -/
theorem C19_history_independence_witness :
    ∃ st' st1 log1 st2 log2, unrollAll goFlag chainState [false, true] = .ret st' ∧
      CfgStack.Unroll goFlag st' false = .ret (st1, log1) ∧
      CfgStack.Unroll goFlag chainState false = .ret (st2, log2) ∧
      ∀ kv, kv ∈ log1.calls ↔ kv ∈ log2.calls :=
  C19_history_independence goFlag chainState (by decide) (by decide) [false, true] false

/-- C19, counterexample: the stack `[r, x, y, r]` holds the map object `r` twice and is
reached from the fresh stack of `main` by three `Push` calls.  On it `Unroll(false)`
called first sets `a=1`; called after an `Unroll(true)` it sets `a=2` instead. -/
theorem C19_history_dependence_when_aliased :
    Reachable goFlag chainEnv aliasedState ∧
    ∃ st0 log0 st' st1 log1,
      CfgStack.Unroll goFlag aliasedState false = .ret (st0, log0) ∧
      unrollAll goFlag aliasedState [true] = .ret st' ∧
      CfgStack.Unroll goFlag st' false = .ret (st1, log1) ∧
      ("a", "1") ∈ log0.calls ∧ ("a", "2") ∉ log0.calls ∧
      ("a", "2") ∈ log1.calls ∧ ("a", "1") ∉ log1.calls := by
  refine ⟨?_, _, _, _, _, _, rfl, rfl, rfl, by decide, by decide, by decide, by decide⟩
  have h0 : Reachable goFlag chainEnv mainStack :=
    Reachable.new [] mainParsed mainStack mainStack_new
  have h1 := Reachable.alloc _ ⟨[("a", "1")], by decide⟩ h0
  have h2 := Reachable.alloc _ ⟨[("a", "2")], by decide⟩ h1
  have h3 := Reachable.push _ _ (some 1) h2 (by decide) rfl
  have h4 := Reachable.push _ _ (some 2) h3 (by decide) rfl
  exact Reachable.push _ _ (some 0) h4 (by decide) rfl

/-- A load keeps the elements of the stack pairwise distinct: every snapshot it pushes is
a new map object. -/
theorem Loads_nodup {σ : Type} (F : FlagLayer σ) (env : Env)
    (cfgName : String) (path : String) (st : State σ) (r : Loaded σ)
    (hL : Loads F env cfgName path st r) :
    st.ready = true → st.s.refs.Nodup → r.st.s.refs.Nodup := by
  have hpush : ∀ (path data : String) (st : State σ) (refs : List MapRef),
      st.s = .slice refs → st.ready = true → st.s.refs.Nodup →
      (pushFile F cfgName path data st refs).s.refs.Nodup := by
    intro path data st refs hs hr hnd
    rw [hs] at hnd
    simp only [pushFile, CfgStack.refs] at hnd ⊢
    rw [List.nodup_append]
    refine ⟨hnd, List.nodup_singleton _, ?_⟩
    intro x hx hy
    rw [List.mem_singleton] at hy
    subst hy
    have := ((ready_iff st).mp hr).2 (some st.heap.length) (by rw [hs]; exact hx)
    simp [validRef] at this
  induction hL with
  | unreadable path st hread => exact fun _ h => h
  | stop path st refs0 data hread hs0 hcf => exact hpush _ _ _ _ hs0
  | cycle path st refs0 data hread hs0 hcf hmem => exact hpush _ _ _ _ hs0
  | next path st refs0 data r hread hs0 hcf hmem hsub ih =>
    intro hr hnd
    exact ih (pushFile_ready F _ _ _ _ _ hs0 hr) (hpush _ _ _ _ hs0 hr hnd)

/-- The stacks built by `NewCfgStack` and `ProcessCfgFile` hold pairwise distinct map
objects. -/
theorem Built_nodup {σ : Type} (F : FlagLayer σ) (env : Env) (st : State σ)
    (hb : Built F env st) : st.s.refs.Nodup := by
  induction hb with
  | new heap fs st h =>
    unfold NewCfgStack at h
    simp only at h
    split at h
    · simp at h
    · cases h; simp [CfgStack.refs]
  | load st path cfgName r hb h ih =>
    exact Loads_nodup F env cfgName path st r
      (Loads_of_ProcessCfgFile F env path cfgName st r h) (Built_ready F env st hb) ih

theorem Loads_length_le {σ : Type} (F : FlagLayer σ) (env : Env)
    (cfgName : String) (path : String) (st : State σ) (r : Loaded σ)
    (hL : Loads F env cfgName path st r) : st.s.refs.length ≤ r.st.s.refs.length := by
  induction hL with
  | unreadable path st hread => exact Nat.le_refl _
  | stop path st refs0 data hread hs0 hcf => simp [pushFile, hs0, CfgStack.refs]
  | cycle path st refs0 data hread hs0 hcf hmem => simp [pushFile, hs0, CfgStack.refs]
  | next path st refs0 data r hread hs0 hcf hmem hsub ih =>
    simp only [pushFile, CfgStack.refs, List.length_append, List.length_singleton] at ih
    simp only [hs0, CfgStack.refs]
    omega

theorem Reachable_ready {σ : Type} (F : FlagLayer σ) (env : Env) (st : State σ)
    (h : Reachable F env st) : st.ready = true := by
  induction h with
  | new heap fs st hnew => exact NewCfgStack_ready F heap _ st hnew
  | alloc st m _ ih =>
    rw [ready_iff] at ih ⊢
    exact ⟨ih.1, fun x hx => validRef_append _ _ _ (ih.2 x hx)⟩
  | push st st1 m _ hlive hpush ih =>
    rw [ready_iff] at ih
    obtain ⟨⟨r0, rs, hs⟩, hv⟩ := ih
    obtain ⟨heap, s, fs⟩ := st
    simp only at hs
    subst hs
    cases m with
    | none =>
      simp only [CfgStack.Push] at hpush
      cases hpush
      exact (ready_iff _).mpr ⟨⟨r0, rs, rfl⟩, hv⟩
    | some a =>
      simp only [CfgStack.Push] at hpush
      cases hpush
      refine (ready_iff _).mpr ⟨⟨r0, rs ++ [some a], rfl⟩, ?_⟩
      intro x hx
      have hx1 : x ∈ (r0 :: rs) ++ [some a] := hx
      rcases List.mem_append.mp hx1 with h | h
      · exact hv x h
      · rw [List.mem_singleton.mp h]
        exact hlive
  | load st path cfgName r _ hload ih =>
    exact Loads_ready F env cfgName path st r
      (Loads_of_ProcessCfgFile F env path cfgName st r hload) ih
  | unroll st st1 lateSet log _ hun ih =>
    obtain ⟨st2, log2, res, hun2, _, _, hs, hlen, _⟩ := Unroll_spec F st lateSet ih
    rw [hun] at hun2
    cases hun2
    exact ready_of_unroll st st1 ih hs hlen

/-- C20: non-empty stack, safe indexing.  The stack `NewCfgStack` returns has exactly one
snapshot; `Push` and `ProcessCfgFile`, when they return, never shorten the stack; hence
every stack reachable from `NewCfgStack` by `Push`, `ProcessCfgFile` and `Unroll` is
non-empty, the split of lines 61-68 is in bounds for both directions and `Unroll`
returns; and on a one-snapshot stack `Unroll` in either direction passes to `fs.Set`
exactly the entries of that snapshot other than the marker. -/
theorem C20_safe_indexing {σ : Type} (F : FlagLayer σ) (env : Env) :
    (∀ heap fs st, NewCfgStack F heap (some fs) = .ok st → (snapshots st).length = 1) ∧
    (∀ (st : State σ) m st1, CfgStack.Push st m = .ret st1 →
      st.s.refs.length ≤ st1.s.refs.length) ∧
    (∀ st path cfgName r, CfgStack.ProcessCfgFile F env path cfgName st = .ret r →
      st.s.refs.length ≤ r.st.s.refs.length) ∧
    (∀ st, Reachable F env st →
      st.s.refs ≠ [] ∧
      ∀ lateSet, (splitStack st.s.refs lateSet).isSome = true ∧
        ∃ st1 log, CfgStack.Unroll F st lateSet = .ret (st1, log)) ∧
    (∀ (st : State σ) a, st.s = .slice [some a] → a < st.heap.length →
      ∀ lateSet, ∃ st1 log, CfgStack.Unroll F st lateSet = .ret (st1, log) ∧
        ∀ kv, kv ∈ log.calls ↔ kv ∈ (deref st.heap a).entries ∧ kv.1 ≠ ProcessKey) := by
  refine ⟨?_, ?_, ?_, ?_, ?_⟩
  · intro heap fs st hnew
    unfold NewCfgStack at hnew
    simp only at hnew
    split at hnew
    · simp at hnew
    · cases hnew; simp [snapshots, CfgStack.refs]
  · intro st m st1 hpush
    obtain ⟨heap, s, fs⟩ := st
    cases s with
    | nilPtr => simp [CfgStack.Push] at hpush
    | nilSlice => simp [CfgStack.Push] at hpush
    | slice refs =>
      cases m with
      | none => simp only [CfgStack.Push] at hpush; cases hpush; exact Nat.le_refl _
      | some a =>
        simp only [CfgStack.Push] at hpush
        cases hpush
        simp [CfgStack.refs]
  · intro st path cfgName r hload
    exact Loads_length_le F env cfgName path st r
      (Loads_of_ProcessCfgFile F env path cfgName st r hload)
  · intro st hreach
    have hready := Reachable_ready F env st hreach
    obtain ⟨⟨r0, rs, hs⟩, _⟩ := (ready_iff st).mp hready
    refine ⟨by simp [hs, CfgStack.refs], fun lateSet => ⟨?_, ?_⟩⟩
    · simp only [hs, CfgStack.refs, splitStack]
      split <;> rfl
    · obtain ⟨st1, log, hun, _⟩ := Unroll_calls F st lateSet hready
      exact ⟨st1, log, hun⟩
  · intro st a hs ha lateSet
    have hready : st.ready = true := by
      rw [ready_iff]
      refine ⟨⟨some a, [], hs⟩, ?_⟩
      intro x hx
      simp only [hs, CfgStack.refs, List.mem_singleton] at hx
      subst hx
      simpa [validRef] using ha
    obtain ⟨st1, log, hun, _, _, _, hcalls⟩ := Unroll_calls F st lateSet hready
    refine ⟨st1, log, hun, ?_⟩
    rintro ⟨k, v⟩
    rw [hcalls k v, GoMap.mem_entries_iff]
    have : firstValue (unrollOrder (snapshots st) lateSet) k = (deref st.heap a).get? k := by
      have hsn : snapshots st = [deref st.heap a] := by simp [snapshots, hs, CfgStack.refs, snapshotOf]
      rw [hsn]
      cases lateSet <;> simp only [unrollOrder, List.reverse_cons, List.reverse_nil,
        List.nil_append, firstValue, if_true, Bool.false_eq_true, if_false] <;>
        cases (deref st.heap a).get? k <;> rfl
    rw [this]
    exact And.comm

end FlagConf
